import Mathlib

set_option linter.unreachableTactic false
set_option linter.unusedTactic false
set_option linter.unnecessarySeqFocus false
set_option linter.unnecessarySimpa false

/-!
Verification development for the AdventOfCode repository (C++ puzzle
solutions, years 2024/2025).  Each day's program is shallowly embedded:
machine integers become `Int`/`Nat`, `std::string` becomes `List Char`,
files become a map `String → Option (List Char)`, and recursive
procedures that may diverge take explicit fuel and return `Option`.
-/

namespace AoC

/-- A file system: maps a path to the file's contents, or `none` when the
file does not exist (or cannot be opened). -/
def FileSys : Type := String → Option (List Char)

/-- One printed puzzle answer: which input file it was computed from, the
text label printed before it, and the numeric value. -/
structure AnswerEvent where
  file : String
  label : String
  value : ℤ
deriving DecidableEq, Repr

/-- `std::isspace` in the default locale. -/
def cppIsSpace (c : Char) : Bool :=
  c = ' ' || c = '\t' || c = '\n' || c = '\x0b' || c = '\x0c' || c = '\r'

/-- Embedding of `std::from_chars` into `long long`: an optional minus sign
followed by the longest prefix of decimal digits; fails only when that prefix
is empty.  The caller in Day 2 ignores how much of the string was consumed. -/
def from_chars_ll (s : List Char) : Option ℤ :=
  match s with
  | '-' :: rest =>
      let ds := rest.takeWhile Char.isDigit
      if ds.isEmpty then none
      else some (-(ds.foldl (fun a c => 10 * a + ((c.toNat - 48 : ℕ) : ℤ)) 0))
  | _ =>
      let ds := s.takeWhile Char.isDigit
      if ds.isEmpty then none
      else some (ds.foldl (fun a c => 10 * a + ((c.toNat - 48 : ℕ) : ℤ)) 0)

/-- `std::getline(ss, tok, delim)` driven to exhaustion: split at `delim`,
with no token produced once the stream is empty (so a trailing delimiter
yields no trailing empty token).  Fuel `length` always suffices because each
token consumes at least the delimiter. -/
def getlineSplitAux (delim : Char) : ℕ → List Char → List (List Char)
  | _, [] => []
  | 0, _ :: _ => []
  | fuel + 1, l =>
      let tok := l.takeWhile (· ≠ delim)
      let rest := l.dropWhile (· ≠ delim)
      match rest with
      | [] => [tok]
      | _ :: rest2 => tok :: getlineSplitAux delim fuel rest2

/-- Split a character stream at a delimiter, `std::getline`-style. -/
def getlineSplit (delim : Char) (l : List Char) : List (List Char) :=
  getlineSplitAux delim l.length l

/-! ## 2025 Day 2 (`src/2025/Day2/main.cpp`)

`std::to_string(long long)` produces the decimal representation, with a
leading minus sign for negative values. -/

namespace Day2Y2025

/-- A decimal digit value rendered as a character, as in C++ `std::to_string`. -/
def digitChar (d : ℕ) : Char := Char.ofNat (48 + d)

/-- Little-endian base-10 digits, computed with explicit fuel so that the
kernel can evaluate it; fuel `n` always suffices since `n / 10 < n`. -/
def digitsRevAux : ℕ → ℕ → List ℕ
  | _, 0 => []
  | 0, _ + 1 => []
  | fuel + 1, n + 1 => ((n + 1) % 10) :: digitsRevAux fuel ((n + 1) / 10)

/-- Little-endian base-10 digits of `n`. -/
def digitsRev (n : ℕ) : List ℕ := digitsRevAux n n

/-- Decimal representation of a natural number (most significant digit first). -/
def natChars (n : ℕ) : List Char :=
  if n = 0 then ['0'] else (digitsRev n).reverse.map digitChar

/-- Embedding of `std::to_string(id)` for `long long id`. -/
def llToString (id : ℤ) : List Char :=
  if id < 0 then '-' :: natChars id.natAbs else natChars id.toNat

/-- Embedding of `has_repeating_halves` (Day2/main.cpp:130-148): the decimal
string has an even number of characters, the first half does not start with
`'0'`, and the two halves coincide. -/
def has_repeating_halves (id : ℤ) : Bool :=
  let str := llToString id
  let len := str.length
  if len % 2 ≠ 0 then false
  else
    let half := len / 2
    let first_half := str.take half
    let second_half := str.drop half
    if first_half.head? = some '0' then false
    else decide (first_half = second_half)

/-- One iteration of the `pattern_len` loop of `has_repeating_pattern`:
`pl` divides `len`, the pattern does not start with `'0'`, it repeats at
least twice, and every segment equals the pattern.  (The C++ inner loop
starts at segment `i = 1`; segment `i = 0` is the pattern itself, so
including it changes nothing.) -/
def patternAt (s : List Char) (len pl : ℕ) : Bool :=
  if len % pl ≠ 0 then false
  else if (s.take pl).head? = some '0' then false
  else if len / pl < 2 then false
  else (List.range (len / pl)).all fun i =>
    decide ((s.drop (i * pl)).take pl = s.take pl)

/-- Embedding of `has_repeating_pattern` (Day2/main.cpp:189-230): some pattern
length `1 ≤ pattern_len ≤ len / 2` makes `patternAt` succeed. -/
def has_repeating_pattern (id : ℤ) : Bool :=
  let str := llToString id
  (List.range (str.length / 2)).any fun k => patternAt str str.length (k + 1)

/-- A parsed range (struct `Range`); `end_` stands for the C++ field `end`. -/
structure Range where
  start : ℤ
  end_ : ℤ
deriving DecidableEq, Repr

/-- The ids visited by `for (long long id = range.start; id <= range.end; ++id)`. -/
def Range.ids (r : Range) : List ℤ :=
  (List.range (r.end_ + 1 - r.start).toNat).map fun k => r.start + (k : ℤ)

/-- Embedding of `advent_of_code_2025_day2_part1` on already-parsed ranges:
sum of the ids with repeating halves. -/
def advent_of_code_2025_day2_part1 (ranges : List Range) : ℤ :=
  ranges.foldl
    (fun sum r =>
      r.ids.foldl (fun s id => if has_repeating_halves id then s + id else s) sum)
    0

/-- Embedding of `advent_of_code_2025_day2_part2` on already-parsed ranges:
sum of the ids with a repeating pattern. -/
def advent_of_code_2025_day2_part2 (ranges : List Range) : ℤ :=
  ranges.foldl
    (fun sum r =>
      r.ids.foldl (fun s id => if has_repeating_pattern id then s + id else s) sum)
    0

lemma mem_digitsRevAux (fuel n d : ℕ) (hd : d ∈ digitsRevAux fuel n) : d < 10 := by
  induction fuel generalizing n with
  | zero =>
      cases n with
      | zero => simp [digitsRevAux] at hd
      | succ m => simp [digitsRevAux] at hd
  | succ f ih =>
      cases n with
      | zero => simp [digitsRevAux] at hd
      | succ m =>
          rw [digitsRevAux] at hd
          rcases List.mem_cons.mp hd with h | h
          · subst h
            exact Nat.mod_lt _ (by norm_num)
          · exact ih _ h

lemma digitsRevAux_ne_nil (fuel n : ℕ) (h : 0 < n) :
    digitsRevAux (fuel + 1) n ≠ [] := by
  cases n with
  | zero => omega
  | succ m => simp [digitsRevAux]

lemma natChars_ne_nil (n : ℕ) : natChars n ≠ [] := by
  unfold natChars
  split
  · simp
  · rename_i hn
    have h : 0 < n := Nat.pos_of_ne_zero hn
    obtain ⟨m, rfl⟩ := Nat.exists_eq_succ_of_ne_zero hn
    have := digitsRevAux_ne_nil m (m + 1) h
    simp only [digitsRev]
    intro hcon
    rw [List.map_eq_nil, List.reverse_eq_nil_iff] at hcon
    exact this hcon

lemma llToString_ne_nil (id : ℤ) : llToString id ≠ [] := by
  unfold llToString
  split
  · simp
  · exact natChars_ne_nil _

lemma head?_take {α : Type} (l : List α) (n : ℕ) (hn : 1 ≤ n) :
    (l.take n).head? = l.head? := by
  cases l with
  | nil => simp
  | cons a t =>
      cases n with
      | zero => omega
      | succ m => simp

lemma mem_natChars (c : Char) (n : ℕ) (hc : c ∈ natChars n) :
    ∃ d, d < 10 ∧ c = digitChar d := by
  unfold natChars at hc
  split at hc
  · refine ⟨0, by norm_num, ?_⟩
    simp only [List.mem_singleton] at hc
    subst hc
    rfl
  · simp only [List.mem_map, List.mem_reverse] at hc
    obtain ⟨d, hd, rfl⟩ := hc
    exact ⟨d, mem_digitsRevAux _ _ _ hd, rfl⟩

lemma digitChar_ne_dash (d : ℕ) (hd : d < 10) : digitChar d ≠ '-' := by
  interval_cases d <;> decide

lemma mem_natChars_ne_dash (c : Char) (n : ℕ) (hc : c ∈ natChars n) : c ≠ '-' := by
  obtain ⟨d, hd, rfl⟩ := mem_natChars c n hc
  exact digitChar_ne_dash d hd

/-- Extraction lemma for `has_repeating_halves = true`. -/
lemma halves_spec (id : ℤ) (h : has_repeating_halves id = true) :
    (llToString id).length % 2 = 0 ∧
    ¬ ((llToString id).take ((llToString id).length / 2)).head? = some '0' ∧
    (llToString id).take ((llToString id).length / 2) =
      (llToString id).drop ((llToString id).length / 2) := by
  simp only [has_repeating_halves] at h
  set s := llToString id with hs
  by_cases hpar : s.length % 2 = 0
  · rw [if_neg (by simp [hpar])] at h
    by_cases hzero : (s.take (s.length / 2)).head? = some '0'
    · rw [if_pos hzero] at h
      exact absurd h (by simp)
    · rw [if_neg hzero] at h
      exact ⟨hpar, hzero, of_decide_eq_true h⟩
  · rw [if_pos (by simp [hpar])] at h
    exact absurd h (by simp)

lemma even_div_facts (n : ℕ) (h : n % 2 = 0) (h1 : 2 ≤ n) :
    n % (n / 2) = 0 ∧ n / (n / 2) = 2 := by
  obtain ⟨m, rfl⟩ : ∃ m, n = m * 2 := ⟨n / 2, by omega⟩
  have hm : 0 < m := by omega
  have h2 : m * 2 / 2 = m := by omega
  rw [h2]
  exact ⟨Nat.mul_mod_right m 2, Nat.mul_div_cancel_left 2 hm⟩

/-- Core implication: a repeating-halves decimal string is a repeating pattern
with pattern length `len / 2`.  Holds for every `id`. -/
lemma has_repeating_pattern_of_halves (id : ℤ)
    (h : has_repeating_halves id = true) : has_repeating_pattern id = true := by
  obtain ⟨hpar, hzero, heq⟩ := halves_spec id h
  simp only [has_repeating_pattern]
  set s := llToString id with hs
  set len := s.length with hlen
  have hlen1 : 0 < len := by
    rw [hlen]
    exact List.length_pos.mpr (llToString_ne_nil id)
  have hlen2 : 2 ≤ len := by omega
  have hhalf : 1 ≤ len / 2 := by omega
  obtain ⟨hmod, hdiv⟩ := even_div_facts len hpar hlen2
  rw [List.any_eq_true]
  refine ⟨len / 2 - 1, List.mem_range.mpr (by omega), ?_⟩
  have hk1 : len / 2 - 1 + 1 = len / 2 := by omega
  rw [hk1]
  unfold patternAt
  rw [if_neg (by simp [hmod]), if_neg hzero, if_neg (by omega : ¬ len / (len / 2) < 2)]
  rw [List.all_eq_true]
  intro i hi
  rw [hdiv, List.mem_range] at hi
  interval_cases i
  · simp
  · have hdroplen : (s.drop (len / 2)).length = len / 2 := by
      rw [List.length_drop, ← hlen]
      omega
    rw [decide_eq_true_iff, one_mul]
    rw [List.take_of_length_le (by omega : (s.drop (len / 2)).length ≤ len / 2)]
    exact heq.symm

lemma head?_drop {α : Type} (l : List α) (n : ℕ) :
    (l.drop n).head? = l.get? n := by
  induction l generalizing n with
  | nil => simp
  | cons a t ih =>
      cases n with
      | zero => simp
      | succ m => simpa using ih m

/-- A nonpositive `id` never has a repeating pattern: for `id < 0` the string
starts with `'-'`, which cannot recur at the start of the second segment; for
`id = 0` the string is `"0"`, too short for any pattern. -/
lemma has_repeating_pattern_nonpos (id : ℤ) (h : id ≤ 0) :
    has_repeating_pattern id = false := by
  rcases lt_or_eq_of_le h with hneg | rfl
  · simp only [has_repeating_pattern]
    rw [Bool.eq_false_iff]
    intro hcon
    rw [List.any_eq_true] at hcon
    obtain ⟨k, hkmem, hk⟩ := hcon
    set s := llToString id with hs
    set len := s.length with hlen
    rw [List.mem_range] at hkmem
    set pl := k + 1 with hpl
    unfold patternAt at hk
    by_cases hmod : len % pl = 0
    · rw [if_neg (by simp [hmod])] at hk
      by_cases hzero : (s.take pl).head? = some '0'
      · rw [if_pos hzero] at hk
        exact absurd hk (by simp)
      · rw [if_neg hzero] at hk
        by_cases hreps : len / pl < 2
        · rw [if_pos hreps] at hk
          exact absurd hk (by simp)
        · rw [if_neg hreps] at hk
          rw [List.all_eq_true] at hk
          have hseg := hk 1 (List.mem_range.mpr (by omega))
          rw [decide_eq_true_iff, one_mul] at hseg
          -- heads of the two segments agree
          have hheads : (s.drop pl).head? = s.head? := by
            have h1 : ((s.drop pl).take pl).head? = (s.drop pl).head? :=
              head?_take _ _ (by omega)
            have h2 : (s.take pl).head? = s.head? := head?_take _ _ (by omega)
            rw [← h1, hseg, h2]
          -- the left side is a decimal digit of `id.natAbs`, the right is '-'
          have hshape : s = '-' :: natChars id.natAbs := by
            rw [hs]
            unfold llToString
            rw [if_pos hneg]
          -- position `pl ≥ 1` of `s` sits inside the digit part
          have hget : s.get? pl = (natChars id.natAbs).get? k := by
            rw [hshape, hpl]
            rfl
          have hdash : s.head? = some '-' := by rw [hshape]; rfl
          have hdigit : (natChars id.natAbs).get? k = some '-' := by
            rw [← hget, ← head?_drop, hheads, hdash]
          have hcmem : '-' ∈ natChars id.natAbs := List.get?_mem hdigit
          exact mem_natChars_ne_dash '-' _ hcmem rfl
    · rw [if_pos (by simp [hmod])] at hk
      exact absurd hk (by simp)
  · rfl

lemma foldl_cond_sum (p : ℤ → Bool) (l : List ℤ) (a : ℤ) :
    l.foldl (fun s id => if p id then s + id else s) a =
      a + (l.map fun id => if p id then id else 0).sum := by
  induction l generalizing a with
  | nil => simp
  | cons x t ih =>
      simp only [List.foldl_cons, List.map_cons, List.sum_cons]
      by_cases hx : p x
      · rw [if_pos hx, if_pos hx, ih]
        ring
      · rw [if_neg hx, if_neg hx, ih]
        ring

lemma range_term_le (r : Range) :
    (r.ids.map fun id => if has_repeating_halves id then id else 0).sum ≤
      (r.ids.map fun id => if has_repeating_pattern id then id else 0).sum := by
  apply List.sum_le_sum
  intro id _
  by_cases hh : has_repeating_halves id
  · rw [if_pos hh, if_pos (has_repeating_pattern_of_halves id hh)]
  · rw [if_neg hh]
    by_cases hp : has_repeating_pattern id
    · rw [if_pos hp]
      by_contra hlt
      push_neg at hlt
      have := has_repeating_pattern_nonpos id (le_of_lt hlt)
      rw [this] at hp
      exact absurd hp (by simp)
    · rw [if_neg hp]

lemma part_sum_eq (f : ℤ → Bool) (ranges : List Range) (a : ℤ) :
    ranges.foldl
      (fun sum r => r.ids.foldl (fun s id => if f id then s + id else s) sum) a =
      a + (ranges.map fun r => (r.ids.map fun id => if f id then id else 0).sum).sum := by
  induction ranges generalizing a with
  | nil => simp
  | cons r t ih =>
      simp only [List.foldl_cons, List.map_cons, List.sum_cons]
      rw [ih, foldl_cond_sum]
      ring

/-- C9: for every positive `long long` id, `has_repeating_halves id = true`
implies `has_repeating_pattern id = true` (two identical halves form a
pattern of length `len / 2` repeated twice); consequently, for any fixed list
of ranges, the Part 2 sum `advent_of_code_2025_day2_part2` is at least the
Part 1 sum `advent_of_code_2025_day2_part1`. -/
theorem claim_C9_pattern_ge_halves :
    (∀ id : ℤ, 0 < id →
      has_repeating_halves id = true → has_repeating_pattern id = true) ∧
    ∀ ranges : List Range,
      advent_of_code_2025_day2_part1 ranges ≤ advent_of_code_2025_day2_part2 ranges := by
  constructor
  · exact fun id _ h => has_repeating_pattern_of_halves id h
  · intro ranges
    unfold advent_of_code_2025_day2_part1 advent_of_code_2025_day2_part2
    rw [part_sum_eq, part_sum_eq]
    simp only [zero_add]
    apply List.sum_le_sum
    intro r _
    exact range_term_le r

/-- Witness for C9 at concrete inputs: `1212` has repeating halves and hence a
repeating pattern, and on the range `[10, 30]` (which contains `11` and `22`
for Part 1 and additionally nothing else for Part 2) the Part 1 sum is at most
the Part 2 sum. -/
theorem claim_C9_pattern_ge_halves_witness :
    ((0 : ℤ) < 1212 ∧ has_repeating_halves 1212 = true ∧
      has_repeating_pattern 1212 = true) ∧
    advent_of_code_2025_day2_part1 [⟨10, 30⟩] ≤
      advent_of_code_2025_day2_part2 [⟨10, 30⟩] :=
  ⟨⟨by decide, by decide,
    claim_C9_pattern_ge_halves.1 1212 (by decide) (by decide)⟩,
   claim_C9_pattern_ge_halves.2 [⟨10, 30⟩]⟩

/-- Embedding of `Range::from_string` (Day2/main.cpp:35-70): trim whitespace,
find the dash starting from position 1, parse both sides with `from_chars`,
reject when `start > end`.  Malformed input yields `none` (`std::nullopt`). -/
def Range.from_string (range_str : List Char) : Option Range :=
  let t := ((range_str.dropWhile cppIsSpace).reverse.dropWhile cppIsSpace).reverse
  match ((t.drop 1).findIdx? (· = '-')).map (· + 1) with
  | none => none
  | some dash_pos =>
      let start_str := t.take dash_pos
      let end_str := t.drop (dash_pos + 1)
      match from_chars_ll start_str, from_chars_ll end_str with
      | some s, some e => if s > e then none else some ⟨s, e⟩
      | _, _ => none

/-- Embedding of Day 2's `read_input` parsing loop (Day2/main.cpp:96-117):
split the whole file at commas and keep the ranges that parse; invalid
ranges are silently skipped. -/
def read_input (content : List Char) : List Range :=
  (getlineSplit ',' content).filterMap Range.from_string

/-- One `advent_of_code_2025_day2_part1(file_path)` call including the file
read: a missing file raises (`Except.error`), otherwise the sum is computed
from whatever ranges survived parsing. -/
def run_part1 (fs : FileSys) (path : String) : Except String ℤ :=
  match fs path with
  | none => .error ("File does not exist: " ++ path)
  | some c => .ok (advent_of_code_2025_day2_part1 (read_input c))

/-- One `advent_of_code_2025_day2_part2(file_path)` call including the file
read. -/
def run_part2 (fs : FileSys) (path : String) : Except String ℤ :=
  match fs path with
  | none => .error ("File does not exist: " ++ path)
  | some c => .ok (advent_of_code_2025_day2_part2 (read_input c))

/-- Embedding of Day 2's `main` (Day2/main.cpp:270-302): run part 1 and
part 2 on the example file and then on the real file; the first exception
aborts the run with exit status 1, otherwise the exit status is 0.  The
returned list holds the printed answers in order. -/
def main (fs : FileSys) : ℕ × List AnswerEvent :=
  match run_part1 fs "input_example.txt" with
  | .error _ => (1, [])
  | .ok r1e =>
      let e1 : AnswerEvent := ⟨"input_example.txt", "Sum of invalid IDs", r1e⟩
      match run_part2 fs "input_example.txt" with
      | .error _ => (1, [e1])
      | .ok r2e =>
          let e2 : AnswerEvent := ⟨"input_example.txt", "Sum of pattern IDs", r2e⟩
          match run_part1 fs "input.txt" with
          | .error _ => (1, [e1, e2])
          | .ok r1 =>
              let e3 : AnswerEvent := ⟨"input.txt", "Sum of invalid IDs", r1⟩
              match run_part2 fs "input.txt" with
              | .error _ => (1, [e1, e2, e3])
              | .ok r2 => (0, [e1, e2, e3, ⟨"input.txt", "Sum of pattern IDs", r2⟩])

/-- A file system on which every file exists but holds the malformed range
text `abc-def`. -/
def fsMalformed : FileSys := fun _ => some "abc-def".toList

/-- Counterexample to C3: `abc-def` is a malformed numeric field
(`Range::from_string` rejects it), yet Day 2 run on files holding exactly
this text terminates normally with exit status 0 and prints all four
answers (each `0`), rather than raising an error and exiting with status 1:
Day 2 silently skips malformed fields. -/
theorem claim_C3_counterexample :
    Range.from_string "abc-def".toList = none ∧
    read_input "abc-def".toList = [] ∧
    main fsMalformed =
      (0, [⟨"input_example.txt", "Sum of invalid IDs", 0⟩,
           ⟨"input_example.txt", "Sum of pattern IDs", 0⟩,
           ⟨"input.txt", "Sum of invalid IDs", 0⟩,
           ⟨"input.txt", "Sum of pattern IDs", 0⟩]) := by
  refine ⟨by decide, by decide, by decide⟩

/-- C3 amended: days such as 2025 Day 1 and 2024 Day 1 do raise descriptive
errors on malformed numeric fields, but 2025 Day 2 never does: its
`read_input` silently drops every malformed comma-separated range
(`Range::from_string` returns `nullopt` and the loop keeps going), and as
long as both input files exist the run always terminates normally with exit
status 0 and all four answers printed, whatever the file contents. -/
theorem claim_C3_day2_never_rejects (fs : FileSys) (c1 c2 : List Char)
    (h1 : fs "input_example.txt" = some c1) (h2 : fs "input.txt" = some c2) :
    (main fs).1 = 0 ∧ (main fs).2.length = 4 := by
  unfold main run_part1 run_part2
  rw [h1, h2]
  exact ⟨rfl, rfl⟩

/-- Witness for C3's amended theorem on the concrete malformed file system. -/
theorem claim_C3_day2_never_rejects_witness :
    fsMalformed "input_example.txt" = some "abc-def".toList ∧
    fsMalformed "input.txt" = some "abc-def".toList ∧
    (main fsMalformed).1 = 0 ∧ (main fsMalformed).2.length = 4 :=
  ⟨rfl, rfl,
   claim_C3_day2_never_rejects fsMalformed "abc-def".toList "abc-def".toList rfl rfl⟩

end Day2Y2025

/-! ## 2024 Day 1 (`src/2024/Day1/main.cpp`) -/

namespace Day1Y2024

/-- `operator>>` for `int` after whitespace has been skipped: an optional
sign followed by at least one decimal digit; returns the value and the
unconsumed rest of the stream. -/
def extractInt (s : List Char) : Option (ℤ × List Char) :=
  match s with
  | '-' :: rest =>
      let ds := rest.takeWhile Char.isDigit
      if ds.isEmpty then none
      else some (-(ds.foldl (fun a c => 10 * a + ((c.toNat - 48 : ℕ) : ℤ)) 0),
                 rest.dropWhile Char.isDigit)
  | '+' :: rest =>
      let ds := rest.takeWhile Char.isDigit
      if ds.isEmpty then none
      else some (ds.foldl (fun a c => 10 * a + ((c.toNat - 48 : ℕ) : ℤ)) 0,
                 rest.dropWhile Char.isDigit)
  | _ =>
      let ds := s.takeWhile Char.isDigit
      if ds.isEmpty then none
      else some (ds.foldl (fun a c => 10 * a + ((c.toNat - 48 : ℕ) : ℤ)) 0,
                 s.dropWhile Char.isDigit)

/-- The `while (file >> left_number >> right_number)` loop
(2024/Day1/main.cpp:43-55).  Extraction that fails at end of file ends the
loop with `eof` set (accepted, a trailing unpaired number is discarded);
extraction that fails on other characters leaves `eof` unset, which
`read_input` turns into an error. -/
def readPairsAux : ℕ → List Char → Except String (List (ℤ × ℤ))
  | 0, _ => .error "fuel exhausted"
  | fuel + 1, s =>
      let s1 := s.dropWhile cppIsSpace
      if s1.isEmpty then .ok []
      else
        match extractInt s1 with
        | none => .error "invalid format"
        | some (l, s2) =>
            let s3 := s2.dropWhile cppIsSpace
            if s3.isEmpty then .ok []
            else
              match extractInt s3 with
              | none => .error "invalid format"
              | some (r, s4) => (readPairsAux fuel s4).map ((l, r) :: ·)

/-- Parse the whole file into the two integer columns (kept as pairs). -/
def readPairs (s : List Char) : Except String (List (ℤ × ℤ)) :=
  readPairsAux (s.length + 1) s

/-- Embedding of 2024 Day 1 `read_input` (2024/Day1/main.cpp:21-61): a
missing (or unopenable) file raises a `runtime_error` naming the file, and a
parse failure before end of file raises an invalid-format `runtime_error`
naming the file.  (The line number in the C++ message is not modelled.) -/
def read_input (fs : FileSys) (path : String) : Except String (List (ℤ × ℤ)) :=
  match fs path with
  | none => .error ("File does not exist: " ++ path)
  | some c =>
      (readPairs c).mapError
        fun _ => "Error reading file: " ++ path ++ " - invalid format"

/-- Embedding of `advent_of_code_2024_day1_part1`: sort both columns and sum
the absolute differences. -/
def run_part1 (fs : FileSys) (path : String) : Except String ℤ :=
  (read_input fs path).map fun data =>
    let lhs := (data.map Prod.fst).mergeSort (fun a b => decide (a ≤ b))
    let rhs := (data.map Prod.snd).mergeSort (fun a b => decide (a ≤ b))
    ((lhs.zip rhs).map fun p => |p.1 - p.2|).sum

/-- Embedding of `advent_of_code_2024_day1_part2`: for each left number that
occurs in the right column, add `left * (occurrences in right column)`. -/
def run_part2 (fs : FileSys) (path : String) : Except String ℤ :=
  (read_input fs path).map fun data =>
    let right := data.map Prod.snd
    (data.map Prod.fst).foldl
      (fun acc left_num =>
        if left_num ∈ right then acc + left_num * right.count left_num else acc)
      0

/-- Embedding of 2024 Day 1's `main` (2024/Day1/main.cpp:107-141): part 1 and
part 2 on the example file, then on the real file; the first exception aborts
with exit status 1. -/
def main (fs : FileSys) : ℕ × List AnswerEvent :=
  match run_part1 fs "input_example.txt" with
  | .error _ => (1, [])
  | .ok r1e =>
      let e1 : AnswerEvent := ⟨"input_example.txt", "Sum of distances", r1e⟩
      match run_part2 fs "input_example.txt" with
      | .error _ => (1, [e1])
      | .ok r2e =>
          let e2 : AnswerEvent := ⟨"input_example.txt", "Similarity score", r2e⟩
          match run_part1 fs "input.txt" with
          | .error _ => (1, [e1, e2])
          | .ok r1 =>
              let e3 : AnswerEvent := ⟨"input.txt", "Sum of distances", r1⟩
              match run_part2 fs "input.txt" with
              | .error _ => (1, [e1, e2, e3])
              | .ok r2 => (0, [e1, e2, e3, ⟨"input.txt", "Similarity score", r2⟩])

/-- C4: when an input file is missing (or cannot be opened), `read_input`
raises a `runtime_error` whose message names the file, `main` catches it and
exits with status 1, and no puzzle answer computed from the failing file is
printed. -/
theorem claim_C4_missing_file :
    (∀ (fs : FileSys) (path : String), fs path = none →
      read_input fs path = .error ("File does not exist: " ++ path)) ∧
    ∀ (fs : FileSys) (p : String), (p = "input_example.txt" ∨ p = "input.txt") →
      fs p = none →
      (main fs).1 = 1 ∧ ∀ e ∈ (main fs).2, e.file ≠ p := by
  constructor
  · intro fs path h
    simp [read_input, h]
  · intro fs p hp hnone
    rcases hp with rfl | rfl
    · have h1 : run_part1 fs "input_example.txt" =
          .error ("File does not exist: " ++ "input_example.txt") := by
        simp [run_part1, read_input, hnone, Except.map]
      simp [main, h1]
    · have h1 : run_part1 fs "input.txt" =
          .error ("File does not exist: " ++ "input.txt") := by
        simp [run_part1, read_input, hnone, Except.map]
      unfold main
      cases hr1 : run_part1 fs "input_example.txt" with
      | error e => simp
      | ok r1e =>
          cases hr2 : run_part2 fs "input_example.txt" with
          | error e => simp
          | ok r2e =>
              rw [h1]
              simp

/-- Witness for C4: on the empty file system both claims apply concretely. -/
theorem claim_C4_missing_file_witness :
    ((fun _ => none : FileSys) "input.txt" = none ∧
      read_input (fun _ => none) "input.txt" =
        .error ("File does not exist: " ++ "input.txt")) ∧
    ("input.txt" = "input_example.txt" ∨ "input.txt" = "input.txt") ∧
    (main (fun _ => none)).1 = 1 ∧
    ∀ e ∈ (main (fun _ => none)).2, e.file ≠ "input.txt" :=
  ⟨⟨rfl, claim_C4_missing_file.1 (fun _ => none) "input.txt" rfl⟩,
   Or.inr rfl,
   claim_C4_missing_file.2 (fun _ => none) "input.txt" (Or.inr rfl) rfl⟩

end Day1Y2024

/-! ## 2025 Day 1 (`src/2025/Day1/main.cpp`)

Part 2 computes the number of zero crossings of the dial with closed-form
integer arithmetic on an infinite number line (C++ `int`, hence truncating
`/` and `%`, embedded as `Int.tdiv`/`Int.tmod`).  The reference simulation
(the spec side of claim C8) moves one step at a time on the 0-99 dial,
counting every single step that lands exactly on 0. -/

namespace Day1Y2025

/-- The movement `Direction` enum. -/
inductive Direction where
  | Right
  | Left
deriving DecidableEq, Repr

/-- Casts of truncating division agree with `Nat` division. -/
lemma natCast_tdiv (m n : ℕ) : ((m : ℤ)).tdiv (n : ℤ) = ((m / n : ℕ) : ℤ) := rfl

/-- Casts of truncating remainder agree with `Nat` remainder. -/
lemma natCast_tmod (m n : ℕ) : ((m : ℤ)).tmod (n : ℤ) = ((m % n : ℕ) : ℤ) := rfl

lemma neg_natCast_tmod (m n : ℕ) :
    (-(m : ℤ)).tmod (n : ℤ) = -((m % n : ℕ) : ℤ) := by
  cases m with
  | zero => simp
  | succ k => rfl

lemma neg_natCast_tdiv (m n : ℕ) :
    (-(m : ℤ)).tdiv (n : ℤ) = -((m / n : ℕ) : ℤ) := by
  cases m with
  | zero => simp
  | succ k => rfl

lemma tdiv100 (m : ℕ) : ((m : ℤ)).tdiv 100 = ((m / 100 : ℕ) : ℤ) := rfl

lemma tmod100 (m : ℕ) : ((m : ℤ)).tmod 100 = ((m % 100 : ℕ) : ℤ) := rfl

lemma neg_tmod100 (m : ℕ) : (-(m : ℤ)).tmod 100 = -((m % 100 : ℕ) : ℤ) := by
  cases m with
  | zero => simp
  | succ k => rfl

/-- One instruction of `advent_of_code_2025_day1_part2`
(2025/Day1/main.cpp:230-276): returns the pair `(zero_hits, new position)`.
`int` division and remainder truncate toward zero, and the final remainder
is adjusted into `[0, 100)` exactly as in the source. -/
def part2_step (direction : Direction) (steps position : ℤ) : ℤ × ℤ :=
  match direction with
  | .Right =>
      let end_pos := position + steps
      let first_zero := (position.tdiv 100 + 1) * 100
      let zero_hits :=
        if first_zero ≤ end_pos then (end_pos - first_zero).tdiv 100 + 1 else 0
      (zero_hits, end_pos.tmod 100)
  | .Left =>
      let end_pos_raw := position - steps
      let fz0 := position.tdiv 100 * 100
      let first_zero_in_range := if fz0 = position then fz0 - 100 else fz0
      let zero_hits :=
        if first_zero_in_range ≥ end_pos_raw then
          (first_zero_in_range - end_pos_raw).tdiv 100 + 1
        else 0
      let m := end_pos_raw.tmod 100
      (zero_hits, if m < 0 then m + 100 else m)

/-- Embedding of `advent_of_code_2025_day1_part2` on a parsed instruction
list (steps are nonnegative because `read_input` rejects negative values):
fold the closed-form step over the instructions starting at position 50. -/
def advent_of_code_2025_day1_part2 (instructions : List (Direction × ℕ)) : ℤ :=
  (instructions.foldl
    (fun st ins =>
      let r := part2_step ins.1 (ins.2 : ℤ) st.2
      (st.1 + r.1, r.2))
    ((0 : ℤ), (50 : ℤ))).1

/-- Reference semantics (from the claim): one single step of the dial. -/
def stepOnce : Direction → ℕ → ℕ
  | .Right, p => (p + 1) % 100
  | .Left, p => (p + 99) % 100

/-- Reference semantics (from the claim): execute one instruction one step at
a time, counting every single step whose resulting position is exactly 0;
returns `(zero count, final position)`. -/
def simMove (d : Direction) : ℕ → ℕ → ℕ × ℕ
  | 0, p => (0, p)
  | s + 1, p =>
      ((if stepOnce d p = 0 then 1 else 0) + (simMove d s (stepOnce d p)).1,
       (simMove d s (stepOnce d p)).2)

/-- Reference semantics (from the claim): the whole simulation, dial starting
at position 50. -/
def simRun (instructions : List (Direction × ℕ)) : ℕ :=
  (instructions.foldl
    (fun st ins =>
      (st.1 + (simMove ins.1 ins.2 st.2).1, (simMove ins.1 ins.2 st.2).2))
    (0, 50)).1

lemma simMove_R (s : ℕ) : ∀ p : ℕ, p < 100 →
    simMove .Right s p = ((p + s) / 100, (p + s) % 100) := by
  induction s with
  | zero =>
      intro p hp
      simp only [simMove, Prod.mk.injEq]
      omega
  | succ n ih =>
      intro p hp
      have h2 : (p + 1) % 100 < 100 := Nat.mod_lt _ (by norm_num)
      simp only [simMove, stepOnce]
      rw [ih _ h2]
      simp only [Prod.mk.injEq]
      constructor
      · split_ifs <;> omega
      · omega

/-- Zero hits of a left move of `s` single steps from position `p < 100`. -/
def leftHits (p s : ℕ) : ℕ := if p = 0 then s / 100 else (s + 100 - p) / 100

lemma simMove_L (s : ℕ) : ∀ p : ℕ, p < 100 →
    simMove .Left s p = (leftHits p s, (p + 99 * s) % 100) := by
  induction s with
  | zero =>
      intro p hp
      simp only [simMove, leftHits, Prod.mk.injEq]
      constructor
      · split_ifs <;> omega
      · omega
  | succ n ih =>
      intro p hp
      have h2 : (p + 99) % 100 < 100 := Nat.mod_lt _ (by norm_num)
      simp only [simMove, stepOnce]
      rw [ih _ h2]
      simp only [leftHits, Prod.mk.injEq]
      constructor
      · split_ifs <;> omega
      · omega

lemma part2_step_eq (d : Direction) (s p : ℕ) (hp : p < 100) :
    part2_step d (s : ℤ) (p : ℤ) =
      (((simMove d s p).1 : ℤ), ((simMove d s p).2 : ℤ)) := by
  cases d with
  | Right =>
      rw [simMove_R s p hp]
      simp only [part2_step]
      have htd : ((p : ℤ)).tdiv 100 = ((p / 100 : ℕ) : ℤ) := natCast_tdiv p 100
      rw [htd, Nat.div_eq_of_lt hp]
      simp only [Nat.cast_zero]
      have hps : ((p : ℤ) + (s : ℤ)) = ((p + s : ℕ) : ℤ) := by push_cast; ring
      rw [hps]
      split_ifs with hc
      · have hsub : ((p + s : ℕ) : ℤ) - (0 + 1) * 100 = ((p + s - 100 : ℕ) : ℤ) := by
          omega
        rw [hsub, tdiv100, tmod100]
        simp only [Prod.mk.injEq]
        constructor
        · push_cast <;> omega
        · push_cast <;> omega
      · rw [tmod100]
        simp only [Prod.mk.injEq]
        constructor
        · push_cast <;> omega
        · push_cast <;> omega
  | Left =>
      rw [simMove_L s p hp]
      simp only [part2_step, leftHits]
      have htd : ((p : ℤ)).tdiv 100 = ((p / 100 : ℕ) : ℤ) := natCast_tdiv p 100
      rw [htd]
      have hp100 : p / 100 = 0 := Nat.div_eq_of_lt hp
      rw [hp100]
      simp only [Nat.cast_zero, zero_mul]
      -- the remainder, rewritten through `Nat` casts
      have hsnd : (let m := ((p : ℤ) - (s : ℤ)).tmod 100;
          if m < 0 then m + 100 else m) = (((p + 99 * s) % 100 : ℕ) : ℤ) := by
        rcases le_or_lt s p with hsp | hsp
        · have hsub : ((p : ℤ) - (s : ℤ)) = ((p - s : ℕ) : ℤ) := by push_cast; omega
          rw [hsub, tmod100]
          have hmnn : ¬ (((p - s) % 100 : ℕ) : ℤ) < 0 := by omega
          simp only [hmnn, if_false]
          push_cast <;> omega
        · have hsub : ((p : ℤ) - (s : ℤ)) = -(((s - p : ℕ) : ℤ)) := by push_cast; omega
          rw [hsub, neg_tmod100]
          by_cases hz : (s - p) % 100 = 0
          · simp only [hz, Nat.cast_zero, neg_zero]
            have : ¬ ((0 : ℤ) < 0) := by omega
            rw [if_neg (by omega : ¬ ((0 : ℤ) < 0))]
            push_cast <;> omega
          · rw [if_pos (by push_cast <;> omega : -(((s - p) % 100 : ℕ) : ℤ) < 0)]
            push_cast <;> omega
      by_cases hp0 : p = 0
      · subst hp0
        rw [if_pos (by omega : (0 : ℤ) = ((0 : ℕ) : ℤ))]
        simp only [Prod.mk.injEq]
        refine ⟨?_, hsnd⟩
        simp only [if_true]
        by_cases hge : 100 ≤ s
        · rw [if_pos (by push_cast; omega : (0 : ℤ) - 100 ≥ ((0 : ℕ) : ℤ) - (s : ℤ))]
          have hop : (0 : ℤ) - 100 - (((0 : ℕ) : ℤ) - (s : ℤ)) = ((s - 100 : ℕ) : ℤ) := by
            push_cast
            omega
          rw [hop, tdiv100]
          push_cast <;> omega
        · rw [if_neg (by push_cast; omega : ¬ ((0 : ℤ) - 100 ≥ ((0 : ℕ) : ℤ) - (s : ℤ)))]
          push_cast <;> omega
      · rw [if_neg (by omega : ¬ ((0 : ℤ) = (p : ℤ)))]
        simp only [Prod.mk.injEq]
        refine ⟨?_, hsnd⟩
        rw [if_neg hp0]
        by_cases hge : p ≤ s
        · rw [if_pos (by push_cast; omega : (0 : ℤ) ≥ (p : ℤ) - (s : ℤ))]
          have hop : (0 : ℤ) - ((p : ℤ) - (s : ℤ)) = ((s - p : ℕ) : ℤ) := by
            push_cast
            omega
          rw [hop, tdiv100]
          push_cast <;> omega
        · rw [if_neg (by push_cast; omega : ¬ ((0 : ℤ) ≥ (p : ℤ) - (s : ℤ)))]
          push_cast <;> omega

lemma simMove_snd_lt (d : Direction) (s p : ℕ) (hp : p < 100) :
    (simMove d s p).2 < 100 := by
  cases d with
  | Right =>
      rw [simMove_R s p hp]
      exact Nat.mod_lt _ (by norm_num)
  | Left =>
      rw [simMove_L s p hp]
      exact Nat.mod_lt _ (by norm_num)

lemma fold_part2_eq (instructions : List (Direction × ℕ)) :
    ∀ (c p : ℕ), p < 100 →
      instructions.foldl
        (fun st ins =>
          let r := part2_step ins.1 (ins.2 : ℤ) st.2
          (st.1 + r.1, r.2)) ((c : ℤ), (p : ℤ)) =
      (((instructions.foldl
          (fun st ins =>
            (st.1 + (simMove ins.1 ins.2 st.2).1, (simMove ins.1 ins.2 st.2).2))
          (c, p)).1 : ℤ),
       ((instructions.foldl
          (fun st ins =>
            (st.1 + (simMove ins.1 ins.2 st.2).1, (simMove ins.1 ins.2 st.2).2))
          (c, p)).2 : ℤ)) := by
  induction instructions with
  | nil => intro c p hp; rfl
  | cons ins rest ih =>
      intro c p hp
      simp only [List.foldl_cons]
      rw [part2_step_eq ins.1 ins.2 p hp]
      have hlt := simMove_snd_lt ins.1 ins.2 p hp
      have hcast : ((c : ℤ) + ((simMove ins.1 ins.2 p).1 : ℤ)) =
          ((c + (simMove ins.1 ins.2 p).1 : ℕ) : ℤ) := by push_cast; ring
      rw [hcast]
      exact ih _ _ hlt

/-- C8: on every parsed instruction list (direction with a nonnegative step
count), the closed-form zero-crossing computation of
`advent_of_code_2025_day1_part2` returns the same count as the reference
one-step-at-a-time simulation `simRun` that starts the dial at position 50
and counts every single step whose resulting position is exactly 0. -/
theorem claim_C8_part2_closed_form_eq_simulation
    (instructions : List (Direction × ℕ)) :
    advent_of_code_2025_day1_part2 instructions = (simRun instructions : ℤ) := by
  unfold advent_of_code_2025_day1_part2 simRun
  have h := fold_part2_eq instructions 0 50 (by norm_num)
  simp only [Nat.cast_zero, Nat.cast_ofNat] at h
  rw [h]

end Day1Y2025

/-! ## File access table

Every `main` in the repository is `int main()` (no `argc`/`argv`), declares
its input paths as hard-coded relative `std::filesystem::path` constants, and
passes them to the day's solver calls in a fixed order.  `filesRead` records
those arguments in call order, transcribed from each file's `main`. -/

/-- A day's program, identified by its source directory, together with the
input file paths its `main` passes to the day's file-reading solvers. -/
structure DayProgram where
  name : String
  filesRead : List String
deriving DecidableEq, Repr

/-- 2024/Day1/main.cpp:107-141. -/
def day1_2024 : DayProgram :=
  ⟨"2024/Day1", ["input_example.txt", "input_example.txt", "input.txt", "input.txt"]⟩

/-- 2025/Day1/main.cpp:289-321. -/
def day1_2025 : DayProgram :=
  ⟨"2025/Day1", ["input_example.txt", "input_example.txt", "input.txt", "input.txt"]⟩

/-- 2025/Day2/main.cpp:270-302. -/
def day2_2025 : DayProgram :=
  ⟨"2025/Day2", ["input_example.txt", "input_example.txt", "input.txt", "input.txt"]⟩

/-- 2025/Day3/main.cpp:175-207. -/
def day3_2025 : DayProgram :=
  ⟨"2025/Day3", ["input_example.txt", "input_example.txt", "input.txt", "input.txt"]⟩

/-- 2025/Day4/main.cpp:209-241. -/
def day4_2025 : DayProgram :=
  ⟨"2025/Day4", ["input_example.txt", "input_example.txt", "input.txt", "input.txt"]⟩

/-- 2025/Day5/main.cpp:182-214. -/
def day5_2025 : DayProgram :=
  ⟨"2025/Day5", ["input_example.txt", "input_example.txt", "input.txt", "input.txt"]⟩

/-- 2025/Day6/main.cpp:346-379. -/
def day6_2025 : DayProgram :=
  ⟨"2025/Day6", ["input_example.txt", "input_example.txt", "input.txt", "input.txt"]⟩

/-- 2025/Day7/main.cpp:291-323. -/
def day7_2025 : DayProgram :=
  ⟨"2025/Day7", ["input_example.txt", "input_example.txt", "input.txt", "input.txt"]⟩

/-- 2025/Day8/main.cpp:297-329. -/
def day8_2025 : DayProgram :=
  ⟨"2025/Day8", ["input_example.txt", "input_example.txt", "input.txt", "input.txt"]⟩

/-- 2025/Day9/main.cpp:329-361. -/
def day9_2025 : DayProgram :=
  ⟨"2025/Day9", ["input_example.txt", "input_example.txt", "input.txt", "input.txt"]⟩

/-- 2025/Day10/main.cpp:559-588: part 1 on the example, part 2 on the
example, part 1 on the real input (part 2 is never run on the real input). -/
def day10_2025 : DayProgram :=
  ⟨"2025/Day10", ["input_example.txt", "input_example.txt", "input.txt"]⟩

/-- 2025/Day11/main.cpp:185-219: three distinct hard-coded paths, with
per-part example files. -/
def day11_2025 : DayProgram :=
  ⟨"2025/Day11",
   ["input_example_part1.txt", "input_example_part2.txt", "input.txt", "input.txt"]⟩

/-- 2025/Day12/main.cpp:472-495: only part 1 exists. -/
def day12_2025 : DayProgram :=
  ⟨"2025/Day12", ["input_example.txt", "input.txt"]⟩

/-- All thirteen programs in the repository. -/
def allDays : List DayProgram :=
  [day1_2024, day1_2025, day2_2025, day3_2025, day4_2025, day5_2025,
   day6_2025, day7_2025, day8_2025, day9_2025, day10_2025, day11_2025,
   day12_2025]

/-- Counterexample to C7: 2025 Day 11 reads `input_example_part1.txt`, which
is neither `input.txt` nor `input_example.txt`, and it reads three distinct
paths, not at most two. -/
theorem claim_C7_counterexample :
    "input_example_part1.txt" ∈ day11_2025.filesRead ∧
    "input_example_part1.txt" ∉ (["input.txt", "input_example.txt"] : List String) ∧
    day11_2025.filesRead.dedup.length = 3 := by
  decide

/-- C7 amended: every day's program reads at most three distinct hard-coded
relative input paths (and takes no command-line arguments — every `main` in
the repository is `int main()`); twelve of the thirteen programs read only
`input.txt` and `input_example.txt`, while 2025 Day 11 reads
`input_example_part1.txt`, `input_example_part2.txt` and `input.txt`. -/
theorem claim_C7_input_paths (d : DayProgram) (hd : d ∈ allDays) :
    d.filesRead.dedup.length ≤ 3 ∧
    (∀ p ∈ d.filesRead,
      p ∈ (["input.txt", "input_example.txt",
            "input_example_part1.txt", "input_example_part2.txt"] : List String)) ∧
    (d ≠ day11_2025 →
      ∀ p ∈ d.filesRead, p ∈ (["input.txt", "input_example.txt"] : List String)) := by
  fin_cases hd <;> exact ⟨by decide, by decide, by decide⟩

/-- Witness for C7's amended theorem at the concrete 2024 Day 1 program. -/
theorem claim_C7_input_paths_witness :
    day1_2024 ∈ allDays ∧
    day1_2024.filesRead.dedup.length ≤ 3 ∧
    (∀ p ∈ day1_2024.filesRead,
      p ∈ (["input.txt", "input_example.txt",
            "input_example_part1.txt", "input_example_part2.txt"] : List String)) ∧
    (day1_2024 ≠ day11_2025 →
      ∀ p ∈ day1_2024.filesRead,
        p ∈ (["input.txt", "input_example.txt"] : List String)) :=
  ⟨by decide, claim_C7_input_paths day1_2024 (by decide)⟩

/-! ## 2025 Day 10 (`src/2025/Day10/main.cpp`), Part 2

`backtrackOptimized` explores assignments for one button at a time; the value
loop for one button runs from `maxTries` down to `0`, threading the solution
vector `x` and the shared upper bound `bestCost` through the iterations (the
recursive calls' boolean results are discarded inside the loop, exactly as in
the source). -/

namespace Day10Y2025

/-- `LLONG_MAX`. -/
def LLONG_MAX : ℤ := 9223372036854775807

/-- One iteration of the `for (long long val = maxTries; val >= 0; val--)`
loop of `backtrackOptimized` (Day10/main.cpp:449-475): write `val` into `x`,
subtract `val` from every counter the button affects, and recurse on the
next button when no counter goes negative.  `next` is the recursive call at
`buttonIdx + 1`; only `x` and `bestCost` flow back. -/
def btStep (next : List ℤ → List ℤ → ℤ → ℤ → Bool × List ℤ × ℤ)
    (row remaining : List ℤ) (buttonIdx : ℕ) (currentCost : ℤ)
    (val : ℕ) (x : List ℤ) (bestCost : ℤ) : List ℤ × ℤ :=
  let xv := x.set buttonIdx (val : ℤ)
  let valid := (row.zip remaining).all fun p => !(p.1 = 1 && p.2 - (val : ℤ) < 0)
  if valid then
    let newRemaining :=
      List.zipWith (fun a r => if a = 1 then r - (val : ℤ) else r) row remaining
    let r := next xv newRemaining (currentCost + (val : ℤ)) bestCost
    (r.2.1, r.2.2)
  else (xv, bestCost)

/-- The value loop, iterating `val = maxTries, maxTries - 1, …, 0`. -/
def btLoop (next : List ℤ → List ℤ → ℤ → ℤ → Bool × List ℤ × ℤ)
    (row remaining : List ℤ) (buttonIdx : ℕ) (currentCost : ℤ) :
    ℕ → List ℤ → ℤ → List ℤ × ℤ
  | 0, x, bestCost => btStep next row remaining buttonIdx currentCost 0 x bestCost
  | v + 1, x, bestCost =>
      let st := btStep next row remaining buttonIdx currentCost (v + 1) x bestCost
      btLoop next row remaining buttonIdx currentCost v st.1 st.2

/-- Embedding of `backtrackOptimized` (Day10/main.cpp:402-479), recursing on
the suffix of button rows starting at `buttonIdx`.  Returns the C++ boolean
result together with the final values of the by-reference arguments `x` and
`bestCost`. -/
def backtrackOptimized (b : List ℤ) :
    List (List ℤ) → ℕ → List ℤ → List ℤ → ℤ → ℤ → Bool × List ℤ × ℤ
  | [], _, x, remaining, currentCost, bestCost =>
      if currentCost ≥ bestCost then (false, x, bestCost)
      else if remaining.all (· = 0) then (true, x, currentCost)
      else (false, x, bestCost)
  | row :: rest, buttonIdx, x, remaining, currentCost, bestCost =>
      if currentCost ≥ bestCost then (false, x, bestCost)
      else
        let maxNeeded := (row.zip remaining).foldl
          (fun m p => if p.1 = 1 ∧ 0 < p.2 then max m p.2 else m) 0
        let affectsAny := (row.zip remaining).any fun p => p.1 = 1 && 0 < p.2
        if !affectsAny then
          backtrackOptimized b rest (buttonIdx + 1) (x.set buttonIdx 0)
            remaining currentCost bestCost
        else
          let maxTries := min maxNeeded (bestCost - currentCost - 1)
          let st := btLoop
            (fun xv rem cc bc => backtrackOptimized b rest (buttonIdx + 1) xv rem cc bc)
            row remaining buttonIdx currentCost maxTries.toNat x bestCost
          (st.2 < LLONG_MAX, st.1.set buttonIdx 0, st.2)

/-- Embedding of `solveIntegerLinear` (Day10/main.cpp:488-520): initial upper
bound `bestCost = Σ b`, then the backtracking search; `-1` when the search
reports failure. -/
def solveIntegerLinear (A : List (List ℤ)) (b : List ℤ) : ℤ :=
  if A.length = 0 then -1
  else
    let x := List.replicate A.length (0 : ℤ)
    let bestCost := b.foldl (· + ·) 0
    let r := backtrackOptimized b A 0 x b 0 bestCost
    if r.1 then r.2.2 else -1

/-- The contribution of all buttons to counter `i` under press vector `x`. -/
def counterSum (A : List (List ℤ)) (x : List ℤ) (i : ℕ) : ℤ :=
  ((A.zip x).map fun p => p.1.getD i 0 * p.2).sum

/-- `x` is a valid press vector for the Part 2 machine `(A, b)`: one
nonnegative multiplicity per button, meeting every counter requirement
exactly. -/
def Satisfies (A : List (List ℤ)) (b : List ℤ) (x : List ℤ) : Prop :=
  x.length = A.length ∧ (∀ v ∈ x, 0 ≤ v) ∧ ∀ i < b.length, counterSum A x i = b.getD i 0

/-- C2 is violated by the code: on the parsed machine with one button
affecting both counters (`A = [[1,1]]`) and requirements `b = [1,2]` no
nonnegative integer press vector exists (it would need `x = 1` and `x = 2`
simultaneously), yet `solveIntegerLinear` returns `3` — the untouched
initial upper bound `Σ b` — instead of `-1`, because `backtrackOptimized`
ends with `return bestCost < LLONG_MAX`, which is true whether or not any
solution was ever found.  This contradicts the function's own documentation
(`@return Minimum cost, or -1 if no solution`, Day10/main.cpp:486). -/
theorem claim_C2_unsolvable_machine_returns_sum :
    solveIntegerLinear [[1, 1]] [1, 2] = 3 ∧
    ((3 : ℤ) ≠ -1) ∧
    ¬ ∃ x : List ℤ, Satisfies [[1, 1]] [1, 2] x := by
  refine ⟨by decide, by decide, ?_⟩
  rintro ⟨x, hlen, hnn, hsat⟩
  match x, hlen with
  | [v], _ =>
      have h0 := hsat 0 (by norm_num)
      have h1 := hsat 1 (by norm_num)
      simp [counterSum] at h0 h1
      omega

end Day10Y2025

/-! ## 2025 Day 11 (`src/2025/Day11/main.cpp`)

The parsed input is a `std::map<std::string, std::vector<std::string>>`,
embedded as an association list consulted with `List.lookup`.  The naive
recursion `count_paths` takes fuel and returns `none` when the fuel runs
out; termination on a graph is the existence of sufficient fuel. -/

namespace Day11Y2025

/-- Embedding of `count_paths` (Day11/main.cpp:66-89): 1 on reaching the
target, 0 on a node without outputs, otherwise the sum over all outputs. -/
def count_paths : ℕ → List (String × List String) → String → String → Option ℕ
  | 0, _, _, _ => none
  | fuel + 1, graph, current, target =>
      if current = target then some 1
      else
        match List.lookup current graph with
        | none => some 0
        | some outs =>
            outs.foldl
              (fun acc next =>
                acc.bind fun a =>
                  (count_paths fuel graph next target).bind fun c => some (a + c))
              (some 0)

/-- The edge relation of the parsed graph. -/
def Edge (g : List (String × List String)) (u v : String) : Prop :=
  ∃ outs, List.lookup u g = some outs ∧ v ∈ outs

/-- The set of nodes reachable from `u`. -/
def reachSet (g : List (String × List String)) (u : String) : Set String :=
  {v | Relation.ReflTransGen (Edge g) u v}

/-- Termination measure: how many nodes are reachable from `u`. -/
noncomputable def mu (g : List (String × List String)) (u : String) : ℕ := (reachSet g u).ncard

/-- The recursion tree of `count_paths g · target` from a node is finite:
either the node is the target, or it has no outputs, or every successor's
recursion tree is finite.  This inductive predicate is the domain of the
C++ recursion; `count_paths` succeeds for some fuel exactly on it
(`CPTerm_iff_count_paths_some`). -/
inductive CPTerm (g : List (String × List String)) (target : String) : String → Prop
  | done : CPTerm g target target
  | sink : ∀ {u}, u ≠ target → List.lookup u g = none → CPTerm g target u
  | step : ∀ {u outs}, u ≠ target → List.lookup u g = some outs →
      (∀ v ∈ outs, CPTerm g target v) → CPTerm g target u

/-- All strings appearing in some adjacency list of `g`. -/
def allOuts (g : List (String × List String)) : List String :=
  g.foldr (fun p acc => p.2 ++ acc) []

lemma mem_allOuts {g : List (String × List String)} {u v : String} {outs : List String}
    (h : List.lookup u g = some outs) (hv : v ∈ outs) : v ∈ allOuts g := by
  induction g with
  | nil => simp [List.lookup] at h
  | cons p rest ih =>
      rw [List.lookup] at h
      split at h
      · obtain rfl : p.2 = outs := by simpa using h
        exact List.mem_append_left _ hv
      · exact List.mem_append_right _ (ih h)

lemma reachSet_finite (g : List (String × List String)) (u : String) :
    (reachSet g u).Finite := by
  apply Set.Finite.subset ((List.finite_toSet (allOuts g)).insert u)
  intro v hv
  rcases (Relation.ReflTransGen.cases_tail hv : _ ∨ _) with h | ⟨w, _, hw⟩
  · exact Set.mem_insert_iff.mpr (Or.inl h)
  · obtain ⟨outs, hlk, hmem⟩ := hw
    exact Set.mem_insert_iff.mpr (Or.inr (mem_allOuts hlk hmem))

lemma reach_mono_edge {g : List (String × List String)} {u v : String}
    (he : Edge g u v) : reachSet g v ⊆ reachSet g u :=
  fun _ hw => Relation.ReflTransGen.head he hw

lemma mu_lt {g : List (String × List String)} {u v : String}
    (he : Edge g u v) (hnc : ¬ Relation.TransGen (Edge g) u u) :
    mu g v < mu g u := by
  apply Set.ncard_lt_ncard _ (reachSet_finite g u)
  rw [Set.ssubset_def]
  refine ⟨reach_mono_edge he, fun hsub => ?_⟩
  have hu : u ∈ reachSet g v := hsub Relation.ReflTransGen.refl
  exact hnc (Relation.TransGen.head' he hu)

lemma foldl_bind_none (f : String → Option ℕ) (outs : List String) :
    outs.foldl (fun acc next => acc.bind fun a => (f next).bind fun c => some (a + c))
      none = none := by
  induction outs with
  | nil => rfl
  | cons v vs ih => simpa using ih

lemma foldl_bind_isSome (f : String → Option ℕ) (outs : List String)
    (h : ∀ v ∈ outs, (f v).isSome) (a : ℕ) :
    (outs.foldl (fun acc next => acc.bind fun a => (f next).bind fun c => some (a + c))
      (some a)).isSome := by
  induction outs generalizing a with
  | nil => simp
  | cons v vs ih =>
      simp only [List.foldl_cons]
      obtain ⟨c, hc⟩ := Option.isSome_iff_exists.mp (h v (List.mem_cons_self v vs))
      rw [hc]
      exact ih (fun w hw => h w (List.mem_cons_of_mem v hw)) (a + c)

lemma foldl_bind_isSome_rev (f : String → Option ℕ) (outs : List String) (a : ℕ)
    (h : (outs.foldl
        (fun acc next => acc.bind fun a => (f next).bind fun c => some (a + c))
        (some a)).isSome) :
    ∀ v ∈ outs, (f v).isSome := by
  induction outs generalizing a with
  | nil => simp
  | cons v vs ih =>
      intro w hw
      simp only [List.foldl_cons] at h
      cases hfv : f v with
      | none =>
          rw [hfv] at h
          have hacc : ((some a).bind fun a => (none : Option ℕ).bind fun c => some (a + c)) =
              none := rfl
          rw [hacc, foldl_bind_none] at h
          simp at h
      | some c =>
          rw [hfv] at h
          rcases List.mem_cons.mp hw with rfl | hw2
          · simp [hfv]
          · exact ih (a + c) (by simpa using h) w hw2

/-- With acyclicity below `start`, fuel `mu g u + 1` suffices at every node
`u` reachable from `start`. -/
lemma count_paths_some_of_acyclic (g : List (String × List String))
    (start target : String)
    (hacyc : ∀ u, Relation.ReflTransGen (Edge g) start u →
      ¬ Relation.TransGen (Edge g) u u) :
    ∀ (k : ℕ) (u : String), Relation.ReflTransGen (Edge g) start u → mu g u ≤ k →
      (count_paths (k + 1) g u target).isSome := by
  intro k
  induction k using Nat.strong_induction_on with
  | _ k ih =>
      intro u hreach hmu
      rw [count_paths]
      by_cases ht : u = target
      · simp [ht]
      · rw [if_neg ht]
        cases hlk : List.lookup u g with
        | none => simp
        | some outs =>
            cases k with
            | zero =>
                -- no successors possible: any edge would make `mu` drop below 0
                cases houts : outs with
                | nil => simp [houts]
                | cons v vs =>
                    exfalso
                    have hedge : Edge g u v := ⟨outs, hlk, by simp [houts]⟩
                    have := mu_lt hedge (hacyc u hreach)
                    omega
            | succ j =>
                apply foldl_bind_isSome
                intro v hv
                have hedge : Edge g u v := ⟨outs, hlk, hv⟩
                have hreachv : Relation.ReflTransGen (Edge g) start v :=
                  Relation.ReflTransGen.tail hreach hedge
                have hmuv : mu g v < mu g u := mu_lt hedge (hacyc u hreach)
                exact ih j (by omega) v hreachv (by omega)

lemma count_paths_mono :
    ∀ (fuel fuel' : ℕ), fuel ≤ fuel' →
      ∀ (g : List (String × List String)) (u t : String),
        (count_paths fuel g u t).isSome → (count_paths fuel' g u t).isSome := by
  intro fuel
  induction fuel with
  | zero => intro fuel' _ g u t h; rw [count_paths] at h; simp at h
  | succ f ih =>
      intro fuel' hle g u t h
      obtain ⟨f', rfl⟩ : ∃ f'', fuel' = f'' + 1 := ⟨fuel' - 1, by omega⟩
      rw [count_paths] at h ⊢
      by_cases ht : u = t
      · simp [ht]
      · rw [if_neg ht] at h ⊢
        cases hlk : List.lookup u g with
        | none => simp
        | some outs =>
            rw [hlk] at h
            apply foldl_bind_isSome
            intro v hv
            exact ih f' (by omega) g v t
              (foldl_bind_isSome_rev _ outs 0 h v hv)

/-- `CPTerm` characterises the inputs on which `count_paths` ever produces a
value: the graphs and start nodes where the C++ recursion terminates. -/
theorem CPTerm_iff_count_paths_some (g : List (String × List String))
    (t u : String) :
    CPTerm g t u ↔ ∃ fuel, (count_paths fuel g u t).isSome := by
  constructor
  · intro h
    induction h with
    | done => exact ⟨1, by rw [count_paths]; simp⟩
    | sink hne hlk => exact ⟨1, by rw [count_paths]; rw [if_neg hne, hlk]; simp⟩
    | step hne hlk hall ih =>
        rename_i u outs
        have hbound : ∃ F, ∀ v ∈ outs, (count_paths F g v t).isSome := by
          clear hall hlk
          induction outs with
          | nil => exact ⟨0, by simp⟩
          | cons w ws ihw =>
              obtain ⟨F1, hF1⟩ := ih w (List.mem_cons_self w ws)
              obtain ⟨F2, hF2⟩ := ihw (fun v hv => ih v (List.mem_cons_of_mem w hv))
              refine ⟨max F1 F2, ?_⟩
              intro v hv
              rcases List.mem_cons.mp hv with rfl | hv2
              · exact count_paths_mono F1 (max F1 F2) (le_max_left _ _) g v t hF1
              · exact count_paths_mono F2 (max F1 F2) (le_max_right _ _) g v t (hF2 v hv2)
        obtain ⟨F, hF⟩ := hbound
        refine ⟨F + 1, ?_⟩
        rw [count_paths, if_neg hne, hlk]
        exact foldl_bind_isSome _ outs hF 0
  · rintro ⟨fuel, h⟩
    induction fuel generalizing u with
    | zero => rw [count_paths] at h; simp at h
    | succ f ih =>
        rw [count_paths] at h
        by_cases ht : u = t
        · exact ht ▸ CPTerm.done
        · rw [if_neg ht] at h
          cases hlk : List.lookup u g with
          | none => exact CPTerm.sink ht hlk
          | some outs =>
              rw [hlk] at h
              exact CPTerm.step ht hlk
                (fun v hv => ih v (foldl_bind_isSome_rev _ outs 0 h v hv))

/-- The concrete cyclic graph `you: [a]; a: [a]` — a directed cycle at `a`
reachable from `you`. -/
def cyclicGraph : List (String × List String) := [("you", ["a"]), ("a", ["a"])]

lemma no_cpterm_cyclic : ∀ u, CPTerm cyclicGraph "out" u → (u = "you" ∨ u = "a") → False := by
  intro u h
  induction h with
  | done => rintro (he | he) <;> exact absurd he (by decide)
  | sink hne hlk => rintro (rfl | rfl) <;> exact absurd hlk (by decide)
  | step hne hlk hall ih =>
      rename_i outs
      rintro (rfl | rfl)
      · have houts : outs = ["a"] := by
          have hl : List.lookup "you" cyclicGraph = some ["a"] := by decide
          rw [hl] at hlk
          simpa using hlk.symm
        exact ih "a" (by simp [houts]) (Or.inr rfl)
      · have houts : outs = ["a"] := by
          have hl : List.lookup "a" cyclicGraph = some ["a"] := by decide
          rw [hl] at hlk
          simpa using hlk.symm
        exact ih "a" (by simp [houts]) (Or.inr rfl)

lemma count_paths_cyclic_none :
    ∀ fuel, count_paths fuel cyclicGraph "you" "out" = none := by
  intro fuel
  rcases Option.eq_none_or_eq_some (count_paths fuel cyclicGraph "you" "out") with h | ⟨v, h⟩
  · exact h
  · exfalso
    have hterm : CPTerm cyclicGraph "out" "you" :=
      (CPTerm_iff_count_paths_some cyclicGraph "out" "you").mpr ⟨fuel, by simp [h]⟩
    exact no_cpterm_cyclic "you" hterm (Or.inl rfl)

/-- Counterexample to C6: on the parsed graph `you: [a]; a: [a]`, which
contains a directed cycle reachable from `you`, the recursion of
`count_paths` does not terminate: its call tree from `you` is not
well-founded (`CPTerm` fails, and equivalently — see
`CPTerm_iff_count_paths_some` and `count_paths_cyclic_none` — no amount of
fuel makes `count_paths` return). -/
theorem claim_C6_counterexample : ¬ CPTerm cyclicGraph "out" "you" := by
  intro h
  exact no_cpterm_cyclic "you" h (Or.inl rfl)

/-- C6 amended: each day's run is a straight-line compute except for the
recursions of Day 11; `count_paths` does terminate from `you` (some fuel
suffices, namely one more than the number of reachable nodes) whenever the
subgraph reachable from `you` is acyclic — but not on every graph with a
reachable directed cycle (see the counterexample). -/
theorem claim_C6_count_paths_terminates_acyclic (g : List (String × List String))
    (hacyc : ∀ u, Relation.ReflTransGen (Edge g) "you" u →
      ¬ Relation.TransGen (Edge g) u u) :
    (count_paths (mu g "you" + 1) g "you" "out").isSome := by
  exact count_paths_some_of_acyclic g "you" "out" hacyc (mu g "you") "you"
    Relation.ReflTransGen.refl (le_refl _)

lemma edge_nil_false (u v : String) : ¬ Edge ([] : List (String × List String)) u v := by
  rintro ⟨outs, hlk, _⟩
  simp [List.lookup] at hlk

/-- Witness for C6's amended theorem on the concrete empty graph, which is
trivially acyclic below `you`. -/
theorem claim_C6_count_paths_terminates_acyclic_witness :
    (∀ u, Relation.ReflTransGen (Edge ([] : List (String × List String))) "you" u →
      ¬ Relation.TransGen (Edge ([] : List (String × List String))) u u) ∧
    (count_paths (mu ([] : List (String × List String)) "you" + 1)
      ([] : List (String × List String)) "you" "out").isSome := by
  have hacyc : ∀ u,
      Relation.ReflTransGen (Edge ([] : List (String × List String))) "you" u →
      ¬ Relation.TransGen (Edge ([] : List (String × List String))) u u := by
    intro u _ htg
    cases htg with
    | single h => exact edge_nil_false _ _ h
    | tail _ h => exact edge_nil_false _ _ h
  exact ⟨hacyc, claim_C6_count_paths_terminates_acyclic [] hacyc⟩

/-! ### Part 2: memoized counting of paths through `dac` and `fft` -/

/-- The memoization cache `std::map<tuple<string,bool,bool>, long long>`,
embedded as an association list where insertion prepends (the first match
wins, so prepending implements overwriting). -/
abbrev Memo : Type := List ((String × Bool × Bool) × ℕ)

/-- The loop `for (next : graph.at(current)) totalPaths += …` of
`count_paths_with_nodes`, threading the running total and the memo cache;
`next` is the recursive call one fuel level down. -/
def cpwn_fold (next : String → Bool → Bool → Memo → Option (ℕ × Memo))
    (visitedDac visitedFft : Bool) :
    List String → ℕ → Memo → Option (ℕ × Memo)
  | [], total, memo => some (total, memo)
  | v :: rest, total, memo =>
      match next v (visitedDac || (v == "dac")) (visitedFft || (v == "fft")) memo with
      | none => none
      | some (c, memo') => cpwn_fold next visitedDac visitedFft rest (total + c) memo'

/-- Embedding of `count_paths_with_nodes` (Day11/main.cpp:120-157): target
check, then memo lookup, then the sink case (caching 0), then the recursion
over all outputs followed by caching the total. -/
def count_paths_with_nodes :
    ℕ → List (String × List String) → String → String → Bool → Bool → Memo →
      Option (ℕ × Memo)
  | 0, _, _, _, _, _, _ => none
  | fuel + 1, graph, current, target, visitedDac, visitedFft, memo =>
      if current = target then
        some ((if visitedDac && visitedFft then 1 else 0), memo)
      else
        match List.lookup (current, visitedDac, visitedFft) memo with
        | some v => some (v, memo)
        | none =>
            match List.lookup current graph with
            | none => some (0, ((current, visitedDac, visitedFft), 0) :: memo)
            | some outs =>
                match cpwn_fold
                    (fun v d f m => count_paths_with_nodes fuel graph v target d f m)
                    visitedDac visitedFft outs 0 memo with
                | none => none
                | some (total, memo') =>
                    some (total, ((current, visitedDac, visitedFft), total) :: memo')

/-- The naive unmemoized recursion over the same graph: identical to
`count_paths_with_nodes` with the memo cache removed. -/
def count_paths_with_nodes_naive :
    ℕ → List (String × List String) → String → String → Bool → Bool → Option ℕ
  | 0, _, _, _, _, _ => none
  | fuel + 1, graph, current, target, visitedDac, visitedFft =>
      if current = target then some (if visitedDac && visitedFft then 1 else 0)
      else
        match List.lookup current graph with
        | none => some 0
        | some outs =>
            outs.foldl
              (fun acc v =>
                acc.bind fun a =>
                  (count_paths_with_nodes_naive fuel graph v target
                      (visitedDac || (v == "dac")) (visitedFft || (v == "fft"))).bind
                    fun c => some (a + c))
              (some 0)

/-- Embedding of `advent_of_code_2025_day11_part2` (Day11/main.cpp:168-176)
on a parsed graph: start at `svr` with an empty memo; the start flags are
`"svr" == "dac"` and `"svr" == "fft"` exactly as in the source. -/
def advent_of_code_2025_day11_part2 (fuel : ℕ)
    (g : List (String × List String)) : Option ℕ :=
  (count_paths_with_nodes fuel g "svr" "out" ("svr" == "dac") ("svr" == "fft")
    []).map Prod.fst

/-- Specification side: enumerate the walks from `current` that stop at
`target`, as node lists. -/
def walksFrom : ℕ → List (String × List String) → String → String →
    Option (List (List String))
  | 0, _, _, _ => none
  | fuel + 1, g, current, target =>
      if current = target then some [[current]]
      else
        match List.lookup current g with
        | none => some []
        | some outs =>
            outs.foldl
              (fun acc v =>
                acc.bind fun ps =>
                  (walksFrom fuel g v target).bind fun qs =>
                    some (ps ++ qs.map (current :: ·)))
              (some [])

/-- The flag condition: a walk is counted from flag state `(vd, vf)` when
`dac` and `fft` are each either already visited or occur after the walk's
first node. -/
def goodFlag (vd vf : Bool) (p : List String) : Bool :=
  (vd || decide ("dac" ∈ p.tail)) && (vf || decide ("fft" ∈ p.tail))

/-- A directed path from `u` that stops at `target`: the inductive
counterpart of the recursion structure. -/
inductive WalkTo (g : List (String × List String)) (target : String) :
    String → List String → Prop
  | done : WalkTo g target target [target]
  | cons : ∀ {u v outs p}, u ≠ target → List.lookup u g = some outs → v ∈ outs →
      WalkTo g target v p → WalkTo g target u (u :: p)

/-- A directed path in the usual sense: consecutive nodes joined by edges,
with prescribed first and last node. -/
def IsDirPath (g : List (String × List String)) (p : List String)
    (u t : String) : Prop :=
  p.head? = some u ∧ p.getLast? = some t ∧ List.Chain' (Edge g) p

lemma foldl_opt_none {α β : Type} (f : String → Option β) (comb : α → String → β → α)
    (vs : List String) :
    vs.foldl (fun acc v => acc.bind fun x => (f v).bind fun b => some (comb x v b))
      none = none := by
  induction vs with
  | nil => rfl
  | cons v rest ih => simpa using ih

lemma foldl_opt_mono {α β : Type} (f1 f2 : String → Option β) (comb : α → String → β → α)
    (vs : List String) (h : ∀ v ∈ vs, ∀ b, f1 v = some b → f2 v = some b) :
    ∀ (a n : α),
      vs.foldl (fun acc v => acc.bind fun x => (f1 v).bind fun b => some (comb x v b))
        (some a) = some n →
      vs.foldl (fun acc v => acc.bind fun x => (f2 v).bind fun b => some (comb x v b))
        (some a) = some n := by
  induction vs with
  | nil => intro a n hn; exact hn
  | cons v rest ih =>
      intro a n hn
      simp only [List.foldl_cons] at hn ⊢
      cases hf : f1 v with
      | none =>
          rw [hf] at hn
          have hacc : ((some a).bind fun x => (none : Option β).bind fun b =>
              some (comb x v b)) = none := rfl
          rw [hacc, foldl_opt_none] at hn
          exact absurd hn (by simp)
      | some b =>
          rw [hf] at hn
          rw [h v (List.mem_cons_self v rest) b hf]
          exact ih (fun w hw c hc => h w (List.mem_cons_of_mem v hw) c hc) _ n hn

lemma foldl_opt_inv {α β : Type} (f : String → Option β) (comb : α → String → β → α)
    (vs : List String) (P : α → Prop)
    (hstep : ∀ v ∈ vs, ∀ b, f v = some b → ∀ x, P x → P (comb x v b)) :
    ∀ (a n : α), P a →
      vs.foldl (fun acc v => acc.bind fun x => (f v).bind fun b => some (comb x v b))
        (some a) = some n → P n := by
  induction vs with
  | nil => intro a n ha hn; cases hn; exact ha
  | cons v rest ih =>
      intro a n ha hn
      simp only [List.foldl_cons] at hn
      cases hf : f v with
      | none =>
          rw [hf] at hn
          have hacc : ((some a).bind fun x => (none : Option β).bind fun b =>
              some (comb x v b)) = none := rfl
          rw [hacc, foldl_opt_none] at hn
          exact absurd hn (by simp)
      | some b =>
          rw [hf] at hn
          exact ih (fun w hw c hc => hstep w (List.mem_cons_of_mem v hw) c hc) _ n
            (hstep v (List.mem_cons_self v rest) b hf a ha) hn

lemma cpwn_naive_mono :
    ∀ (fuel fuel' : ℕ), fuel ≤ fuel' →
      ∀ (g : List (String × List String)) (u t : String) (vd vf : Bool) (n : ℕ),
        count_paths_with_nodes_naive fuel g u t vd vf = some n →
        count_paths_with_nodes_naive fuel' g u t vd vf = some n := by
  intro fuel
  induction fuel with
  | zero => intro fuel' _ g u t vd vf n h; rw [count_paths_with_nodes_naive] at h; simp at h
  | succ f ih =>
      intro fuel' hle g u t vd vf n h
      obtain ⟨f', rfl⟩ : ∃ f'', fuel' = f'' + 1 := ⟨fuel' - 1, by omega⟩
      rw [count_paths_with_nodes_naive] at h ⊢
      by_cases ht : u = t
      · rw [if_pos ht] at h ⊢; exact h
      · rw [if_neg ht] at h ⊢
        cases hlk : List.lookup u g with
        | none => rw [hlk] at h; exact h
        | some outs =>
            rw [hlk] at h
            exact foldl_opt_mono _ _ _ outs
              (fun v _ c hc => ih f' (by omega) g v t _ _ c hc) 0 n h

lemma walksFrom_mono :
    ∀ (fuel fuel' : ℕ), fuel ≤ fuel' →
      ∀ (g : List (String × List String)) (u t : String) (ws : List (List String)),
        walksFrom fuel g u t = some ws → walksFrom fuel' g u t = some ws := by
  intro fuel
  induction fuel with
  | zero => intro fuel' _ g u t ws h; rw [walksFrom] at h; simp at h
  | succ f ih =>
      intro fuel' hle g u t ws h
      obtain ⟨f', rfl⟩ : ∃ f'', fuel' = f'' + 1 := ⟨fuel' - 1, by omega⟩
      rw [walksFrom] at h ⊢
      by_cases ht : u = t
      · rw [if_pos ht] at h ⊢; exact h
      · rw [if_neg ht] at h ⊢
        cases hlk : List.lookup u g with
        | none => rw [hlk] at h; exact h
        | some outs =>
            rw [hlk] at h
            exact foldl_opt_mono _ _ _ outs
              (fun v _ qs hq => ih f' (by omega) g v t qs hq) [] ws h

lemma walksFrom_head :
    ∀ (fuel : ℕ) (g : List (String × List String)) (u t : String)
      (ws : List (List String)),
      walksFrom fuel g u t = some ws → ∀ p ∈ ws, p.head? = some u := by
  intro fuel
  induction fuel with
  | zero => intro g u t ws h; rw [walksFrom] at h; simp at h
  | succ f ih =>
      intro g u t ws h
      rw [walksFrom] at h
      by_cases ht : u = t
      · rw [if_pos ht] at h
        obtain rfl : [[u]] = ws := by simpa [ht] using h
        intro p hp
        simp only [List.mem_singleton] at hp
        subst hp
        rfl
      · rw [if_neg ht] at h
        cases hlk : List.lookup u g with
        | none =>
            rw [hlk] at h
            obtain rfl : ([] : List (List String)) = ws := by simpa using h
            intro p hp
            simp at hp
        | some outs =>
            rw [hlk] at h
            refine foldl_opt_inv _ _ outs (fun ps => ∀ p ∈ ps, p.head? = some u)
              ?_ [] ws (by simp) h
            intro v _ qs _ ps hps p hp
            rcases List.mem_append.mp hp with hl | hr
            · exact hps p hl
            · obtain ⟨q, _, rfl⟩ := List.mem_map.mp hr
              rfl

lemma goodFlag_cons (u v : String) (vd vf : Bool) (q : List String)
    (hq : q.head? = some v) :
    goodFlag vd vf (u :: q) =
      goodFlag (vd || (v == "dac")) (vf || (v == "fft")) q := by
  obtain ⟨q', rfl⟩ : ∃ q', q = v :: q' := by
    cases q with
    | nil => simp at hq
    | cons a q' =>
        have ha : a = v := by simpa using hq
        exact ⟨q', by rw [ha]⟩
  by_cases hdv : v = "dac"
  · by_cases hfv : v = "fft"
    · exact absurd (hdv ▸ hfv) (by decide)
    · subst hdv
      simp [goodFlag, List.mem_cons, hfv, Bool.or_assoc]
  · by_cases hfv : v = "fft"
    · subst hfv
      simp [goodFlag, List.mem_cons, hdv, Bool.or_assoc]
    · have h1 : decide ("dac" = v) = false := decide_eq_false fun h => hdv h.symm
      have h2 : decide ("fft" = v) = false := decide_eq_false fun h => hfv h.symm
      have h3 : (v == "dac") = false := beq_eq_false_iff_ne.mpr hdv
      have h4 : (v == "fft") = false := beq_eq_false_iff_ne.mpr hfv
      simp [goodFlag, List.mem_cons, h1, h2, h3, h4, Bool.or_assoc]

lemma filter_map_cons_len (u v : String) (vd vf : Bool) (qs : List (List String))
    (hq : ∀ q ∈ qs, q.head? = some v) :
    ((qs.map (u :: ·)).filter (goodFlag vd vf)).length =
      (qs.filter (goodFlag (vd || (v == "dac")) (vf || (v == "fft")))).length := by
  induction qs with
  | nil => rfl
  | cons q rest ih =>
      have hpred := goodFlag_cons u v vd vf q (hq q (List.mem_cons_self q rest))
      have ih' := ih fun w hw => hq w (List.mem_cons_of_mem q hw)
      simp only [List.map_cons, List.filter_cons, hpred]
      cases hgf : goodFlag (vd || (v == "dac")) (vf || (v == "fft")) q with
      | true => simp [ih']
      | false => simp [ih']

lemma fold_walks_naive (f : ℕ) (g : List (String × List String)) (t u : String)
    (ihyp : ∀ (v : String) (vd vf : Bool) (qs : List (List String)),
      walksFrom f g v t = some qs →
      count_paths_with_nodes_naive f g v t vd vf =
        some ((qs.filter (goodFlag vd vf)).length))
    (vd vf : Bool) :
    ∀ (outs : List String) (ps ws : List (List String)),
      outs.foldl
        (fun acc v => acc.bind fun x => (walksFrom f g v t).bind fun b =>
          some (x ++ b.map (u :: ·))) (some ps) = some ws →
      outs.foldl
        (fun acc v => acc.bind fun x =>
          (count_paths_with_nodes_naive f g v t
              (vd || (v == "dac")) (vf || (v == "fft"))).bind
            fun c => some (x + c))
        (some ((ps.filter (goodFlag vd vf)).length)) =
        some ((ws.filter (goodFlag vd vf)).length) := by
  intro outs
  induction outs with
  | nil =>
      intro ps ws h
      obtain rfl : ps = ws := by simpa using h
      rfl
  | cons v rest ih =>
      intro ps ws h
      simp only [List.foldl_cons] at h ⊢
      cases hw : walksFrom f g v t with
      | none =>
          rw [hw] at h
          have hacc : ((some ps).bind fun x =>
              (none : Option (List (List String))).bind fun b =>
                some (x ++ b.map (u :: ·))) = none := rfl
          rw [hacc, foldl_opt_none] at h
          exact absurd h (by simp)
      | some qs =>
          rw [hw] at h
          rw [ihyp v (vd || (v == "dac")) (vf || (v == "fft")) qs hw]
          have hheads := walksFrom_head f g v t qs hw
          have hlen : ((ps ++ qs.map (u :: ·)).filter (goodFlag vd vf)).length =
              (ps.filter (goodFlag vd vf)).length +
                (qs.filter (goodFlag (vd || (v == "dac")) (vf || (v == "fft")))).length := by
            rw [List.filter_append, List.length_append, filter_map_cons_len u v vd vf qs hheads]
          have := ih (ps ++ qs.map (u :: ·)) ws h
          rw [hlen] at this
          simpa using this

lemma naive_eq_filter_walks :
    ∀ (fuel : ℕ) (g : List (String × List String)) (u t : String) (vd vf : Bool)
      (ws : List (List String)),
      walksFrom fuel g u t = some ws →
      count_paths_with_nodes_naive fuel g u t vd vf =
        some ((ws.filter (goodFlag vd vf)).length) := by
  intro fuel
  induction fuel with
  | zero => intro g u t vd vf ws h; rw [walksFrom] at h; simp at h
  | succ f ih =>
      intro g u t vd vf ws h
      rw [walksFrom] at h
      rw [count_paths_with_nodes_naive]
      by_cases ht : u = t
      · rw [if_pos ht] at h ⊢
        obtain rfl : [[u]] = ws := by simpa using h
        cases hvd : vd <;> cases hvf : vf <;>
          simp [goodFlag, List.filter]
      · rw [if_neg ht] at h ⊢
        cases hlk : List.lookup u g with
        | none =>
            rw [hlk] at h
            obtain rfl : ([] : List (List String)) = ws := by simpa using h
            rfl
        | some outs =>
            rw [hlk] at h
            have := fold_walks_naive f g t u (fun v d fl qs hq => ih g v t d fl qs hq)
              vd vf outs [] ws h
            simpa using this

lemma lookup_mem {κ δ : Type} [BEq κ] [LawfulBEq κ] {l : List (κ × δ)} {k : κ} {d : δ}
    (h : List.lookup k l = some d) : (k, d) ∈ l := by
  induction l with
  | nil => simp [List.lookup] at h
  | cons p rest ih =>
      rw [List.lookup] at h
      split at h
      · rename_i hbeq
        obtain rfl : p.2 = d := by simpa using h
        obtain rfl : k = p.1 := eq_of_beq hbeq
        exact List.mem_cons_self _ _
      · exact List.mem_cons_of_mem _ (ih h)

lemma foldl_opt_isSome {α β : Type} (f : String → Option β) (comb : α → String → β → α)
    (vs : List String) (h : ∀ v ∈ vs, (f v).isSome) :
    ∀ a : α,
      (vs.foldl (fun acc v => acc.bind fun x => (f v).bind fun b => some (comb x v b))
        (some a)).isSome := by
  induction vs with
  | nil => intro a; simp
  | cons v rest ih =>
      intro a
      simp only [List.foldl_cons]
      obtain ⟨b, hb⟩ := Option.isSome_iff_exists.mp (h v (List.mem_cons_self v rest))
      rw [hb]
      exact ih (fun w hw => h w (List.mem_cons_of_mem v hw)) (comb a v b)

/-- With acyclicity below `start`, fuel `mu g u + 1` also suffices for the
walk enumeration at every node reachable from `start`. -/
lemma walksFrom_some_of_acyclic (g : List (String × List String))
    (start target : String)
    (hacyc : ∀ u, Relation.ReflTransGen (Edge g) start u →
      ¬ Relation.TransGen (Edge g) u u) :
    ∀ (k : ℕ) (u : String), Relation.ReflTransGen (Edge g) start u → mu g u ≤ k →
      (walksFrom (k + 1) g u target).isSome := by
  intro k
  induction k using Nat.strong_induction_on with
  | _ k ih =>
      intro u hreach hmu
      rw [walksFrom]
      by_cases ht : u = target
      · simp [ht]
      · rw [if_neg ht]
        cases hlk : List.lookup u g with
        | none => simp
        | some outs =>
            cases k with
            | zero =>
                cases houts : outs with
                | nil => simp [houts]
                | cons v vs =>
                    exfalso
                    have hedge : Edge g u v := ⟨outs, hlk, by simp [houts]⟩
                    have := mu_lt hedge (hacyc u hreach)
                    omega
            | succ j =>
                apply foldl_opt_isSome
                intro v hv
                have hedge : Edge g u v := ⟨outs, hlk, hv⟩
                have hreachv : Relation.ReflTransGen (Edge g) start v :=
                  Relation.ReflTransGen.tail hreach hedge
                have hmuv : mu g v < mu g u := mu_lt hedge (hacyc u hreach)
                exact ih j (by omega) v hreachv (by omega)

/-- Every list produced by `walksFrom` is a walk in the `WalkTo` sense. -/
lemma walksFrom_sound :
    ∀ (fuel : ℕ) (g : List (String × List String)) (u t : String)
      (ws : List (List String)),
      walksFrom fuel g u t = some ws → ∀ p ∈ ws, WalkTo g t u p := by
  intro fuel
  induction fuel with
  | zero => intro g u t ws h; rw [walksFrom] at h; simp at h
  | succ f ih =>
      intro g u t ws h
      rw [walksFrom] at h
      by_cases ht : u = t
      · rw [if_pos ht] at h
        obtain rfl : [[u]] = ws := by simpa using h
        intro p hp
        simp only [List.mem_singleton] at hp
        subst hp
        subst ht
        exact WalkTo.done
      · rw [if_neg ht] at h
        cases hlk : List.lookup u g with
        | none =>
            rw [hlk] at h
            obtain rfl : ([] : List (List String)) = ws := by simpa using h
            intro p hp
            simp at hp
        | some outs =>
            rw [hlk] at h
            refine foldl_opt_inv _ _ outs (fun ps => ∀ p ∈ ps, WalkTo g t u p)
              ?_ [] ws (by simp) h
            intro v hv qs hqs ps hps p hp
            rcases List.mem_append.mp hp with hl | hr
            · exact hps p hl
            · obtain ⟨q, hq, rfl⟩ := List.mem_map.mp hr
              exact WalkTo.cons ht hlk hv (ih g v t qs hqs q hq)

lemma fold_walks_sub (f : ℕ) (g : List (String × List String)) (t u : String) :
    ∀ (outs : List String) (ps ws : List (List String)),
      outs.foldl
        (fun acc v => acc.bind fun x => (walksFrom f g v t).bind fun b =>
          some (x ++ b.map (u :: ·))) (some ps) = some ws →
      (∀ x ∈ ps, x ∈ ws) ∧
      ∀ v ∈ outs, ∃ qs, walksFrom f g v t = some qs ∧ ∀ q ∈ qs, (u :: q) ∈ ws := by
  intro outs
  induction outs with
  | nil =>
      intro ps ws h
      obtain rfl : ps = ws := by simpa using h
      exact ⟨fun x hx => hx, fun v hv => absurd hv (List.not_mem_nil v)⟩
  | cons v rest ih =>
      intro ps ws h
      simp only [List.foldl_cons] at h
      cases hw : walksFrom f g v t with
      | none =>
          rw [hw] at h
          have hacc : ((some ps).bind fun x =>
              (none : Option (List (List String))).bind fun b =>
                some (x ++ b.map (u :: ·))) = none := rfl
          rw [hacc, foldl_opt_none] at h
          exact absurd h (by simp)
      | some qs =>
          rw [hw] at h
          obtain ⟨hsub, hrest⟩ := ih (ps ++ qs.map (u :: ·)) ws h
          refine ⟨fun x hx => hsub x (List.mem_append_left _ hx), ?_⟩
          intro w hwmem
          rcases List.mem_cons.mp hwmem with rfl | hw2
          · exact ⟨qs, hw, fun q hq =>
              hsub _ (List.mem_append_right _ (List.mem_map.mpr ⟨q, hq, rfl⟩))⟩
          · exact hrest w hw2

/-- Every walk appears in the output of `walksFrom`, whatever the fuel that
made it succeed. -/
lemma walksFrom_complete {g : List (String × List String)} {t u : String}
    {p : List String} (hw : WalkTo g t u p) :
    ∀ (fuel : ℕ) (ws : List (List String)),
      walksFrom fuel g u t = some ws → p ∈ ws := by
  induction hw with
  | done =>
      intro fuel ws h
      cases fuel with
      | zero => rw [walksFrom] at h; simp at h
      | succ f =>
          rw [walksFrom] at h
          rw [if_pos rfl] at h
          obtain rfl : [[t]] = ws := by simpa using h
          simp
  | cons hne hlk hv hwk ih =>
      intro fuel ws h
      cases fuel with
      | zero => rw [walksFrom] at h; simp at h
      | succ f =>
          rw [walksFrom] at h
          rw [if_neg hne, hlk] at h
          obtain ⟨-, hall⟩ := fold_walks_sub f g t _ _ [] ws h
          obtain ⟨qs, hqs, hin⟩ := hall _ hv
          exact hin _ (ih f qs hqs)

lemma fold_walks_nodup (f : ℕ) (g : List (String × List String)) (t u : String)
    (ihn : ∀ (v : String) (qs : List (List String)),
      walksFrom f g v t = some qs → qs.Nodup) :
    ∀ (outs : List String), outs.Nodup →
      ∀ (ps ws : List (List String)), ps.Nodup →
      (∀ x ∈ ps, ∀ v ∈ outs, x.tail.head? ≠ some v) →
      outs.foldl
        (fun acc v => acc.bind fun x => (walksFrom f g v t).bind fun b =>
          some (x ++ b.map (u :: ·))) (some ps) = some ws →
      ws.Nodup := by
  intro outs
  induction outs with
  | nil =>
      intro _ ps ws hps _ h
      obtain rfl : ps = ws := by simpa using h
      exact hps
  | cons v rest ih =>
      intro hnodup ps ws hps hsep h
      simp only [List.foldl_cons] at h
      cases hw : walksFrom f g v t with
      | none =>
          rw [hw] at h
          have hacc : ((some ps).bind fun x =>
              (none : Option (List (List String))).bind fun b =>
                some (x ++ b.map (u :: ·))) = none := rfl
          rw [hacc, foldl_opt_none] at h
          exact absurd h (by simp)
      | some qs =>
          rw [hw] at h
          have hq : qs.Nodup := ihn v qs hw
          have hheads := walksFrom_head f g v t qs hw
          have hnodup' : rest.Nodup := (List.nodup_cons.mp hnodup).2
          have hvnotin : v ∉ rest := (List.nodup_cons.mp hnodup).1
          refine ih hnodup' (ps ++ qs.map (u :: ·)) ws ?_ ?_ h
          · refine List.Nodup.append hps (hq.map ?_) ?_
            · intro a b hab
              simpa using hab
            · intro x hx1 hx2
              obtain ⟨q, hqmem, rfl⟩ := List.mem_map.mp hx2
              have hh : (u :: q).tail.head? = some v := by
                simpa using hheads q hqmem
              exact hsep _ hx1 v (List.mem_cons_self v rest) hh
          · intro x hx v' hv'
            rcases List.mem_append.mp hx with hl | hr
            · exact hsep x hl v' (List.mem_cons_of_mem v hv')
            · obtain ⟨q, hqmem, rfl⟩ := List.mem_map.mp hr
              have hh : (u :: q).tail.head? = some v := by
                simpa using hheads q hqmem
              rw [hh]
              intro hcontra
              obtain rfl : v = v' := by simpa using hcontra
              exact hvnotin hv'

/-- On graphs with duplicate-free adjacency lists the enumerated walks are
pairwise distinct. -/
lemma walksFrom_nodup (g : List (String × List String))
    (hnd : ∀ u outs, List.lookup u g = some outs → outs.Nodup) :
    ∀ (fuel : ℕ) (u t : String) (ws : List (List String)),
      walksFrom fuel g u t = some ws → ws.Nodup := by
  intro fuel
  induction fuel with
  | zero => intro u t ws h; rw [walksFrom] at h; simp at h
  | succ f ih =>
      intro u t ws h
      rw [walksFrom] at h
      by_cases ht : u = t
      · rw [if_pos ht] at h
        obtain rfl : [[u]] = ws := by simpa using h
        simp
      · rw [if_neg ht] at h
        cases hlk : List.lookup u g with
        | none =>
            rw [hlk] at h
            obtain rfl : ([] : List (List String)) = ws := by simpa using h
            simp
        | some outs =>
            rw [hlk] at h
            exact fold_walks_nodup f g t u (fun v qs hq => ih v t qs hq) outs
              (hnd u outs hlk) [] ws (by simp) (by simp) h

lemma walkTo_ne_nil {g : List (String × List String)} {t u : String}
    {p : List String} (h : WalkTo g t u p) : p ≠ [] := by
  cases h <;> simp

lemma isDirPath_cons {g : List (String × List String)} {u v t : String}
    {p : List String} (he : Edge g u v) (hp : IsDirPath g p v t) :
    IsDirPath g (u :: p) u t := by
  obtain ⟨hh, hl, hc⟩ := hp
  cases p with
  | nil => simp at hh
  | cons b q =>
      obtain rfl : b = v := by simpa using hh
      refine ⟨rfl, ?_, List.chain'_cons.mpr ⟨he, hc⟩⟩
      rw [List.getLast?_cons_cons]
      exact hl

/-- Every walk is a directed path ending at the target. -/
lemma walkTo_isDirPath {g : List (String × List String)} {t u : String}
    {p : List String} (h : WalkTo g t u p) : IsDirPath g p u t := by
  induction h with
  | done => exact ⟨rfl, by simp, List.chain'_singleton t⟩
  | cons hne hlk hv hwk ih => exact isDirPath_cons ⟨_, hlk, hv⟩ ih

lemma chain_rtg {g : List (String × List String)} :
    ∀ (p : List String) (a t : String), List.Chain' (Edge g) (a :: p) →
      (a :: p).getLast? = some t → Relation.ReflTransGen (Edge g) a t := by
  intro p
  induction p with
  | nil =>
      intro a t _ hl
      obtain rfl : a = t := by simpa using hl
      exact Relation.ReflTransGen.refl
  | cons b q ih =>
      intro a t hc hl
      rw [List.chain'_cons] at hc
      rw [List.getLast?_cons_cons] at hl
      exact Relation.ReflTransGen.head hc.1 (ih b t hc.2 hl)

/-- Under acyclicity of the reachable subgraph every directed path from a
reachable node to the target is a walk: it cannot pass through the target
and continue, since that would close a cycle. -/
lemma isDirPath_walkTo (g : List (String × List String)) (root : String)
    (hacyc : ∀ u, Relation.ReflTransGen (Edge g) root u →
      ¬ Relation.TransGen (Edge g) u u) (t : String) :
    ∀ (p : List String) (u : String), Relation.ReflTransGen (Edge g) root u →
      IsDirPath g p u t → WalkTo g t u p := by
  intro p
  induction p with
  | nil => intro u _ hp; obtain ⟨hh, -, -⟩ := hp; simp at hh
  | cons a q ih =>
      intro u hreach hp
      obtain ⟨hh, hl, hc⟩ := hp
      obtain rfl : a = u := by simpa using hh
      cases q with
      | nil =>
          obtain rfl : a = t := by simpa using hl
          exact WalkTo.done
      | cons b r =>
          rw [List.chain'_cons] at hc
          obtain ⟨he, hc'⟩ := hc
          have hbt : (b :: r).getLast? = some t := by
            rw [List.getLast?_cons_cons] at hl
            exact hl
          by_cases hut : a = t
          · exfalso
            subst hut
            have hrtb : Relation.ReflTransGen (Edge g) b a := chain_rtg r b a hc' hbt
            exact hacyc a hreach (Relation.TransGen.head' he hrtb)
          · obtain ⟨outs, hlk, hb⟩ := he
            exact WalkTo.cons hut hlk hb
              (ih b (Relation.ReflTransGen.tail hreach ⟨outs, hlk, hb⟩)
                ⟨rfl, hbt, hc'⟩)

/-- Soundness of the memo cache: every cached value is the value the naive
recursion produces (with enough fuel) at the cached key. -/
abbrev MemoInv (g : List (String × List String)) (t : String) (memo : Memo) : Prop :=
  ∀ e ∈ memo,
    count_paths_with_nodes_naive (mu g e.1.1 + 1) g e.1.1 t e.1.2.1 e.1.2.2 = some e.2

lemma memoInv_nil (g : List (String × List String)) (t : String) :
    MemoInv g t [] :=
  fun e he => absurd he (List.not_mem_nil e)

/-- Stepping the memoized accumulation loop in lockstep with the naive fold:
if on every output the memoized call agrees with the naive value and
preserves the cache invariant, then so does the whole loop, and the two
folds add the same amount to their accumulators. -/
lemma cpwn_fold_corr (g : List (String × List String)) (t : String) (f fN : ℕ)
    (vd vf : Bool) :
    ∀ (outs : List String),
      (∀ v ∈ outs, ∀ (d fl : Bool) (m : Memo), MemoInv g t m →
        ∃ c m', count_paths_with_nodes f g v t d fl m = some (c, m') ∧
          count_paths_with_nodes_naive fN g v t d fl = some c ∧ MemoInv g t m') →
      ∀ (total a : ℕ) (memo : Memo), MemoInv g t memo →
        ∃ S memo',
          cpwn_fold (fun v d fl m => count_paths_with_nodes f g v t d fl m)
            vd vf outs total memo = some (total + S, memo') ∧
          MemoInv g t memo' ∧
          outs.foldl
            (fun acc v =>
              acc.bind fun x =>
                (count_paths_with_nodes_naive fN g v t
                    (vd || (v == "dac")) (vf || (v == "fft"))).bind
                  fun c => some (x + c))
            (some a) = some (a + S) := by
  intro outs
  induction outs with
  | nil =>
      intro _ total a memo hm
      exact ⟨0, memo, rfl, hm, rfl⟩
  | cons v rest ih =>
      intro hnext total a memo hm
      obtain ⟨c, m1, hc, hnv, hm1⟩ :=
        hnext v (List.mem_cons_self v rest) (vd || (v == "dac")) (vf || (v == "fft"))
          memo hm
      obtain ⟨S, memo', hfold, hm', hnfold⟩ :=
        ih (fun w hw => hnext w (List.mem_cons_of_mem v hw)) (total + c) (a + c) m1 hm1
      refine ⟨c + S, memo', ?_, hm', ?_⟩
      · simp only [cpwn_fold, hc]
        rw [hfold, Nat.add_assoc]
      · simp only [List.foldl_cons]
        rw [hnv]
        rw [Nat.add_assoc] at hnfold
        exact hnfold

/-- Main memoization lemma: under acyclicity below `root`, at any reachable
node with a sound cache, the memoized recursion succeeds (with fuel above
the reachable-node count), returns exactly the naive recursion's value, and
leaves the cache sound. -/
lemma cpwn_spec (g : List (String × List String)) (root t : String)
    (hacyc : ∀ u, Relation.ReflTransGen (Edge g) root u →
      ¬ Relation.TransGen (Edge g) u u) :
    ∀ (k : ℕ), ∀ (u : String) (vd vf : Bool) (memo : Memo) (fuel : ℕ),
      Relation.ReflTransGen (Edge g) root u → mu g u ≤ k → k < fuel →
      MemoInv g t memo →
      ∃ n memo',
        count_paths_with_nodes fuel g u t vd vf memo = some (n, memo') ∧
        count_paths_with_nodes_naive (mu g u + 1) g u t vd vf = some n ∧
        MemoInv g t memo' := by
  intro k
  induction k using Nat.strong_induction_on with
  | _ k ih =>
      intro u vd vf memo fuel hreach hmu hfuel hm
      obtain ⟨f, rfl⟩ : ∃ f, fuel = f + 1 := ⟨fuel - 1, by omega⟩
      rw [count_paths_with_nodes]
      by_cases ht : u = t
      · subst ht
        rw [if_pos rfl]
        refine ⟨(if vd && vf then 1 else 0), memo, rfl, ?_, hm⟩
        rw [count_paths_with_nodes_naive, if_pos rfl]
      · rw [if_neg ht]
        cases hlkm : List.lookup (u, vd, vf) memo with
        | some val =>
            refine ⟨val, memo, rfl, ?_, hm⟩
            exact hm _ (lookup_mem hlkm)
        | none =>
            cases hlkg : List.lookup u g with
            | none =>
                refine ⟨0, ((u, vd, vf), 0) :: memo, rfl, ?_, ?_⟩
                · rw [count_paths_with_nodes_naive, if_neg ht, hlkg]
                · intro e he
                  rcases List.mem_cons.mp he with rfl | he2
                  · show count_paths_with_nodes_naive (mu g u + 1) g u t vd vf = some 0
                    rw [count_paths_with_nodes_naive, if_neg ht, hlkg]
                  · exact hm e he2
            | some outs =>
                have hnexts : ∀ v ∈ outs, ∀ (d fl : Bool) (m : Memo), MemoInv g t m →
                    ∃ c m', count_paths_with_nodes f g v t d fl m = some (c, m') ∧
                      count_paths_with_nodes_naive (mu g u) g v t d fl = some c ∧
                      MemoInv g t m' := by
                  intro v hv d fl m hminv
                  have hedge : Edge g u v := ⟨outs, hlkg, hv⟩
                  have hreachv : Relation.ReflTransGen (Edge g) root v :=
                    Relation.ReflTransGen.tail hreach hedge
                  have hmuv : mu g v < mu g u := mu_lt hedge (hacyc u hreach)
                  obtain ⟨c, m', h1, h2, h3⟩ :=
                    ih (mu g v) (by omega) v d fl m f hreachv le_rfl (by omega) hminv
                  exact ⟨c, m', h1,
                    cpwn_naive_mono _ _ (by omega) g v t d fl c h2, h3⟩
                obtain ⟨S, memo', hfold, hm', hnfold⟩ :=
                  cpwn_fold_corr g t f (mu g u) vd vf outs hnexts 0 0 memo hm
                refine ⟨0 + S, ((u, vd, vf), 0 + S) :: memo', ?_, ?_, ?_⟩
                · simp only [hfold]
                · rw [count_paths_with_nodes_naive, if_neg ht, hlkg]
                  exact hnfold
                · intro e he
                  rcases List.mem_cons.mp he with rfl | he2
                  · show count_paths_with_nodes_naive (mu g u + 1) g u t vd vf =
                      some (0 + S)
                    rw [count_paths_with_nodes_naive, if_neg ht, hlkg]
                    exact hnfold
                  · exact hm' e he2

/-- **C5**: on every finite directed graph (encoded with duplicate-free
adjacency lists) whose subgraph reachable from `svr` is acyclic, Day 11
Part 2 returns the number of distinct directed paths from `svr` to `out`
that visit both `dac` and `fft`; in particular the memoized recursion
`count_paths_with_nodes` agrees with the naive unmemoized recursion: there
is a duplicate-free list `L` of exactly those paths such that for every
sufficient fuel both recursions return `L.length`. -/
theorem claim_C5_part2_counts_dac_fft_paths
    (g : List (String × List String))
    (hacyc : ∀ u, Relation.ReflTransGen (Edge g) "svr" u →
      ¬ Relation.TransGen (Edge g) u u)
    (hnd : ∀ u outs, List.lookup u g = some outs → outs.Nodup) :
    ∃ L : List (List String),
      L.Nodup ∧
      (∀ p, p ∈ L ↔ IsDirPath g p "svr" "out" ∧ "dac" ∈ p ∧ "fft" ∈ p) ∧
      ∀ fuel, mu g "svr" < fuel →
        advent_of_code_2025_day11_part2 fuel g = some L.length ∧
        count_paths_with_nodes_naive fuel g "svr" "out" false false =
          some L.length := by
  obtain ⟨ws, hws⟩ := Option.isSome_iff_exists.mp
    (walksFrom_some_of_acyclic g "svr" "out" hacyc (mu g "svr") "svr"
      Relation.ReflTransGen.refl le_rfl)
  refine ⟨ws.filter (goodFlag false false), ?_, ?_, ?_⟩
  · exact (walksFrom_nodup g hnd _ _ _ ws hws).filter _
  · intro p
    constructor
    · intro hp
      have hpw : p ∈ ws := List.mem_of_mem_filter hp
      have hflag : goodFlag false false p = true := List.of_mem_filter hp
      have hwalk : WalkTo g "out" "svr" p := walksFrom_sound _ g _ _ ws hws p hpw
      have hdir := walkTo_isDirPath hwalk
      have hhead : p.head? = some "svr" := hdir.1
      obtain ⟨q, rfl⟩ : ∃ q, p = "svr" :: q := by
        cases p with
        | nil => simp at hhead
        | cons a q =>
            obtain rfl : a = "svr" := by simpa using hhead
            exact ⟨q, rfl⟩
      simp only [goodFlag, Bool.false_or, Bool.and_eq_true, decide_eq_true_eq] at hflag
      exact ⟨hdir, List.mem_cons_of_mem _ hflag.1, List.mem_cons_of_mem _ hflag.2⟩
    · rintro ⟨hdir, hdac, hfft⟩
      have hwalk := isDirPath_walkTo g "svr" hacyc "out" p "svr"
        Relation.ReflTransGen.refl hdir
      have hpin : p ∈ ws := walksFrom_complete hwalk _ ws hws
      have hhead : p.head? = some "svr" := hdir.1
      obtain ⟨q, rfl⟩ : ∃ q, p = "svr" :: q := by
        cases p with
        | nil => simp at hhead
        | cons a q =>
            obtain rfl : a = "svr" := by simpa using hhead
            exact ⟨q, rfl⟩
      refine List.mem_filter.mpr ⟨hpin, ?_⟩
      have hd : "dac" ∈ q := by
        rcases List.mem_cons.mp hdac with hcon | hq
        · exact absurd hcon (by decide)
        · exact hq
      have hf : "fft" ∈ q := by
        rcases List.mem_cons.mp hfft with hcon | hq
        · exact absurd hcon (by decide)
        · exact hq
      simp [goodFlag, hd, hf]
  · intro fuel hfuel
    obtain ⟨n, memo', h1, h2, h3⟩ := cpwn_spec g "svr" "out" hacyc (mu g "svr")
      "svr" false false [] fuel Relation.ReflTransGen.refl le_rfl hfuel
      (memoInv_nil g "out")
    have hfw := naive_eq_filter_walks (mu g "svr" + 1) g "svr" "out" false false ws hws
    rw [h2] at hfw
    have hn : n = ((ws.filter (goodFlag false false)).length) := Option.some.inj hfw
    constructor
    · have hb1 : ("svr" == "dac") = false := by decide
      have hb2 : ("svr" == "fft") = false := by decide
      simp only [advent_of_code_2025_day11_part2, hb1, hb2]
      rw [h1]
      exact congrArg some hn
    · have := cpwn_naive_mono (mu g "svr" + 1) fuel (by omega) g "svr" "out"
        false false n h2
      rw [hn] at this
      exact this

/-- Witness for C5's theorem on the concrete empty graph: it is trivially
acyclic with duplicate-free adjacency lists. -/
theorem claim_C5_part2_counts_dac_fft_paths_witness :
    ∃ L : List (List String),
      L.Nodup ∧
      (∀ p, p ∈ L ↔ IsDirPath ([] : List (String × List String)) p "svr" "out" ∧
        "dac" ∈ p ∧ "fft" ∈ p) ∧
      ∀ fuel, mu ([] : List (String × List String)) "svr" < fuel →
        advent_of_code_2025_day11_part2 fuel [] = some L.length ∧
        count_paths_with_nodes_naive fuel [] "svr" "out" false false =
          some L.length :=
  claim_C5_part2_counts_dac_fft_paths []
    (by
      intro u _ htg
      cases htg with
      | single h => exact edge_nil_false _ _ h
      | tail _ h => exact edge_nil_false _ _ h)
    (by intro u outs h; simp [List.lookup] at h)

end Day11Y2025

/-! ## 2025 Day 8: the `UnionFind` class (C10)

Embedding of `src/2025/Day8/main.cpp:24-103`.  The three `std::vector<int>`
members are embedded as functions `ℕ → ℕ` together with the element count
`n`; all operations touch only indices below `n`.  The recursive `find`
(whose termination the C++ code takes for granted) takes explicit fuel and
returns `none` on exhaustion; fuel `n + 1` is proved sufficient. -/

namespace Day8Y2025

structure UnionFind where
  n : ℕ
  parent : ℕ → ℕ
  rank : ℕ → ℕ
  size : ℕ → ℕ

/-- The constructor `UnionFind(int n)`: `parent[i] = i`, ranks 0, sizes 1. -/
def UnionFind.init (n : ℕ) : UnionFind :=
  ⟨n, id, fun _ => 0, fun _ => 1⟩

/-- The pure parent chase (no compression): the value `find` returns. -/
def rootP : ℕ → (ℕ → ℕ) → ℕ → Option ℕ
  | 0, _, _ => none
  | fuel + 1, p, x => if p x = x then some x else rootP fuel p (p x)

/-- `z` reaches root `r` along the parent chain with some amount of fuel. -/
def Root (p : ℕ → ℕ) (z r : ℕ) : Prop :=
  ∃ fuel, rootP fuel p z = some r

/-- Embedding of `find` (Day8/main.cpp:42-49) with its path compression
`parent[x] = find(parent[x])`: the state after the recursive call gets
`parent` updated at `x` to the root, which is also the returned value. -/
def findAux : ℕ → UnionFind → ℕ → Option (ℕ × UnionFind)
  | 0, _, _ => none
  | fuel + 1, uf, x =>
      if uf.parent x = x then some (x, uf)
      else
        match findAux fuel uf (uf.parent x) with
        | none => none
        | some (r, uf') =>
            some (r, { uf' with parent := Function.update uf'.parent x r })

/-- Embedding of `unite` (Day8/main.cpp:51-78): two finds, then union by
rank with the three branches of the C++ code, merging sizes. -/
def unite (uf : UnionFind) (x y : ℕ) : Option (Bool × UnionFind) :=
  match findAux (uf.n + 1) uf x with
  | none => none
  | some (rootX, uf1) =>
      match findAux (uf1.n + 1) uf1 y with
      | none => none
      | some (rootY, uf2) =>
          if rootX = rootY then some (false, uf2)
          else if uf2.rank rootX < uf2.rank rootY then
            some (true,
              { uf2 with
                parent := Function.update uf2.parent rootX rootY,
                size := Function.update uf2.size rootY
                  (uf2.size rootY + uf2.size rootX) })
          else if uf2.rank rootY < uf2.rank rootX then
            some (true,
              { uf2 with
                parent := Function.update uf2.parent rootY rootX,
                size := Function.update uf2.size rootX
                  (uf2.size rootX + uf2.size rootY) })
          else
            some (true,
              { uf2 with
                parent := Function.update uf2.parent rootY rootX,
                size := Function.update uf2.size rootX
                  (uf2.size rootX + uf2.size rootY),
                rank := Function.update uf2.rank rootX (uf2.rank rootX + 1) })

/-- The loop of `getAllSizes` (Day8/main.cpp:85-102): `find(i)` for each
`i`, threading the compressed states, collecting the roots. -/
def collectRoots : List ℕ → UnionFind → Option (List ℕ × UnionFind)
  | [], uf => some ([], uf)
  | i :: is, uf =>
      match findAux (uf.n + 1) uf i with
      | none => none
      | some (r, uf') =>
          match collectRoots is uf' with
          | none => none
          | some (rs, uf'') => some (r :: rs, uf'')

/-- Embedding of `getAllSizes`: the `std::map<int,int>` keyed by root holds
exactly the collected roots and iterates its keys in ascending order, so
the returned values are `size[r]` over the ascending enumeration of the
root set (sizes are unchanged by the finds in the loop). -/
def getAllSizes (uf : UnionFind) : Option (List ℕ × UnionFind) :=
  match collectRoots (List.range uf.n) uf with
  | none => none
  | some (rs, uf') =>
      some (((List.range uf'.n).filter fun r => decide (r ∈ rs)).map uf'.size, uf')

/-- A call against the data structure: `unite(x, y)` or `find(x)`. -/
inductive Op where
  | unite (x y : ℕ)
  | find (x : ℕ)
deriving DecidableEq, Repr

def runOp (uf : UnionFind) : Op → Option UnionFind
  | .unite x y => (unite uf x y).map Prod.snd
  | .find x => (findAux (uf.n + 1) uf x).map Prod.snd

def runOps (uf : UnionFind) : List Op → Option UnionFind
  | [] => some uf
  | op :: ops =>
      match runOp uf op with
      | none => none
      | some uf' => runOps uf' ops

/-- The pairs passed to `unite` in a sequence of calls. -/
def pairsOf : List Op → List (ℕ × ℕ)
  | [] => []
  | .unite x y :: ops => (x, y) :: pairsOf ops
  | .find _ :: ops => pairsOf ops

def OpInRange (n : ℕ) : Op → Prop
  | .unite x y => x < n ∧ y < n
  | .find x => x < n

/-- The data-structure invariant: parents stay in range, rank strictly
increases along non-trivial parent edges (hence the chase terminates), and
the size stored at each root counts the elements resolving to it. -/
structure WFuf (uf : UnionFind) : Prop where
  hpar : ∀ z, z < uf.n → uf.parent z < uf.n
  hrank : ∀ z, z < uf.n → uf.parent z ≠ z → uf.rank z < uf.rank (uf.parent z)
  hsize : ∀ r, r < uf.n → uf.parent r = r →
    uf.size r = ((List.range uf.n).countP
      fun z => decide (rootP (uf.n + 1) uf.parent z = some r))

lemma rootP_fix {p : ℕ → ℕ} {x : ℕ} (h : p x = x) (fuel : ℕ) :
    rootP (fuel + 1) p x = some x := by
  rw [rootP, if_pos h]

lemma rootP_mono :
    ∀ (f1 f2 : ℕ), f1 ≤ f2 → ∀ (p : ℕ → ℕ) (x r : ℕ),
      rootP f1 p x = some r → rootP f2 p x = some r := by
  intro f1
  induction f1 with
  | zero => intro f2 _ p x r h; rw [rootP] at h; simp at h
  | succ f ih =>
      intro f2 hle p x r h
      obtain ⟨f2', rfl⟩ : ∃ f'', f2 = f'' + 1 := ⟨f2 - 1, by omega⟩
      rw [rootP] at h ⊢
      by_cases hx : p x = x
      · rw [if_pos hx] at h ⊢; exact h
      · rw [if_neg hx] at h ⊢
        exact ih f2' (by omega) p (p x) r h

lemma rootP_det {p : ℕ → ℕ} {x a b : ℕ} {f1 f2 : ℕ}
    (h1 : rootP f1 p x = some a) (h2 : rootP f2 p x = some b) : a = b := by
  rcases le_total f1 f2 with hle | hle
  · have := rootP_mono f1 f2 hle p x a h1
    rw [this] at h2
    exact Option.some.inj h2
  · have := rootP_mono f2 f1 hle p x b h2
    rw [this] at h1
    exact (Option.some.inj h1).symm

lemma root_det {p : ℕ → ℕ} {x a b : ℕ} (h1 : Root p x a) (h2 : Root p x b) :
    a = b := by
  obtain ⟨f1, h1⟩ := h1
  obtain ⟨f2, h2⟩ := h2
  exact rootP_det h1 h2

lemma rootP_isRoot :
    ∀ (fuel : ℕ) (p : ℕ → ℕ) (x r : ℕ), rootP fuel p x = some r → p r = r := by
  intro fuel
  induction fuel with
  | zero => intro p x r h; rw [rootP] at h; simp at h
  | succ f ih =>
      intro p x r h
      rw [rootP] at h
      by_cases hx : p x = x
      · rw [if_pos hx] at h
        obtain rfl : x = r := by simpa using h
        exact hx
      · rw [if_neg hx] at h
        exact ih p (p x) r h

lemma root_self {p : ℕ → ℕ} {z : ℕ} (h : Root p z z) : p z = z := by
  obtain ⟨f, hf⟩ := h
  exact rootP_isRoot f p z z hf

lemma rootP_lt {n : ℕ} {p : ℕ → ℕ} (hpar : ∀ z, z < n → p z < n) :
    ∀ (fuel : ℕ) (x r : ℕ), x < n → rootP fuel p x = some r → r < n := by
  intro fuel
  induction fuel with
  | zero => intro x r _ h; rw [rootP] at h; simp at h
  | succ f ih =>
      intro x r hx h
      rw [rootP] at h
      by_cases hfix : p x = x
      · rw [if_pos hfix] at h
        obtain rfl : x = r := by simpa using h
        exact hx
      · rw [if_neg hfix] at h
        exact ih (p x) r (hpar x hx) h

lemma rootP_rank {n : ℕ} {p rank : ℕ → ℕ} (hpar : ∀ z, z < n → p z < n)
    (hrank : ∀ z, z < n → p z ≠ z → rank z < rank (p z)) :
    ∀ (fuel : ℕ) (x r : ℕ), x < n → rootP fuel p x = some r → x ≠ r →
      rank x < rank r := by
  intro fuel
  induction fuel with
  | zero => intro x r _ h; rw [rootP] at h; simp at h
  | succ f ih =>
      intro x r hx h hxr
      rw [rootP] at h
      by_cases hfix : p x = x
      · rw [if_pos hfix] at h
        exact absurd (by simpa using h) hxr
      · rw [if_neg hfix] at h
        by_cases hpxr : p x = r
        · rw [← hpxr]
          exact hrank x hx hfix
        · exact lt_trans (hrank x hx hfix) (ih (p x) r (hpar x hx) h hpxr)

lemma rootP_none_chain {p : ℕ → ℕ} :
    ∀ (fuel x : ℕ), rootP fuel p x = none →
      ∀ i, i < fuel → p (p^[i] x) ≠ p^[i] x := by
  intro fuel
  induction fuel with
  | zero => intro x _ i hi; omega
  | succ f ih =>
      intro x h i hi
      rw [rootP] at h
      by_cases hx : p x = x
      · rw [if_pos hx] at h; simp at h
      · rw [if_neg hx] at h
        cases i with
        | zero => simpa using hx
        | succ j =>
            rw [Function.iterate_succ_apply]
            exact ih (p x) h j (by omega)

/-- Fuel `n + 1` always suffices for the chase when rank strictly increases
along parent edges: a longer chain would visit `n + 1` distinct indices
below `n`. -/
lemma rootP_total {n : ℕ} {p rank : ℕ → ℕ} (hpar : ∀ z, z < n → p z < n)
    (hrank : ∀ z, z < n → p z ≠ z → rank z < rank (p z)) :
    ∀ x, x < n → (rootP (n + 1) p x).isSome := by
  intro x hx
  by_contra hns
  have hnone : rootP (n + 1) p x = none := by
    cases hr : rootP (n + 1) p x with
    | none => rfl
    | some r => rw [hr] at hns; simp at hns
  have hnr := rootP_none_chain (n + 1) x hnone
  have hlt : ∀ i, p^[i] x < n := by
    intro i
    induction i with
    | zero => simpa using hx
    | succ j ihj =>
        rw [Function.iterate_succ_apply']
        exact hpar _ ihj
  have hstep : ∀ i, i < n + 1 → rank (p^[i] x) < rank (p^[i + 1] x) := by
    intro i hi
    rw [Function.iterate_succ_apply']
    exact hrank _ (hlt i) (hnr i hi)
  have hmono : ∀ d i, i + d + 1 ≤ n + 1 → rank (p^[i] x) < rank (p^[i + d + 1] x) := by
    intro d
    induction d with
    | zero => intro i h; exact hstep i (by omega)
    | succ e ihe =>
        intro i h
        refine lt_trans (ihe i (by omega)) ?_
        have := hstep (i + e + 1) (by omega)
        have harith : i + (e + 1) + 1 = (i + e + 1) + 1 := by omega
        rw [harith]
        exact this
  have hinj : Set.InjOn (fun i => p^[i] x) ↑(Finset.range (n + 2)) := by
    intro i hi j hj hij
    simp only [Finset.coe_range, Set.mem_Iio] at hi hj
    have hij' : p^[i] x = p^[j] x := hij
    rcases lt_trichotomy i j with hlt' | heq | hlt'
    · exfalso
      have := hmono (j - i - 1) i (by omega)
      have harith : i + (j - i - 1) + 1 = j := by omega
      rw [harith] at this
      rw [hij'] at this
      omega
    · exact heq
    · exfalso
      have := hmono (i - j - 1) j (by omega)
      have harith : j + (i - j - 1) + 1 = i := by omega
      rw [harith] at this
      rw [hij'] at this
      omega
  have hsub : ∀ i ∈ Finset.range (n + 2), (fun i => p^[i] x) i ∈ Finset.range n := by
    intro i _
    exact Finset.mem_range.mpr (hlt i)
  have := Finset.card_le_card_of_injOn _ hsub hinj
  simp only [Finset.card_range] at this
  omega

/-- Path compression does not disturb any chase result: redirecting `x` to
its own root `r` keeps every node's root, without needing more fuel. -/
lemma rootP_compress {p : ℕ → ℕ} {x r : ℕ} (hxr : Root p x r) :
    ∀ (fuel z r' : ℕ), rootP fuel p z = some r' →
      rootP fuel (Function.update p x r) z = some r' := by
  intro fuel
  induction fuel with
  | zero => intro z r' h; rw [rootP] at h; simp at h
  | succ f ih =>
      intro z r' h
      rw [rootP] at h ⊢
      by_cases hz : p z = z
      · rw [if_pos hz] at h
        obtain rfl : z = r' := by simpa using h
        by_cases hzx : z = x
        · subst hzx
          obtain rfl : r = z := root_det hxr ⟨1, rootP_fix hz 0⟩
          rw [if_pos (by simp)]
        · rw [if_pos (by rw [Function.update_noteq hzx]; exact hz)]
      · rw [if_neg hz] at h
        by_cases hzx : z = x
        · subst hzx
          obtain rfl : r = r' :=
            root_det hxr ⟨f + 1, by rw [rootP, if_neg hz]; exact h⟩
          have hroot : p r = r := rootP_isRoot f p (p z) r h
          have hrz : r ≠ z := fun hE => hz (by rw [← hE] at hz ⊢; exact hroot)
          rw [if_neg (by rw [Function.update_same]; exact hrz)]
          rw [Function.update_same]
          obtain ⟨f', rfl⟩ : ∃ f'', f = f'' + 1 := by
            cases f with
            | zero => rw [rootP] at h; simp at h
            | succ f'' => exact ⟨f'', rfl⟩
          rw [rootP, if_pos (by rw [Function.update_noteq hrz]; exact hroot)]
        · rw [if_neg (by rw [Function.update_noteq hzx]; exact hz)]
          rw [Function.update_noteq hzx]
          exact ih (p z) r' h

/-- Redirecting root `rx` to the distinct root `ry` sends every chase that
ended at `rx` to `ry` and leaves all other chases unchanged, at the cost of
one extra fuel step. -/
lemma rootP_union {p : ℕ → ℕ} {rx ry : ℕ} (hrx : p rx = rx) (hry : p ry = ry)
    (hneq : rx ≠ ry) :
    ∀ (fuel z r' : ℕ), rootP fuel p z = some r' →
      rootP (fuel + 1) (Function.update p rx ry) z =
        some (if r' = rx then ry else r') := by
  intro fuel
  induction fuel with
  | zero => intro z r' h; rw [rootP] at h; simp at h
  | succ f ih =>
      intro z r' h
      rw [rootP] at h
      by_cases hz : p z = z
      · rw [if_pos hz] at h
        obtain rfl : z = r' := by simpa using h
        by_cases hzx : z = rx
        · subst hzx
          rw [if_pos (by simp)]
          rw [rootP,
            if_neg (by rw [Function.update_same]; exact fun hE => hneq hE.symm)]
          rw [Function.update_same]
          rw [rootP,
            if_pos (by rw [Function.update_noteq (fun hE => hneq hE.symm)]; exact hry)]
        · rw [if_neg hzx]
          rw [rootP, if_pos (by rw [Function.update_noteq hzx]; exact hz)]
      · rw [if_neg hz] at h
        have hzrx : z ≠ rx := fun hE => hz (by rw [hE]; exact hE ▸ hrx)
        rw [rootP, if_neg (by rw [Function.update_noteq hzrx]; exact hz)]
        rw [Function.update_noteq hzrx]
        exact ih (p z) r' h

lemma findAux_of_rootP :
    ∀ (fuel : ℕ) (uf : UnionFind) (x r : ℕ),
      rootP fuel uf.parent x = some r →
      ∃ uf₂, findAux fuel uf x = some (r, uf₂) := by
  intro fuel
  induction fuel with
  | zero => intro uf x r h; rw [rootP] at h; simp at h
  | succ f ih =>
      intro uf x r h
      rw [rootP] at h
      rw [findAux]
      by_cases hx : uf.parent x = x
      · rw [if_pos hx] at h
        obtain rfl : x = r := by simpa using h
        rw [if_pos hx]
        exact ⟨uf, rfl⟩
      · rw [if_neg hx] at h
        rw [if_neg hx]
        obtain ⟨uf', huf'⟩ := ih uf (uf.parent x) r h
        rw [huf']
        exact ⟨_, rfl⟩

/-- What one `find` call does: it returns the chase result, keeps `n`,
`rank` and `size`, preserves every reachability-to-root fact, and changes
`parent` only by pointing nodes at one of their roots (compression). -/
lemma findAux_spec :
    ∀ (fuel : ℕ) (uf : UnionFind) (x r : ℕ) (uf₂ : UnionFind),
      findAux fuel uf x = some (r, uf₂) →
      rootP fuel uf.parent x = some r ∧ uf₂.n = uf.n ∧ uf₂.rank = uf.rank ∧
      uf₂.size = uf.size ∧
      (∀ z r', Root uf.parent z r' → Root uf₂.parent z r') ∧
      (∀ z, uf₂.parent z = uf.parent z ∨ Root uf.parent z (uf₂.parent z)) := by
  intro fuel
  induction fuel with
  | zero => intro uf x r uf₂ h; rw [findAux] at h; simp at h
  | succ f ih =>
      intro uf x r uf₂ h
      rw [findAux] at h
      by_cases hx : uf.parent x = x
      · rw [if_pos hx] at h
        rw [Option.some.injEq, Prod.mk.injEq] at h
        obtain ⟨rfl, rfl⟩ := h
        exact ⟨rootP_fix hx f, rfl, rfl, rfl, fun z r' hr => hr, fun z => Or.inl rfl⟩
      · rw [if_neg hx] at h
        cases hrec : findAux f uf (uf.parent x) with
        | none => rw [hrec] at h; simp at h
        | some pr =>
            obtain ⟨r₀, uf'⟩ := pr
            rw [hrec] at h
            rw [Option.some.injEq, Prod.mk.injEq] at h
            obtain ⟨rfl, rfl⟩ := h
            obtain ⟨hroot, hn, hrk, hsz, hpres, hcomp⟩ := ih uf (uf.parent x) r₀ uf' hrec
            have hxroot : Root uf.parent x r₀ :=
              ⟨f + 1, by rw [rootP, if_neg hx]; exact hroot⟩
            have hxroot' : Root uf'.parent x r₀ := hpres x r₀ hxroot
            refine ⟨by rw [rootP, if_neg hx]; exact hroot, hn, hrk, hsz, ?_, ?_⟩
            · intro z r' hzr
              obtain ⟨fz, hfz⟩ := hpres z r' hzr
              exact ⟨fz, rootP_compress hxroot' fz z r' hfz⟩
            · intro z
              by_cases hzx : z = x
              · subst hzx
                right
                simp only [Function.update_same]
                exact hxroot
              · rcases hcomp z with hsame | hroot'
                · left
                  simp only [Function.update_noteq hzx]
                  exact hsame
                · right
                  simp only [Function.update_noteq hzx]
                  exact hroot'

/-- `find` preserves the data-structure invariant and every node's root. -/
lemma findAux_WF {uf : UnionFind} {fuel x r : ℕ} {uf₂ : UnionFind}
    (h : WFuf uf) (hfind : findAux fuel uf x = some (r, uf₂)) :
    WFuf uf₂ ∧
    ∀ z, z < uf.n →
      rootP (uf.n + 1) uf₂.parent z = rootP (uf.n + 1) uf.parent z := by
  obtain ⟨-, hn, hrk, hsz, hpres, hcomp⟩ := findAux_spec fuel uf x r uf₂ hfind
  have hp2 : ∀ z, z < uf.n → uf₂.parent z < uf.n := by
    intro z hz
    rcases hcomp z with hsame | hroot'
    · rw [hsame]; exact h.hpar z hz
    · obtain ⟨fz, hfz⟩ := hroot'
      exact rootP_lt h.hpar fz z _ hz hfz
  have hr2 : ∀ z, z < uf.n → uf₂.parent z ≠ z →
      uf₂.rank z < uf₂.rank (uf₂.parent z) := by
    intro z hz hnz
    rw [hrk]
    rcases hcomp z with hsame | hroot'
    · rw [hsame] at hnz ⊢
      exact h.hrank z hz hnz
    · obtain ⟨fz, hfz⟩ := hroot'
      exact rootP_rank h.hpar h.hrank fz z _ hz hfz (fun hE => hnz hE.symm)
  have hroots : ∀ z, z < uf.n →
      rootP (uf.n + 1) uf₂.parent z = rootP (uf.n + 1) uf.parent z := by
    intro z hz
    obtain ⟨r₀, hr₀⟩ := Option.isSome_iff_exists.mp (rootP_total h.hpar h.hrank z hz)
    obtain ⟨r₁, hr₁⟩ := Option.isSome_iff_exists.mp (rootP_total hp2 hr2 z hz)
    have hprop : Root uf₂.parent z r₀ := hpres z r₀ ⟨_, hr₀⟩
    obtain rfl : r₁ = r₀ := root_det ⟨_, hr₁⟩ hprop
    rw [hr₀, hr₁]
  have hsize2 : ∀ r', r' < uf.n → uf₂.parent r' = r' →
      uf₂.size r' = ((List.range uf.n).countP
        fun z => decide (rootP (uf.n + 1) uf₂.parent z = some r')) := by
    intro r' hr' hroot'
    have hufroot : uf.parent r' = r' := by
      rcases hcomp r' with hsame | hrt
      · rw [← hsame]; exact hroot'
      · rw [hroot'] at hrt
        exact root_self hrt
    rw [hsz]
    rw [h.hsize r' hr' hufroot]
    refine List.countP_congr ?_
    intro z hz
    rw [hroots z (List.mem_range.mp hz)]
  refine ⟨⟨?_, ?_, ?_⟩, hroots⟩
  · intro z hz
    rw [hn] at hz ⊢
    exact hp2 z hz
  · intro z hz
    rw [hn] at hz
    exact hr2 z hz
  · intro r' hr' hroot'
    rw [hn] at hr' ⊢
    exact hsize2 r' hr' hroot'

lemma countP_or_disjoint (p q : ℕ → Bool) :
    ∀ l : List ℕ, (∀ z ∈ l, ¬(p z = true ∧ q z = true)) →
      l.countP (fun z => p z || q z) = l.countP p + l.countP q := by
  intro l
  induction l with
  | nil => intro _; rfl
  | cons a l ih =>
      intro hdis
      rw [List.countP_cons, List.countP_cons, List.countP_cons,
        ih (fun z hz => hdis z (List.mem_cons_of_mem a hz))]
      have hda := hdis a (List.mem_cons_self a l)
      cases hp : p a <;> cases hq : q a <;> simp [hp, hq] at hda ⊢ <;> omega

/-- The common shape of the three union-by-rank branches: redirect root `L`
to root `W`, store the merged size at `W`, with a possibly bumped rank
function. -/
lemma merge_spec {uf2 : UnionFind} (h2 : WFuf uf2) {L W : ℕ}
    (hL : uf2.parent L = L) (hW : uf2.parent W = W)
    (hLn : L < uf2.n) (hWn : W < uf2.n) (hLW : L ≠ W)
    (uf₃ : UnionFind)
    (hp3 : uf₃.parent = Function.update uf2.parent L W)
    (hn3 : uf₃.n = uf2.n)
    (hs3 : uf₃.size = Function.update uf2.size W (uf2.size W + uf2.size L))
    (hLV : uf₃.rank L < uf₃.rank W)
    (hEdge : ∀ z, z < uf2.n → z ≠ L → uf2.parent z ≠ z →
      uf₃.rank z < uf₃.rank (uf2.parent z)) :
    WFuf uf₃ ∧
    ∀ z, z < uf2.n →
      rootP (uf2.n + 1) uf₃.parent z =
        (rootP (uf2.n + 1) uf2.parent z).map fun r => if r = L then W else r := by
  have hp2' : ∀ z, z < uf2.n → uf₃.parent z < uf2.n := by
    intro z hz
    rw [hp3]
    by_cases hzL : z = L
    · subst hzL; rw [Function.update_same]; exact hWn
    · rw [Function.update_noteq hzL]; exact h2.hpar z hz
  have hr2' : ∀ z, z < uf2.n → uf₃.parent z ≠ z →
      uf₃.rank z < uf₃.rank (uf₃.parent z) := by
    intro z hz hnz
    rw [hp3] at hnz ⊢
    by_cases hzL : z = L
    · subst hzL
      rw [Function.update_same] at hnz ⊢
      exact hLV
    · rw [Function.update_noteq hzL] at hnz ⊢
      exact hEdge z hz hzL hnz
  have hmap : ∀ z, z < uf2.n →
      rootP (uf2.n + 1) uf₃.parent z =
        (rootP (uf2.n + 1) uf2.parent z).map fun r => if r = L then W else r := by
    intro z hz
    obtain ⟨r, hr⟩ :=
      Option.isSome_iff_exists.mp (rootP_total h2.hpar h2.hrank z hz)
    have hbig : rootP (uf2.n + 1 + 1) (Function.update uf2.parent L W) z =
        some (if r = L then W else r) := rootP_union hL hW hLW (uf2.n + 1) z r hr
    obtain ⟨r₁, hr₁⟩ := Option.isSome_iff_exists.mp (rootP_total hp2' hr2' z hz)
    rw [hp3] at hr₁
    have heq : r₁ = (if r = L then W else r) := rootP_det hr₁ hbig
    rw [hp3, hr₁, heq, hr, Option.map_some']
  have hsz' : ∀ r', r' < uf2.n → uf₃.parent r' = r' →
      uf₃.size r' = ((List.range uf2.n).countP
        fun z => decide (rootP (uf2.n + 1) uf₃.parent z = some r')) := by
    intro r' hr' hroot'
    have hr'L : r' ≠ L := by
      intro hE
      subst hE
      rw [hp3, Function.update_same] at hroot'
      exact hLW hroot'.symm
    have hroot2 : uf2.parent r' = r' := by
      rw [hp3, Function.update_noteq hr'L] at hroot'
      exact hroot'
    by_cases hr'W : r' = W
    · subst hr'W
      rw [hs3, Function.update_same]
      have hpoint : ∀ z ∈ List.range uf2.n,
          (decide (rootP (uf2.n + 1) uf₃.parent z = some r')) =
          ((decide (rootP (uf2.n + 1) uf2.parent z = some r')) ||
           (decide (rootP (uf2.n + 1) uf2.parent z = some L))) := by
        intro z hz
        have hzn := List.mem_range.mp hz
        rw [hmap z hzn]
        obtain ⟨r, hr⟩ :=
          Option.isSome_iff_exists.mp (rootP_total h2.hpar h2.hrank z hzn)
        rw [hr]
        by_cases hrL : r = L
        · subst hrL
          simp [hLW]
        · simp [hrL]
      rw [List.countP_congr (fun z hz => by rw [hpoint z hz])]
      have hdisj : ∀ z ∈ List.range uf2.n,
          ¬((decide (rootP (uf2.n + 1) uf2.parent z = some r')) = true ∧
            (decide (rootP (uf2.n + 1) uf2.parent z = some L)) = true) := by
        intro z _ hand
        obtain ⟨ha, hb⟩ := hand
        simp only [decide_eq_true_eq] at ha hb
        rw [ha] at hb
        exact hLW (Option.some.inj hb).symm
      rw [countP_or_disjoint _ _ _ hdisj]
      rw [← h2.hsize r' hWn hW, ← h2.hsize L hLn hL]
    · rw [hs3, Function.update_noteq hr'W]
      rw [h2.hsize r' hr' hroot2]
      refine List.countP_congr ?_
      intro z hz
      have hzn := List.mem_range.mp hz
      rw [hmap z hzn]
      obtain ⟨r, hr⟩ :=
        Option.isSome_iff_exists.mp (rootP_total h2.hpar h2.hrank z hzn)
      rw [hr]
      simp only [Option.map_some']
      by_cases hrL : r = L
      · subst hrL
        simp [Ne.symm hr'L, Ne.symm hr'W]
      · simp [hrL]
  refine ⟨⟨?_, ?_, ?_⟩, hmap⟩
  · intro z hz
    rw [hn3] at hz ⊢
    exact hp2' z hz
  · intro z hz
    rw [hn3] at hz
    exact hr2' z hz
  · intro r' hr' hroot'
    rw [hn3] at hr' ⊢
    exact hsz' r' hr' hroot'

/-- What one `unite` call does: both finds succeed, the invariant is kept,
and every node's root is the common witness `w` if its old root was one of
the two merged roots, and is unchanged otherwise. -/
lemma unite_spec {uf : UnionFind} (h : WFuf uf) {x y : ℕ}
    (hx : x < uf.n) (hy : y < uf.n) :
    ∃ (rx ry : ℕ) (b : Bool) (uf₃ : UnionFind),
      rootP (uf.n + 1) uf.parent x = some rx ∧
      rootP (uf.n + 1) uf.parent y = some ry ∧
      unite uf x y = some (b, uf₃) ∧ WFuf uf₃ ∧ uf₃.n = uf.n ∧
      ∃ w, ((rx = ry ∧ w = rx) ∨ (rx ≠ ry ∧ (w = rx ∨ w = ry))) ∧
        ∀ z, z < uf.n →
          rootP (uf.n + 1) uf₃.parent z =
            (rootP (uf.n + 1) uf.parent z).map
              fun r => if r = rx ∨ r = ry then w else r := by
  obtain ⟨rx, hrx⟩ := Option.isSome_iff_exists.mp (rootP_total h.hpar h.hrank x hx)
  obtain ⟨uf1, hfx⟩ := findAux_of_rootP (uf.n + 1) uf x rx hrx
  obtain ⟨hw1, hroots1⟩ := findAux_WF h hfx
  obtain ⟨-, hn1, hrk1, hsz1, -, -⟩ := findAux_spec (uf.n + 1) uf x rx uf1 hfx
  obtain ⟨ry, hry⟩ := Option.isSome_iff_exists.mp (rootP_total h.hpar h.hrank y hy)
  have hry1 : rootP (uf.n + 1) uf1.parent y = some ry := by
    rw [hroots1 y hy]; exact hry
  obtain ⟨uf2, hfy⟩ :=
    findAux_of_rootP (uf1.n + 1) uf1 y ry (by rw [hn1]; exact hry1)
  obtain ⟨hw2, hroots2⟩ := findAux_WF hw1 hfy
  obtain ⟨-, hn2, hrk2, hsz2, -, -⟩ := findAux_spec (uf1.n + 1) uf1 y ry uf2 hfy
  have hn20 : uf2.n = uf.n := hn2.trans hn1
  have hroots2' : ∀ z, z < uf.n →
      rootP (uf.n + 1) uf2.parent z = rootP (uf.n + 1) uf.parent z := by
    intro z hz
    have h2z := hroots2 z (by rw [hn1]; exact hz)
    rw [hn1] at h2z
    rw [h2z]
    exact hroots1 z hz
  have hrxlt : rx < uf.n := rootP_lt h.hpar (uf.n + 1) x rx hx hrx
  have hrylt : ry < uf.n := rootP_lt h.hpar (uf.n + 1) y ry hy hry
  have hrxroot : uf.parent rx = rx := rootP_isRoot (uf.n + 1) uf.parent x rx hrx
  have hryroot : uf.parent ry = ry := rootP_isRoot (uf.n + 1) uf.parent y ry hry
  have hrx2P : rootP (uf.n + 1) uf2.parent rx = some rx := by
    rw [hroots2' rx hrxlt]
    exact rootP_fix hrxroot uf.n
  have hry2P : rootP (uf.n + 1) uf2.parent ry = some ry := by
    rw [hroots2' ry hrylt]
    exact rootP_fix hryroot uf.n
  have hrx2 : uf2.parent rx = rx := root_self ⟨_, hrx2P⟩
  have hry2 : uf2.parent ry = ry := root_self ⟨_, hry2P⟩
  by_cases hxy : rx = ry
  · refine ⟨rx, ry, false, uf2, hrx, hry, ?_, hw2, hn20, rx, Or.inl ⟨hxy, rfl⟩, ?_⟩
    · simp only [unite, hfx, hfy]
      rw [if_pos hxy]
    · intro z hz
      rw [hroots2' z hz]
      obtain ⟨r, hr⟩ :=
        Option.isSome_iff_exists.mp (rootP_total h.hpar h.hrank z hz)
      rw [hr]
      simp only [Option.map_some']
      by_cases hrrx : r = rx
      · subst hrrx
        simp
      · subst hxy
        simp [hrrx]
  · have hmain : ∀ (uf₃ : UnionFind) (L W : ℕ),
        (L = rx ∧ W = ry) ∨ (L = ry ∧ W = rx) →
        uf₃.parent = Function.update uf2.parent L W →
        uf₃.n = uf2.n →
        uf₃.size = Function.update uf2.size W (uf2.size W + uf2.size L) →
        uf₃.rank L < uf₃.rank W →
        (∀ z, z < uf2.n → z ≠ L → uf2.parent z ≠ z →
          uf₃.rank z < uf₃.rank (uf2.parent z)) →
        WFuf uf₃ ∧ uf₃.n = uf.n ∧
        ∀ z, z < uf.n →
          rootP (uf.n + 1) uf₃.parent z =
            (rootP (uf.n + 1) uf.parent z).map
              fun r => if r = rx ∨ r = ry then W else r := by
      intro uf₃ L W hLWcase hp3 hn3 hs3 hLV hEdge
      have hLroot : uf2.parent L = L := by
        rcases hLWcase with ⟨rfl, -⟩ | ⟨rfl, -⟩
        · exact hrx2
        · exact hry2
      have hWroot : uf2.parent W = W := by
        rcases hLWcase with ⟨-, rfl⟩ | ⟨-, rfl⟩
        · exact hry2
        · exact hrx2
      have hLn : L < uf2.n := by
        rw [hn20]
        rcases hLWcase with ⟨rfl, -⟩ | ⟨rfl, -⟩
        · exact hrxlt
        · exact hrylt
      have hWn : W < uf2.n := by
        rw [hn20]
        rcases hLWcase with ⟨-, rfl⟩ | ⟨-, rfl⟩
        · exact hrylt
        · exact hrxlt
      have hLW : L ≠ W := by
        rcases hLWcase with ⟨rfl, rfl⟩ | ⟨rfl, rfl⟩
        · exact hxy
        · exact Ne.symm hxy
      obtain ⟨hwf3, hmap⟩ :=
        merge_spec hw2 hLroot hWroot hLn hWn hLW uf₃ hp3 hn3 hs3 hLV hEdge
      refine ⟨hwf3, hn3.trans hn20, ?_⟩
      intro z hz
      have hmz := hmap z (by rw [hn20]; exact hz)
      rw [hn20] at hmz
      rw [hmz, hroots2' z hz]
      obtain ⟨r, hr⟩ :=
        Option.isSome_iff_exists.mp (rootP_total h.hpar h.hrank z hz)
      rw [hr]
      simp only [Option.map_some']
      rcases hLWcase with ⟨rfl, rfl⟩ | ⟨rfl, rfl⟩
      · by_cases hrL : r = L
        · subst hrL
          simp
        · by_cases hrW : r = W
          · subst hrW
            simp [hrL]
          · simp [hrL, hrW]
      · by_cases hrL : r = L
        · subst hrL
          simp
        · by_cases hrW : r = W
          · subst hrW
            simp [hrL]
          · simp [hrL, hrW]
    by_cases hcmp1 : uf2.rank rx < uf2.rank ry
    · obtain ⟨hwf3, hn3, hmap3⟩ := hmain
        { uf2 with
          parent := Function.update uf2.parent rx ry,
          size := Function.update uf2.size ry (uf2.size ry + uf2.size rx) }
        rx ry (Or.inl ⟨rfl, rfl⟩) rfl rfl rfl hcmp1
        (fun z hz hzL hnz => hw2.hrank z hz hnz)
      refine ⟨rx, ry, true, _, hrx, hry, ?_, hwf3, hn3, ry, Or.inr ⟨hxy, Or.inr rfl⟩, hmap3⟩
      simp only [unite, hfx, hfy]
      rw [if_neg hxy, if_pos hcmp1]
    · by_cases hcmp2 : uf2.rank ry < uf2.rank rx
      · obtain ⟨hwf3, hn3, hmap3⟩ := hmain
          { uf2 with
            parent := Function.update uf2.parent ry rx,
            size := Function.update uf2.size rx (uf2.size rx + uf2.size ry) }
          ry rx (Or.inr ⟨rfl, rfl⟩) rfl rfl rfl hcmp2
          (fun z hz hzL hnz => hw2.hrank z hz hnz)
        refine ⟨rx, ry, true, _, hrx, hry, ?_, hwf3, hn3, rx, Or.inr ⟨hxy, Or.inl rfl⟩, hmap3⟩
        simp only [unite, hfx, hfy]
        rw [if_neg hxy, if_neg hcmp1, if_pos hcmp2]
      · have heqr : uf2.rank ry = uf2.rank rx := by omega
        obtain ⟨hwf3, hn3, hmap3⟩ := hmain
          { uf2 with
            parent := Function.update uf2.parent ry rx,
            size := Function.update uf2.size rx (uf2.size rx + uf2.size ry),
            rank := Function.update uf2.rank rx (uf2.rank rx + 1) }
          ry rx (Or.inr ⟨rfl, rfl⟩) rfl rfl rfl
          (by
            show Function.update uf2.rank rx (uf2.rank rx + 1) ry <
              Function.update uf2.rank rx (uf2.rank rx + 1) rx
            rw [Function.update_same, Function.update_noteq (Ne.symm hxy)]
            omega)
          (by
            intro z hz hzL hnz
            show Function.update uf2.rank rx (uf2.rank rx + 1) z <
              Function.update uf2.rank rx (uf2.rank rx + 1) (uf2.parent z)
            have hzrx : z ≠ rx := fun hE => hnz (by rw [hE]; exact hE ▸ hrx2)
            rw [Function.update_noteq hzrx]
            by_cases hprx : uf2.parent z = rx
            · rw [hprx, Function.update_same]
              have := hw2.hrank z hz hnz
              rw [hprx] at this
              omega
            · rw [Function.update_noteq hprx]
              exact hw2.hrank z hz hnz)
        refine ⟨rx, ry, true, _, hrx, hry, ?_, hwf3, hn3, rx, Or.inr ⟨hxy, Or.inl rfl⟩, hmap3⟩
        simp only [unite, hfx, hfy]
        rw [if_neg hxy, if_neg hcmp1, if_neg hcmp2]

/-- The relation "this ordered pair was passed to `unite`". -/
abbrev PairRel (pairs : List (ℕ × ℕ)) (a b : ℕ) : Prop := (a, b) ∈ pairs

lemma eqvGen_mono {pairs pairs' : List (ℕ × ℕ)}
    (hsub : ∀ q ∈ pairs, q ∈ pairs') :
    ∀ {a b}, Relation.EqvGen (PairRel pairs) a b →
      Relation.EqvGen (PairRel pairs') a b := by
  intro a b h
  induction h with
  | rel a b hab => exact Relation.EqvGen.rel a b (hsub _ hab)
  | refl a => exact Relation.EqvGen.refl a
  | symm a b _ ih => exact Relation.EqvGen.symm a b ih
  | trans a b c _ _ ih1 ih2 => exact Relation.EqvGen.trans a b c ih1 ih2

lemma eqvGen_nil {u v : ℕ} (h : Relation.EqvGen (PairRel []) u v) : u = v := by
  induction h with
  | rel a b hab => exact absurd hab (List.not_mem_nil _)
  | refl a => rfl
  | symm a b _ ih => exact ih.symm
  | trans a b c _ _ ih1 ih2 => exact ih1.trans ih2

/-- The connectivity invariant: two in-range indices have equal chase roots
exactly when they are related by the equivalence closure of the united
pairs. -/
def RootsIff (n : ℕ) (uf : UnionFind) (pairs : List (ℕ × ℕ)) : Prop :=
  ∀ x y, x < n → y < n →
    (rootP (n + 1) uf.parent x = rootP (n + 1) uf.parent y ↔
      Relation.EqvGen (PairRel pairs) x y)

lemma countP_range_eq_one : ∀ (n r : ℕ), r < n →
    ((List.range n).countP fun z => decide (z = r)) = 1 := by
  intro n
  induction n with
  | zero => intro r hr; omega
  | succ m ih =>
      intro r hr
      rw [List.range_succ, List.countP_append]
      by_cases hrm : r = m
      · subst hrm
        have h0 : ((List.range r).countP fun z => decide (z = r)) = 0 :=
          List.countP_eq_zero.mpr
            (by intro a haz; simpa using Nat.ne_of_lt (List.mem_range.mp haz))
        rw [h0]
        simp
      · rw [ih r (by omega)]
        have h0 : (([m] : List ℕ).countP fun z => decide (z = r)) = 0 := by
          simp [Ne.symm hrm]
        rw [h0]

lemma WFuf_init (n : ℕ) : WFuf (UnionFind.init n) := by
  refine ⟨?_, ?_, ?_⟩
  · intro z hz
    exact hz
  · intro z _ hne
    exact absurd rfl hne
  · intro r hr hroot
    simp only [UnionFind.init] at hr ⊢
    rw [List.countP_congr (fun z hz => ?_), countP_range_eq_one n r hr]
    have hrid : rootP (n + 1) id z = some z := rootP_fix (p := id) (x := z) rfl n
    simp [hrid]

lemma RootsIff_init (n : ℕ) : RootsIff n (UnionFind.init n) [] := by
  intro u v hu hv
  constructor
  · intro h
    have hu' : rootP (n + 1) (UnionFind.init n).parent u = some u :=
      rootP_fix (x := u) rfl n
    have hv' : rootP (n + 1) (UnionFind.init n).parent v = some v :=
      rootP_fix (x := v) rfl n
    rw [hu', hv'] at h
    obtain rfl : u = v := by simpa using h
    exact Relation.EqvGen.refl u
  · intro h
    obtain rfl : u = v := eqvGen_nil h
    rfl

/-- Running any in-range sequence of calls from a sound state succeeds,
preserves the invariant, and maintains the connectivity correspondence with
the accumulated united pairs. -/
lemma runOps_spec (n : ℕ) :
    ∀ (ops : List Op) (uf : UnionFind) (pairs : List (ℕ × ℕ)),
      WFuf uf → uf.n = n → (∀ op ∈ ops, OpInRange n op) →
      (∀ q ∈ pairs, q.1 < n ∧ q.2 < n) →
      RootsIff n uf pairs →
      ∃ uf', runOps uf ops = some uf' ∧ WFuf uf' ∧ uf'.n = n ∧
        RootsIff n uf' (pairs ++ pairsOf ops) := by
  intro ops
  induction ops with
  | nil =>
      intro uf pairs hwf hn _ _ hri
      refine ⟨uf, rfl, hwf, hn, ?_⟩
      rw [pairsOf, List.append_nil]
      exact hri
  | cons op ops ih =>
      intro uf pairs hwf hn hops hpairs hri
      subst hn
      have hop := hops op (List.mem_cons_self op ops)
      have hops' := fun o ho => hops o (List.mem_cons_of_mem op ho)
      cases op with
      | find x =>
          have hx : x < uf.n := hop
          obtain ⟨r, hr⟩ := Option.isSome_iff_exists.mp
            (rootP_total hwf.hpar hwf.hrank x hx)
          obtain ⟨uf₂, hfa⟩ := findAux_of_rootP (uf.n + 1) uf x r hr
          obtain ⟨hwf2, hroots⟩ := findAux_WF hwf hfa
          obtain ⟨-, hn2, -, -, -, -⟩ := findAux_spec (uf.n + 1) uf x r uf₂ hfa
          have hri2 : RootsIff uf.n uf₂ pairs := by
            intro c d hc hd
            rw [hroots c hc, hroots d hd]
            exact hri c d hc hd
          obtain ⟨uf', hrun, hwf', hn', hri'⟩ :=
            ih uf₂ pairs hwf2 hn2 hops' hpairs hri2
          refine ⟨uf', ?_, hwf', hn', ?_⟩
          · simp only [runOps, runOp, hfa, Option.map_some']
            exact hrun
          · exact hri'
      | unite a b =>
          obtain ⟨ha, hb⟩ := hop
          obtain ⟨rx, ry, bb, uf₃, hrxa, hryb, huni, hwf3, hn3, w, hwcase, hmapz⟩ :=
            unite_spec hwf ha hb
          have hw_or : w = rx ∨ w = ry := by
            rcases hwcase with ⟨-, hww⟩ | ⟨-, hww⟩
            · exact Or.inl hww
            · exact hww
          have hri3 : RootsIff uf.n uf₃ (pairs ++ [(a, b)]) := by
            have hpairmem : PairRel (pairs ++ [(a, b)]) a b :=
              List.mem_append_right _ (by simp)
            have hlift : ∀ {u v : ℕ}, Relation.EqvGen (PairRel pairs) u v →
                Relation.EqvGen (PairRel (pairs ++ [(a, b)])) u v :=
              fun hE => eqvGen_mono (fun q hq => List.mem_append_left _ hq) hE
            intro u v hu hv
            constructor
            · intro heq
              rw [hmapz u hu, hmapz v hv] at heq
              obtain ⟨ru, hru⟩ := Option.isSome_iff_exists.mp
                (rootP_total hwf.hpar hwf.hrank u hu)
              obtain ⟨rv, hrv⟩ := Option.isSome_iff_exists.mp
                (rootP_total hwf.hpar hwf.hrank v hv)
              rw [hru, hrv] at heq
              simp only [Option.map_some', Option.some.injEq] at heq
              by_cases hru' : ru = rx ∨ ru = ry
              · by_cases hrv' : rv = rx ∨ rv = ry
                · have hua : Relation.EqvGen (PairRel (pairs ++ [(a, b)])) u a ∨
                      Relation.EqvGen (PairRel (pairs ++ [(a, b)])) u b := by
                    rcases hru' with h1 | h1
                    · refine Or.inl (hlift ((hri u a hu ha).mp ?_))
                      rw [hru, hrxa, h1]
                    · refine Or.inr (hlift ((hri u b hu hb).mp ?_))
                      rw [hru, hryb, h1]
                  have hva : Relation.EqvGen (PairRel (pairs ++ [(a, b)])) v a ∨
                      Relation.EqvGen (PairRel (pairs ++ [(a, b)])) v b := by
                    rcases hrv' with h1 | h1
                    · refine Or.inl (hlift ((hri v a hv ha).mp ?_))
                      rw [hrv, hrxa, h1]
                    · refine Or.inr (hlift ((hri v b hv hb).mp ?_))
                      rw [hrv, hryb, h1]
                  have hab : Relation.EqvGen (PairRel (pairs ++ [(a, b)])) a b :=
                    Relation.EqvGen.rel a b hpairmem
                  rcases hua with h1 | h1 <;> rcases hva with h2 | h2
                  · exact Relation.EqvGen.trans u a v h1
                      (Relation.EqvGen.symm v a h2)
                  · exact Relation.EqvGen.trans u a v h1
                      (Relation.EqvGen.trans a b v hab (Relation.EqvGen.symm v b h2))
                  · exact Relation.EqvGen.trans u b v h1
                      (Relation.EqvGen.trans b a v (Relation.EqvGen.symm a b hab)
                        (Relation.EqvGen.symm v a h2))
                  · exact Relation.EqvGen.trans u b v h1
                      (Relation.EqvGen.symm v b h2)
                · rw [if_pos hru', if_neg hrv'] at heq
                  exfalso
                  rcases hw_or with rfl | rfl
                  · exact hrv' (Or.inl heq.symm)
                  · exact hrv' (Or.inr heq.symm)
              · by_cases hrv' : rv = rx ∨ rv = ry
                · rw [if_neg hru', if_pos hrv'] at heq
                  exfalso
                  rcases hw_or with rfl | rfl
                  · exact hru' (Or.inl heq)
                  · exact hru' (Or.inr heq)
                · rw [if_neg hru', if_neg hrv'] at heq
                  refine hlift ((hri u v hu hv).mp ?_)
                  rw [hru, hrv, heq]
            · intro heqv
              clear hu hv
              induction heqv with
              | rel u' v' huv =>
                  rcases List.mem_append.mp huv with hold | hnew
                  · obtain ⟨hu', hv'⟩ := hpairs _ hold
                    have hre : rootP (uf.n + 1) uf.parent u' =
                        rootP (uf.n + 1) uf.parent v' :=
                      (hri u' v' hu' hv').mpr (Relation.EqvGen.rel u' v' hold)
                    rw [hmapz u' hu', hmapz v' hv', hre]
                  · obtain ⟨rfl, rfl⟩ : u' = a ∧ v' = b := by simpa using hnew
                    rw [hmapz u' ha, hmapz v' hb, hrxa, hryb]
                    simp
              | refl u' => rfl
              | symm u' v' _ ih' => exact ih'.symm
              | trans u' v' w' _ _ ih1 ih2 => exact ih1.trans ih2
          obtain ⟨uf', hrun, hwf', hn', hri'⟩ :=
            ih uf₃ (pairs ++ [(a, b)]) hwf3 hn3 hops'
              (by
                intro q hq
                rcases List.mem_append.mp hq with hqp | hqn
                · exact hpairs q hqp
                · obtain rfl : q = (a, b) := by simpa using hqn
                  exact ⟨ha, hb⟩)
              hri3
          refine ⟨uf', ?_, hwf', hn', ?_⟩
          · simp only [runOps, runOp, huni, Option.map_some']
            exact hrun
          · have hassoc : pairs ++ pairsOf (Op.unite a b :: ops) =
                (pairs ++ [(a, b)]) ++ pairsOf ops := by
              rw [pairsOf]
              exact List.append_cons pairs (a, b) (pairsOf ops)
            rw [hassoc]
            exact hri'

lemma collectRoots_spec :
    ∀ (is : List ℕ) (uf : UnionFind), WFuf uf → (∀ i ∈ is, i < uf.n) →
      ∃ rs uf', collectRoots is uf = some (rs, uf') ∧ WFuf uf' ∧
        uf'.n = uf.n ∧ uf'.size = uf.size ∧
        (∀ z, z < uf.n →
          rootP (uf.n + 1) uf'.parent z = rootP (uf.n + 1) uf.parent z) ∧
        ∀ r, r ∈ rs ↔ ∃ i ∈ is, rootP (uf.n + 1) uf.parent i = some r := by
  intro is
  induction is with
  | nil =>
      intro uf hwf _
      exact ⟨[], uf, rfl, hwf, rfl, rfl, fun z _ => rfl, by simp⟩
  | cons i is ih =>
      intro uf hwf hin
      have hi := hin i (List.mem_cons_self i is)
      obtain ⟨r, hr⟩ := Option.isSome_iff_exists.mp
        (rootP_total hwf.hpar hwf.hrank i hi)
      obtain ⟨uf1, hfa⟩ := findAux_of_rootP (uf.n + 1) uf i r hr
      obtain ⟨hwf1, hroots1⟩ := findAux_WF hwf hfa
      obtain ⟨-, hn1, -, hsz1, -, -⟩ := findAux_spec (uf.n + 1) uf i r uf1 hfa
      obtain ⟨rs, uf', hcol, hwf', hn', hsz', hroots', hmem⟩ :=
        ih uf1 hwf1 (fun j hj => by
          rw [hn1]; exact hin j (List.mem_cons_of_mem i hj))
      refine ⟨r :: rs, uf', ?_, hwf', hn'.trans hn1, hsz'.trans hsz1, ?_, ?_⟩
      · simp only [collectRoots, hfa, hcol]
      · intro z hz
        have h1 := hroots' z (by rw [hn1]; exact hz)
        rw [hn1] at h1
        rw [h1]
        exact hroots1 z hz
      · intro r'
        simp only [List.mem_cons]
        rw [hmem r']
        constructor
        · rintro (rfl | ⟨j, hj, hroot⟩)
          · exact ⟨i, Or.inl rfl, hr⟩
          · have hjn : j < uf.n := hin j (List.mem_cons_of_mem i hj)
            refine ⟨j, Or.inr hj, ?_⟩
            rw [hn1] at hroot
            rw [hroots1 j hjn] at hroot
            exact hroot
        · rintro ⟨j, hjmem, hroot⟩
          rcases hjmem with rfl | hj2
          · exact Or.inl (rootP_det hroot hr)
          · have hjn : j < uf.n := hin j (List.mem_cons_of_mem i hj2)
            refine Or.inr ⟨j, hj2, ?_⟩
            rw [hn1, hroots1 j hjn]
            exact hroot

lemma sum_map_add (f g : ℕ → ℕ) :
    ∀ l : List ℕ, (l.map fun r => f r + g r).sum = (l.map f).sum + (l.map g).sum := by
  intro l
  induction l with
  | nil => rfl
  | cons a l ih =>
      simp only [List.map_cons, List.sum_cons, ih]
      omega

lemma sum_indicator_zero (r₀ : ℕ) :
    ∀ R : List ℕ, r₀ ∉ R → ((R.map fun r => if r = r₀ then 1 else 0).sum : ℕ) = 0 := by
  intro R
  induction R with
  | nil => intro _; rfl
  | cons a R ih =>
      intro hnm
      simp only [List.map_cons, List.sum_cons]
      rw [if_neg (fun hE => hnm (by rw [← hE]; exact List.mem_cons_self a R)),
        ih (fun hm => hnm (List.mem_cons_of_mem a hm))]

lemma sum_indicator_one (r₀ : ℕ) :
    ∀ R : List ℕ, R.Nodup → r₀ ∈ R →
      ((R.map fun r => if r = r₀ then 1 else 0).sum : ℕ) = 1 := by
  intro R
  induction R with
  | nil => intro _ hm; exact absurd hm (List.not_mem_nil r₀)
  | cons a R ih =>
      intro hnd hm
      simp only [List.map_cons, List.sum_cons]
      by_cases ha : a = r₀
      · subst ha
        rw [if_pos rfl, sum_indicator_zero a R (List.nodup_cons.mp hnd).1]
      · rw [if_neg ha]
        rw [ih (List.nodup_cons.mp hnd).2 ?_]
        rcases List.mem_cons.mp hm with rfl | h2
        · exact absurd rfl ha
        · exact h2

/-- Summing, over a duplicate-free list of roots covering every element,
the number of elements resolving to each root counts every element once. -/
lemma sum_counts (f : ℕ → Option ℕ) :
    ∀ (L R : List ℕ), R.Nodup → (∀ x ∈ L, ∃ r ∈ R, f x = some r) →
      (R.map fun r => L.countP fun x => decide (f x = some r)).sum = L.length := by
  intro L
  induction L with
  | nil =>
      intro R _ _
      rw [show (R.map fun r => ([] : List ℕ).countP fun x => decide (f x = some r)) =
          R.map fun _ => 0 from List.map_congr_left (fun r _ => List.countP_nil _)]
      simp
  | cons x L ihL =>
      intro R hnd hcov
      obtain ⟨r₀, hr₀R, hfx⟩ := hcov x (List.mem_cons_self x L)
      have hpt : ∀ r ∈ R,
          ((x :: L).countP fun z => decide (f z = some r)) =
            (L.countP fun z => decide (f z = some r)) + (if r = r₀ then 1 else 0) := by
        intro r _
        rw [List.countP_cons]
        congr 1
        by_cases hrr : r = r₀
        · subst hrr
          simp [hfx]
        · simp [hfx, hrr, Ne.symm hrr]
      rw [List.map_congr_left hpt, sum_map_add,
        ihL R hnd (fun z hz => hcov z (List.mem_cons_of_mem x hz)),
        sum_indicator_one r₀ R hnd hr₀R, List.length_cons]

/-- Specification of `getAllSizes` on a sound state: it succeeds and its
returned component sizes sum to `n`. -/
lemma getAllSizes_sum {uf : UnionFind} (hwf : WFuf uf) :
    ∃ sizes uf', getAllSizes uf = some (sizes, uf') ∧ sizes.sum = uf.n := by
  obtain ⟨rs, uf', hcol, hwf', hn', hsz', hroots', hmem⟩ :=
    collectRoots_spec (List.range uf.n) uf hwf (fun i hi => List.mem_range.mp hi)
  refine ⟨((List.range uf'.n).filter fun r => decide (r ∈ rs)).map uf'.size, uf',
    ?_, ?_⟩
  · simp only [getAllSizes, hcol]
  · have hkeys : ((List.range uf'.n).filter fun r => decide (r ∈ rs)) =
        ((List.range uf.n).filter fun r => decide (r ∈ rs)) := by
      rw [hn']
    rw [hkeys]
    have hkey_root : ∀ r ∈ (List.range uf.n).filter fun r => decide (r ∈ rs),
        r < uf.n ∧ uf.parent r = r ∧ rootP (uf.n + 1) uf.parent r = some r := by
      intro r hrmem
      have h1 := List.mem_filter.mp hrmem
      have hrn : r < uf.n := List.mem_range.mp h1.1
      have hrs : r ∈ rs := by simpa using h1.2
      obtain ⟨i, -, hroot⟩ := (hmem r).mp hrs
      have hpr : uf.parent r = r := rootP_isRoot _ _ _ _ hroot
      exact ⟨hrn, hpr, rootP_fix hpr uf.n⟩
    have hsizes : (((List.range uf.n).filter fun r => decide (r ∈ rs)).map uf'.size) =
        ((List.range uf.n).filter fun r => decide (r ∈ rs)).map
          (fun r => (List.range uf.n).countP
            fun z => decide (rootP (uf.n + 1) uf.parent z = some r)) := by
      refine List.map_congr_left ?_
      intro r hrmem
      obtain ⟨hrn, hpr, -⟩ := hkey_root r hrmem
      rw [hsz']
      exact hwf.hsize r hrn hpr
    rw [hsizes]
    rw [sum_counts (fun z => rootP (uf.n + 1) uf.parent z) (List.range uf.n)
      (((List.range uf.n).filter fun r => decide (r ∈ rs)))
      ((List.nodup_range uf.n).filter _) ?_]
    · exact List.length_range uf.n
    · intro z hz
      have hzn := List.mem_range.mp hz
      obtain ⟨r, hr⟩ := Option.isSome_iff_exists.mp
        (rootP_total hwf.hpar hwf.hrank z hzn)
      refine ⟨r, ?_, hr⟩
      refine List.mem_filter.mpr ⟨?_, ?_⟩
      · exact List.mem_range.mpr (rootP_lt hwf.hpar _ z r hzn hr)
      · simp only [decide_eq_true_eq]
        exact (hmem r).mpr ⟨z, List.mem_range.mpr hzn, hr⟩

/-- **C10**: for a `UnionFind` built with `n` elements, after any sequence
of `unite` and `find` calls on indices in `[0, n)` (each of which succeeds
and preserves the invariant), the value returned by `find` is equal at `x`
and `y` exactly when `x` and `y` are connected by the equivalence closure
of the united pairs; the size stored at each root counts the elements
whose chase resolves to that root; and the component sizes returned by
`getAllSizes` sum to `n`. -/
theorem claim_C10_unionfind_invariants (n : ℕ) (ops : List Op)
    (hops : ∀ op ∈ ops, OpInRange n op) :
    ∃ uf, runOps (UnionFind.init n) ops = some uf ∧ uf.n = n ∧
      (∀ x y, x < n → y < n →
        ((findAux (n + 1) uf x).map Prod.fst = (findAux (n + 1) uf y).map Prod.fst ↔
          Relation.EqvGen (PairRel (pairsOf ops)) x y)) ∧
      (∀ r, r < n → uf.parent r = r →
        uf.size r = ((List.range n).countP
          fun z => decide (rootP (n + 1) uf.parent z = some r))) ∧
      ∃ sizes uf', getAllSizes uf = some (sizes, uf') ∧ sizes.sum = n := by
  obtain ⟨uf, hrun, hwf, hn, hri⟩ :=
    runOps_spec n ops (UnionFind.init n) [] (WFuf_init n) rfl hops
      (fun q hq => absurd hq (List.not_mem_nil q)) (RootsIff_init n)
  have hfind : ∀ x, x < n →
      (findAux (n + 1) uf x).map Prod.fst = rootP (n + 1) uf.parent x := by
    intro x hx
    obtain ⟨r, hr⟩ := Option.isSome_iff_exists.mp
      (rootP_total hwf.hpar hwf.hrank x (by rw [hn]; exact hx))
    rw [hn] at hr
    obtain ⟨uf₂, hfa⟩ := findAux_of_rootP (n + 1) uf x r hr
    rw [hfa, hr, Option.map_some']
  refine ⟨uf, hrun, hn, ?_, ?_, ?_⟩
  · intro x y hx hy
    rw [hfind x hx, hfind y hy]
    have := hri x y hx hy
    simpa using this
  · intro r hr hroot
    have := hwf.hsize r (by rw [hn]; exact hr) hroot
    rw [hn] at this
    exact this
  · obtain ⟨sizes, uf', hga, hsum⟩ := getAllSizes_sum hwf
    exact ⟨sizes, uf', hga, by rw [hsum, hn]⟩

/-- Witness for C10's theorem at `n = 3` with a concrete call sequence. -/
theorem claim_C10_unionfind_invariants_witness :
    ∃ uf, runOps (UnionFind.init 3) [Op.unite 0 1, Op.find 2, Op.unite 1 0] = some uf ∧
      uf.n = 3 ∧
      (∀ x y, x < 3 → y < 3 →
        ((findAux (3 + 1) uf x).map Prod.fst = (findAux (3 + 1) uf y).map Prod.fst ↔
          Relation.EqvGen
            (PairRel (pairsOf [Op.unite 0 1, Op.find 2, Op.unite 1 0])) x y)) ∧
      (∀ r, r < 3 → uf.parent r = r →
        uf.size r = ((List.range 3).countP
          fun z => decide (rootP (3 + 1) uf.parent z = some r))) ∧
      ∃ sizes uf', getAllSizes uf = some (sizes, uf') ∧ sizes.sum = 3 :=
  claim_C10_unionfind_invariants 3 [Op.unite 0 1, Op.find 2, Op.unite 1 0]
    (by
      intro op hop
      rcases hop with _ | ⟨_, _ | ⟨_, _ | ⟨_, h⟩⟩⟩
      · exact ⟨by omega, by omega⟩
      · show 2 < 3
        omega
      · exact ⟨by omega, by omega⟩
      · exact absurd h (List.not_mem_nil _))

end Day8Y2025

/-! ## 2025 Day 10 Part 1: `solveGF2` (C1)

Embedding of `src/2025/Day10/main.cpp:232-355`.  The `int` entries of the
augmented matrix only ever hold 0 or 1 (they are created from 0/1 data and
updated with `^=`), so they are embedded as `Bool`: `^=` is `Bool.xor` and
the product `aug[row][c] * solution[c]` of 0/1 values is `&&`. -/

namespace Day10Y2025

/-- Entry `aug[i][c]` of the augmented matrix. -/
def entry (aug : List (List Bool)) (i c : ℕ) : Bool :=
  (aug.getD i []).getD c false

/-- `std::swap(aug[i], aug[j])`. -/
def swapRows (aug : List (List Bool)) (i j : ℕ) : List (List Bool) :=
  (aug.set i (aug.getD j [])).set j (aug.getD i [])

/-- The pivot search loop (Day10/main.cpp:259-267): the first row index at
or after `rw` (scanning `k` more rows) whose entry in `col` is set. -/
def findFrom (aug : List (List Bool)) (col : ℕ) : ℕ → ℕ → Option ℕ
  | _, 0 => none
  | rw, k + 1 => if entry aug rw col then some rw else findFrom aug col (rw + 1) k

/-- The elimination loop (Day10/main.cpp:281-290): XOR the pivot row
`prow` into every row other than index `p` whose entry in `col` is set. -/
def elimOthers (prow : List Bool) (col p : ℕ) : ℕ → List (List Bool) → List (List Bool)
  | _, [] => []
  | i, r :: rest =>
      (if i = p then r
       else if r.getD col false then r.zipWith Bool.xor prow else r) ::
        elimOthers prow col p (i + 1) rest

/-- The Gaussian elimination loop of `solveGF2` (Day10/main.cpp:255-292):
iterate over columns while `pivot < rows`, swapping the found pivot row up,
eliminating everywhere else, and recording the pivot column. -/
def gaussAux (rows : ℕ) : ℕ → ℕ → ℕ → List (List Bool) → List ℕ →
    List (List Bool) × ℕ × List ℕ
  | 0, _, pivot, aug, pcs => (aug, pivot, pcs)
  | k + 1, col, pivot, aug, pcs =>
      if pivot < rows then
        match findFrom aug col pivot (rows - pivot) with
        | none => gaussAux rows k (col + 1) pivot aug pcs
        | some pr =>
            gaussAux rows k (col + 1) (pivot + 1)
              (elimOthers ((swapRows aug pivot pr).getD pivot []) col pivot 0
                (swapRows aug pivot pr))
              (pcs ++ [col])
      else (aug, pivot, pcs)

/-- `solution[freeVars[i]] = (mask >> i) & 1` for each free variable
(Day10/main.cpp:320-324). -/
def setFree (freeVars : List ℕ) (mask : ℕ) (sol : List Bool) : List Bool :=
  (List.range freeVars.length).foldl
    (fun s i => s.set (freeVars.getD i 0) (mask.testBit i)) sol

/-- `val ^= aug[row][c] * solution[c]` for `c` in `[a, b)`, starting from
`v` (Day10/main.cpp:333-337). -/
def dotFrom (r sol : List Bool) (a b : ℕ) (v : Bool) : Bool :=
  (List.range' a (b - a)).foldl
    (fun acc c => Bool.xor acc ((r.getD c false) && (sol.getD c false))) v

/-- The back-substitution loop (Day10/main.cpp:327-339), from row `k - 1`
down to row 0. -/
def backSubAux (aug : List (List Bool)) (pcs : List ℕ) (cols : ℕ) :
    ℕ → List Bool → List Bool
  | 0, sol => sol
  | row + 1, sol =>
      backSubAux aug pcs cols row
        (sol.set (pcs.getD row 0)
          (dotFrom (aug.getD row []) sol (pcs.getD row 0 + 1) cols
            ((aug.getD row []).getD cols false)))

/-- One enumerated candidate: free variables from the mask bits, pivot
variables by back substitution. -/
def buildSolution (aug : List (List Bool)) (pcs : List ℕ) (cols pivot : ℕ)
    (freeVars : List ℕ) (mask : ℕ) : List Bool :=
  backSubAux aug pcs cols pivot (setFree freeVars mask (List.replicate cols false))

/-- `count += val` over the 0/1 solution entries. -/
def onesCount (sol : List Bool) : ℕ := sol.countP id

/-- Embedding of `solveGF2` (Day10/main.cpp:232-355): build the transposed
augmented matrix, eliminate, return -1 on `cols == 0` or on an inconsistent
eliminated row, otherwise the minimum press count over all assignments of
the free variables. -/
def solveGF2 (matrix : List (List Bool)) (target : List Bool) : ℤ :=
  let rows := target.length
  let cols := matrix.length
  if cols = 0 then -1
  else
    match gaussAux rows cols 0 0
        ((List.range rows).map fun i =>
          (((List.range cols).map fun j => (matrix.getD j []).getD i false) ++
            [target.getD i false])) [] with
    | (aug', pivot, pcs) =>
        if (List.range' pivot (rows - pivot)).any (fun rw => entry aug' rw cols) then
          -1
        else
          ((((List.range
                (2 ^ ((List.range cols).filter fun c => decide (¬ c ∈ pcs)).length)).map
              fun mask =>
                onesCount (buildSolution aug' pcs cols pivot
                  ((List.range cols).filter fun c => decide (¬ c ∈ pcs)) mask)).foldl
            min (cols + 1) : ℕ) : ℤ)

/-- Spec side, from the claim's wording: `x` is a 0/1 press vector whose
XOR-combination of the button toggle patterns equals the target. -/
def SolvesGF2 (matrix : List (List Bool)) (target : List Bool)
    (x : List Bool) : Prop :=
  x.length = matrix.length ∧
  ∀ i, i < target.length →
    (List.range matrix.length).foldr
      (fun j acc => Bool.xor ((x.getD j false) && ((matrix.getD j []).getD i false)) acc)
      false = target.getD i false

/-! ### GF(2) dot products -/

/-- XOR-sum of `r[c] * x[c]` over `c < n`. -/
def dotB (r x : List Bool) : ℕ → Bool
  | 0 => false
  | c + 1 => Bool.xor (dotB r x c) ((r.getD c false) && (x.getD c false))

lemma xor_shuffle : ∀ a b c : Bool,
    Bool.xor a (Bool.xor b (Bool.xor c a)) = Bool.xor b c := by decide

lemma xor_cancel_right : ∀ a b : Bool, Bool.xor (Bool.xor a b) b = a := by decide

lemma getD_zipWith :
    ∀ (r pr : List Bool), r.length = pr.length → ∀ c,
      (r.zipWith Bool.xor pr).getD c false =
        Bool.xor (r.getD c false) (pr.getD c false) := by
  intro r
  induction r with
  | nil =>
      intro pr hl c
      obtain rfl : pr = [] := by
        cases pr with
        | nil => rfl
        | cons b pr' => simp at hl
      simp
  | cons a r ih =>
      intro pr hl c
      cases pr with
      | nil => simp at hl
      | cons b pr' =>
          cases c with
          | zero => simp [List.zipWith]
          | succ c' =>
              simp only [List.zipWith, List.getD_eq_getElem?_getD, List.getElem?_cons_succ]
              have := ih pr' (by simpa using hl) c'
              simpa using this

lemma dotB_congr (r x1 x2 : List Bool) :
    ∀ n, (∀ c, c < n → x1.getD c false = x2.getD c false) →
      dotB r x1 n = dotB r x2 n := by
  intro n
  induction n with
  | zero => intro _; rfl
  | succ m ih =>
      intro h
      rw [dotB, dotB, ih (fun c hc => h c (by omega)), h m (by omega)]

lemma dotB_xor (r pr x : List Bool) (hl : r.length = pr.length) :
    ∀ n, dotB (r.zipWith Bool.xor pr) x n =
      Bool.xor (dotB r x n) (dotB pr x n) := by
  intro n
  induction n with
  | zero => rfl
  | succ m ih =>
      rw [dotB, dotB, dotB, ih, getD_zipWith r pr hl m]
      cases dotB r x m <;> cases dotB pr x m <;>
        cases r.getD m false <;> cases pr.getD m false <;>
          cases x.getD m false <;> rfl

lemma dotB_zero (r x : List Bool) :
    ∀ n, (∀ c, c < n → ((r.getD c false) && (x.getD c false)) = false) →
      dotB r x n = false := by
  intro n
  induction n with
  | zero => intro _; rfl
  | succ m ih =>
      intro h
      rw [dotB, ih (fun c hc => h c (by omega)), h m (by omega)]
      rfl

lemma foldl_xor_shift (f : ℕ → Bool) :
    ∀ (l : List ℕ) (b : Bool),
      l.foldl (fun v c => Bool.xor v (f c)) b =
        Bool.xor b (l.foldl (fun v c => Bool.xor v (f c)) false) := by
  intro l
  induction l with
  | nil => intro b; simp
  | cons a l ih =>
      intro b
      simp only [List.foldl_cons]
      rw [ih (Bool.xor b (f a)), ih (Bool.xor false (f a))]
      cases b <;> cases f a <;>
        cases l.foldl (fun v c => Bool.xor v (f c)) false <;> rfl

/-- The backsubstitution partial sum is the segment of the dot product. -/
lemma dotFrom_eq (r sol : List Bool) :
    ∀ (n a : ℕ) (v : Bool), n = (a + n) - a →
      dotFrom r sol a (a + n) v =
        Bool.xor v (Bool.xor (dotB r sol (a + n)) (dotB r sol a)) := by
  intro n
  induction n with
  | zero =>
      intro a v _
      rw [dotFrom]
      simp [Bool.xor_self]
  | succ m ih =>
      intro a v _
      rw [dotFrom]
      have hlen : a + (m + 1) - a = m + 1 := by omega
      rw [hlen, List.range'_succ]
      simp only [List.foldl_cons]
      have harr : a + (m + 1) = (a + 1) + m := by omega
      have hfold := ih (a + 1) (Bool.xor v ((r.getD a false) && (sol.getD a false)))
        (by omega)
      rw [dotFrom] at hfold
      have hlen2 : (a + 1) + m - (a + 1) = m := by omega
      rw [hlen2] at hfold
      rw [harr]
      rw [hfold]
      have hstep : dotB r sol (a + 1) =
          Bool.xor (dotB r sol a) ((r.getD a false) && (sol.getD a false)) := rfl
      rw [hstep]
      cases v <;> cases dotB r sol ((a + 1) + m) <;> cases dotB r sol a <;>
        cases (r.getD a false) && (sol.getD a false) <;> rfl

lemma dotFrom_split (r sol : List Bool) (a b : ℕ) (v : Bool) (hab : a ≤ b) :
    dotFrom r sol a b v = Bool.xor v (Bool.xor (dotB r sol b) (dotB r sol a)) := by
  obtain ⟨n, rfl⟩ : ∃ n, b = a + n := ⟨b - a, by omega⟩
  exact dotFrom_eq r sol n a v (by omega)

lemma dotFrom_congr (r s1 s2 : List Bool) (a b : ℕ) (v : Bool)
    (h : ∀ c, a ≤ c → c < b → s1.getD c false = s2.getD c false) :
    dotFrom r s1 a b v = dotFrom r s2 a b v := by
  rw [dotFrom, dotFrom]
  have hgen : ∀ (l : List ℕ) (v0 : Bool),
      (∀ c ∈ l, s1.getD c false = s2.getD c false) →
      l.foldl (fun acc c => Bool.xor acc ((r.getD c false) && (s1.getD c false))) v0 =
        l.foldl (fun acc c => Bool.xor acc ((r.getD c false) && (s2.getD c false))) v0 := by
    intro l
    induction l with
    | nil => intro v0 _; rfl
    | cons c cs ihl =>
        intro v0 hcs
        simp only [List.foldl_cons]
        rw [hcs c (List.mem_cons_self c cs)]
        exact ihl _ (fun d hd => hcs d (List.mem_cons_of_mem c hd))
  refine hgen _ v ?_
  intro c hc
  have hcb := List.mem_range'_1.mp hc
  exact h c hcb.1 (by omega)

/-! ### Rows, equations and preservation -/

/-- Row `r` (of length `cols + 1`) as a GF(2) equation satisfied by `x`. -/
def SatRow (cols : ℕ) (x r : List Bool) : Prop :=
  dotB r x cols = r.getD cols false

/-- `x` satisfies every equation of the augmented matrix. -/
def SatAug (cols : ℕ) (aug : List (List Bool)) (x : List Bool) : Prop :=
  ∀ r ∈ aug, SatRow cols x r

lemma getD_set_self {l : List α} {i : ℕ} {a d : α} (h : i < l.length) :
    (l.set i a).getD i d = a := by
  simp [List.getElem?_set, h]

lemma getD_set_ne {l : List α} {i k : ℕ} {a d : α} (h : i ≠ k) :
    (l.set i a).getD k d = l.getD k d := by
  simp [List.getElem?_set, h]

lemma getD_mem_of_lt {l : List α} {i : ℕ} {d : α} (h : i < l.length) :
    l.getD i d ∈ l := by
  rw [List.getD_eq_getElem?_getD, List.getElem?_eq_getElem h]
  exact List.getElem_mem h

lemma swapRows_length (aug : List (List Bool)) (i j : ℕ) :
    (swapRows aug i j).length = aug.length := by
  simp [swapRows]

lemma swapRows_getD_j (aug : List (List Bool)) (i j : ℕ) (hj : j < aug.length) :
    (swapRows aug i j).getD j [] = aug.getD i [] := by
  rw [swapRows]
  exact getD_set_self (by simpa using hj)

lemma swapRows_getD_i (aug : List (List Bool)) (i j : ℕ) (hi : i < aug.length) :
    (swapRows aug i j).getD i [] = aug.getD j [] := by
  by_cases hij : i = j
  · subst hij
    rw [swapRows, getD_set_self (by simpa using hi)]
  · rw [swapRows, getD_set_ne (fun hE => hij hE.symm), getD_set_self hi]

lemma swapRows_getD_other (aug : List (List Bool)) (i j k : ℕ)
    (hki : k ≠ i) (hkj : k ≠ j) :
    (swapRows aug i j).getD k [] = aug.getD k [] := by
  rw [swapRows, getD_set_ne (fun hE => hkj hE.symm),
    getD_set_ne (fun hE => hki hE.symm)]

lemma mem_swapRows {aug : List (List Bool)} {i j : ℕ} {r : List Bool}
    (hi : i < aug.length) (hj : j < aug.length)
    (h : r ∈ swapRows aug i j) : r ∈ aug := by
  rcases List.mem_or_eq_of_mem_set h with h1 | rfl
  · rcases List.mem_or_eq_of_mem_set h1 with h2 | rfl
    · exact h2
    · exact getD_mem_of_lt hj
  · exact getD_mem_of_lt hi

lemma mem_swapRows_rev {aug : List (List Bool)} {i j : ℕ} {r : List Bool}
    (hi : i < aug.length) (hj : j < aug.length)
    (h : r ∈ aug) : r ∈ swapRows aug i j := by
  obtain ⟨k, hk, rfl⟩ := List.mem_iff_getElem.mp h
  have hget : aug[k] = aug.getD k [] := by
    rw [List.getD_eq_getElem?_getD, List.getElem?_eq_getElem hk]
    rfl
  rw [hget]
  by_cases hki : k = i
  · subst hki
    have : (swapRows aug k j).getD j [] = aug.getD k [] := swapRows_getD_j aug k j hj
    rw [← this]
    exact getD_mem_of_lt (by rw [swapRows_length]; exact hj)
  · by_cases hkj : k = j
    · subst hkj
      have : (swapRows aug i k).getD i [] = aug.getD k [] := swapRows_getD_i aug i k hi
      rw [← this]
      exact getD_mem_of_lt (by rw [swapRows_length]; exact hi)
    · have : (swapRows aug i j).getD k [] = aug.getD k [] :=
        swapRows_getD_other aug i j k hki hkj
      rw [← this]
      exact getD_mem_of_lt (by rw [swapRows_length]; exact hk)

lemma satAug_swapRows {cols : ℕ} {aug : List (List Bool)} {i j : ℕ} {x : List Bool}
    (hi : i < aug.length) (hj : j < aug.length) :
    SatAug cols (swapRows aug i j) x ↔ SatAug cols aug x := by
  constructor
  · intro hs r hr
    exact hs r (mem_swapRows_rev hi hj hr)
  · intro hs r hr
    exact hs r (mem_swapRows hi hj hr)

lemma elimOthers_length (prow : List Bool) (col p : ℕ) :
    ∀ (i : ℕ) (l : List (List Bool)), (elimOthers prow col p i l).length = l.length := by
  intro i l
  induction l generalizing i with
  | nil => rfl
  | cons r rest ih => simp [elimOthers, ih]

lemma elimOthers_getD (prow : List Bool) (col p : ℕ) :
    ∀ (l : List (List Bool)) (i k : ℕ), k < l.length →
      (elimOthers prow col p i l).getD k [] =
        (if i + k = p then l.getD k []
         else if (l.getD k []).getD col false then
           (l.getD k []).zipWith Bool.xor prow
         else l.getD k []) := by
  intro l
  induction l with
  | nil => intro i k hk; simp at hk
  | cons r rest ih =>
      intro i k hk
      cases k with
      | zero =>
          simp only [elimOthers, List.getD_eq_getElem?_getD, List.getElem?_cons_zero,
            Option.getD_some, Nat.add_zero]
      | succ k' =>
          have hstep : (elimOthers prow col p i (r :: rest)).getD (k' + 1) [] =
              (elimOthers prow col p (i + 1) rest).getD k' [] := by
            simp [elimOthers]
          rw [hstep, ih (i + 1) k' (by simpa using hk)]
          have harr : i + 1 + k' = i + (k' + 1) := by omega
          rw [harr]
          have hrest : rest.getD k' [] = (r :: rest).getD (k' + 1) [] := by
            simp
          rw [hrest]

lemma mem_elimOthers {prow : List Bool} {col p : ℕ} {r' : List Bool} :
    ∀ {i : ℕ} {l : List (List Bool)}, r' ∈ elimOthers prow col p i l →
      r' ∈ l ∨ ∃ r ∈ l, r' = r.zipWith Bool.xor prow := by
  intro i l
  induction l generalizing i with
  | nil => intro h; simp [elimOthers] at h
  | cons r rest ih =>
      intro h
      rw [elimOthers] at h
      rcases List.mem_cons.mp h with hhead | htail
      · by_cases hip : i = p
        · rw [if_pos hip] at hhead
          exact Or.inl (hhead ▸ List.mem_cons_self r rest)
        · rw [if_neg hip] at hhead
          by_cases hcol : r.getD col false
          · rw [if_pos hcol] at hhead
            exact Or.inr ⟨r, List.mem_cons_self r rest, hhead⟩
          · rw [if_neg hcol] at hhead
            exact Or.inl (hhead ▸ List.mem_cons_self r rest)
      · rcases ih htail with h1 | ⟨r0, hr0, hr0e⟩
        · exact Or.inl (List.mem_cons_of_mem r h1)
        · exact Or.inr ⟨r0, List.mem_cons_of_mem r hr0, hr0e⟩

lemma mem_elimOthers_rev {prow : List Bool} {col p : ℕ} {r : List Bool} :
    ∀ {i : ℕ} {l : List (List Bool)}, r ∈ l →
      r ∈ elimOthers prow col p i l ∨
        r.zipWith Bool.xor prow ∈ elimOthers prow col p i l := by
  intro i l
  induction l generalizing i with
  | nil => intro h; simp at h
  | cons r0 rest ih =>
      intro h
      rw [elimOthers]
      rcases List.mem_cons.mp h with rfl | htail
      · by_cases hip : i = p
        · rw [if_pos hip]
          exact Or.inl (List.mem_cons_self _ _)
        · rw [if_neg hip]
          by_cases hcol : r.getD col false
          · rw [if_pos hcol]
            exact Or.inr (List.mem_cons_self _ _)
          · rw [if_neg hcol]
            exact Or.inl (List.mem_cons_self _ _)
      · rcases ih htail with h1 | h1
        · exact Or.inl (List.mem_cons_of_mem _ h1)
        · exact Or.inr (List.mem_cons_of_mem _ h1)

lemma satRow_xor {cols : ℕ} {x r pr : List Bool}
    (hr : r.length = cols + 1) (hpr : pr.length = cols + 1)
    (h1 : SatRow cols x r) (h2 : SatRow cols x pr) :
    SatRow cols x (r.zipWith Bool.xor pr) := by
  rw [SatRow, dotB_xor r pr x (by omega), h1, h2,
    getD_zipWith r pr (by omega) cols]

lemma satRow_unxor {cols : ℕ} {x r pr : List Bool}
    (hr : r.length = cols + 1) (hpr : pr.length = cols + 1)
    (h1 : SatRow cols x (r.zipWith Bool.xor pr)) (h2 : SatRow cols x pr) :
    SatRow cols x r := by
  rw [SatRow, dotB_xor r pr x (by omega), getD_zipWith r pr (by omega) cols] at h1
  rw [SatRow]
  have := congrArg (fun b => Bool.xor b (dotB pr x cols)) h1
  simp only at this
  rw [xor_cancel_right] at this
  rw [this, h2]
  rw [xor_cancel_right]

lemma satAug_elimOthers {cols : ℕ} {aug : List (List Bool)} {prow : List Bool}
    {col p : ℕ} {x : List Bool}
    (hshape : ∀ r ∈ aug, r.length = cols + 1)
    (hprmem : prow ∈ elimOthers prow col p 0 aug)
    (hprmem2 : prow ∈ aug)
    (hprshape : prow.length = cols + 1) :
    SatAug cols (elimOthers prow col p 0 aug) x ↔ SatAug cols aug x := by
  constructor
  · intro hs r hr
    rcases @mem_elimOthers_rev prow col p r 0 aug hr with h1 | h1
    · exact hs r h1
    · exact satRow_unxor (hshape r hr) hprshape (hs _ h1) (hs prow hprmem)
  · intro hs r' hr'
    rcases mem_elimOthers hr' with h1 | ⟨r0, hr0, rfl⟩
    · exact hs r' h1
    · exact satRow_xor (hshape r0 hr0) hprshape (hs r0 hr0) (hs prow hprmem2)

/-! ### The elimination invariant -/

lemma findFrom_some {aug : List (List Bool)} {col : ℕ} :
    ∀ {w k pr : ℕ}, findFrom aug col w k = some pr →
      w ≤ pr ∧ pr < w + k ∧ entry aug pr col = true := by
  intro w k
  induction k generalizing w with
  | zero => intro pr h; rw [findFrom] at h; simp at h
  | succ k' ih =>
      intro pr h
      rw [findFrom] at h
      by_cases he : entry aug w col
      · rw [if_pos he] at h
        obtain rfl : w = pr := by simpa using h
        exact ⟨le_rfl, by omega, he⟩
      · rw [if_neg he] at h
        obtain ⟨h1, h2, h3⟩ := ih h
        exact ⟨by omega, by omega, h3⟩

lemma findFrom_none {aug : List (List Bool)} {col : ℕ} :
    ∀ {w k : ℕ}, findFrom aug col w k = none →
      ∀ i, w ≤ i → i < w + k → entry aug i col = false := by
  intro w k
  induction k generalizing w with
  | zero => intro _ i h1 h2; omega
  | succ k' ih =>
      intro h i h1 h2
      rw [findFrom] at h
      by_cases he : entry aug w col
      · rw [if_pos he] at h; simp at h
      · rw [if_neg he] at h
        by_cases hiw : i = w
        · subst hiw; simpa using he
        · exact ih h i (by omega) (by omega)

lemma getD_append_lt {l : List ℕ} {a : ℕ} {j : ℕ} (h : j < l.length) :
    (l ++ [a]).getD j 0 = l.getD j 0 := by
  rw [List.getD_eq_getElem?_getD, List.getD_eq_getElem?_getD,
    List.getElem?_append, if_pos h]

lemma getD_append_len {l : List ℕ} {a : ℕ} :
    (l ++ [a]).getD l.length 0 = a := by
  rw [List.getD_eq_getElem?_getD]
  rw [List.getElem?_append_right le_rfl]
  simp

lemma mem_pcs_iff {pcs : List ℕ} {c : ℕ} :
    c ∈ pcs ↔ ∃ j, j < pcs.length ∧ pcs.getD j 0 = c := by
  rw [List.mem_iff_getElem]
  constructor
  · rintro ⟨j, hj, he⟩
    refine ⟨j, hj, ?_⟩
    rw [List.getD_eq_getElem?_getD, List.getElem?_eq_getElem hj]
    exact he
  · rintro ⟨j, hj, he⟩
    refine ⟨j, hj, ?_⟩
    rw [List.getD_eq_getElem?_getD, List.getElem?_eq_getElem hj] at he
    exact he

/-- The invariant of the elimination loop, after processing the columns
below `col` and establishing `pivot` pivots with pivot columns `pcs`. -/
structure GInv (rows cols col pivot : ℕ) (aug : List (List Bool))
    (pcs : List ℕ) : Prop where
  hlen : aug.length = rows
  hshape : ∀ r ∈ aug, r.length = cols + 1
  hplen : pcs.length = pivot
  hprle : pivot ≤ rows
  hcolle : col ≤ cols
  hpcol : ∀ j, j < pivot → pcs.getD j 0 < col
  hsorted : ∀ j l, j < l → l < pivot → pcs.getD j 0 < pcs.getD l 0
  hpiv1 : ∀ j, j < pivot → entry aug j (pcs.getD j 0) = true
  hpiv0 : ∀ j, j < pivot → ∀ i, i < rows → i ≠ j → entry aug i (pcs.getD j 0) = false
  hlead : ∀ j, j < pivot → ∀ c, c < pcs.getD j 0 → ¬ c ∈ pcs → entry aug j c = false
  hfree0 : ∀ c, c < col → ¬ c ∈ pcs → ∀ i, pivot ≤ i → i < rows →
    entry aug i c = false

/-- One pivoting step (swap + eliminate) preserves the invariant and the
solution set. -/
lemma gauss_step {rows cols col pivot : ℕ} {aug : List (List Bool)}
    {pcs : List ℕ} {pr : ℕ}
    (hinv : GInv rows cols col pivot aug pcs) (hcol : col < cols)
    (hpr1 : pivot ≤ pr) (hpr2 : pr < rows) (hpre : entry aug pr col = true)
    (hpiv : pivot < rows) :
    GInv rows cols (col + 1) (pivot + 1)
      (elimOthers ((swapRows aug pivot pr).getD pivot []) col pivot 0
        (swapRows aug pivot pr))
      (pcs ++ [col]) ∧
    ∀ x, SatAug cols
      (elimOthers ((swapRows aug pivot pr).getD pivot []) col pivot 0
        (swapRows aug pivot pr)) x ↔ SatAug cols aug x := by
  have hpivlen : pivot < aug.length := by rw [hinv.hlen]; exact hpiv
  have hprlen : pr < aug.length := by rw [hinv.hlen]; exact hpr2
  have hlenA1 : (swapRows aug pivot pr).length = rows := by
    rw [swapRows_length, hinv.hlen]
  have hshapeA1 : ∀ r ∈ swapRows aug pivot pr, r.length = cols + 1 :=
    fun r hr => hinv.hshape r (mem_swapRows hpivlen hprlen hr)
  have hprow_eq : (swapRows aug pivot pr).getD pivot [] = aug.getD pr [] :=
    swapRows_getD_i aug pivot pr hpivlen
  have hprshape : ((swapRows aug pivot pr).getD pivot []).length = cols + 1 := by
    rw [hprow_eq]
    exact hinv.hshape _ (getD_mem_of_lt hprlen)
  have hE1 : ∀ c, entry (swapRows aug pivot pr) pivot c = entry aug pr c := by
    intro c
    rw [entry, entry, hprow_eq]
  have hE2 : ∀ c, entry (swapRows aug pivot pr) pr c = entry aug pivot c := by
    intro c
    rw [entry, entry, swapRows_getD_j aug pivot pr hprlen]
  have hE3 : ∀ i, i ≠ pivot → i ≠ pr →
      ∀ c, entry (swapRows aug pivot pr) i c = entry aug i c := by
    intro i h1 h2 c
    rw [entry, entry, swapRows_getD_other aug pivot pr i h1 h2]
  have hzero_swap : ∀ (c j₀ : ℕ), j₀ < pivot →
      (∀ i, i < rows → i ≠ j₀ → entry aug i c = false) →
      ∀ i, i < rows → i ≠ j₀ → entry (swapRows aug pivot pr) i c = false := by
    intro c j₀ hj₀ hall i hi hij
    by_cases hip : i = pivot
    · subst hip
      rw [hE1]
      exact hall pr hpr2 (by omega)
    · by_cases hipr : i = pr
      · subst hipr
        rw [hE2]
        exact hall pivot hpiv (by omega)
      · rw [hE3 i hip hipr]
        exact hall i hi hij
  have hzero_swap_tail : ∀ c : ℕ,
      (∀ i, pivot ≤ i → i < rows → entry aug i c = false) →
      ∀ i, pivot ≤ i → i < rows → entry (swapRows aug pivot pr) i c = false := by
    intro c hall i h1 h2
    by_cases hip : i = pivot
    · subst hip
      rw [hE1]
      exact hall pr hpr1 hpr2
    · by_cases hipr : i = pr
      · subst hipr
        rw [hE2]
        exact hall pivot le_rfl hpiv
      · rw [hE3 i hip hipr]
        exact hall i h1 h2
  have hrow_shape : ∀ i, i < rows →
      ((swapRows aug pivot pr).getD i []).length = cols + 1 := by
    intro i hi
    exact hshapeA1 _ (getD_mem_of_lt (by rw [hlenA1]; exact hi))
  have hA2 : ∀ i, i < rows → ∀ c,
      entry (elimOthers ((swapRows aug pivot pr).getD pivot []) col pivot 0
        (swapRows aug pivot pr)) i c =
      (if i = pivot then entry (swapRows aug pivot pr) i c
       else if entry (swapRows aug pivot pr) i col = true then
         Bool.xor (entry (swapRows aug pivot pr) i c)
           (entry (swapRows aug pivot pr) pivot c)
       else entry (swapRows aug pivot pr) i c) := by
    intro i hi c
    have hconv : ∀ c' : ℕ,
        ((swapRows aug pivot pr).getD i []).getD c' false =
          entry (swapRows aug pivot pr) i c' := fun _ => rfl
    rw [entry,
      elimOthers_getD _ col pivot (swapRows aug pivot pr) 0 i
        (by rw [hlenA1]; exact hi)]
    simp only [Nat.zero_add]
    by_cases hip : i = pivot
    · rw [if_pos hip, if_pos hip]
      rfl
    · rw [if_neg hip, if_neg hip, hconv col]
      by_cases hcl : entry (swapRows aug pivot pr) i col = true
      · rw [if_pos hcl, if_pos hcl]
        rw [getD_zipWith _ _ (by rw [hrow_shape i hi, hprshape]) c]
        rfl
      · rw [if_neg hcl, if_neg hcl]
        rfl
  have hE1col : entry (swapRows aug pivot pr) pivot col = true := by
    rw [hE1]
    exact hpre
  have hcolnotin : ¬ col ∈ pcs := by
    intro hc
    obtain ⟨j, hj, hje⟩ := mem_pcs_iff.mp hc
    rw [hinv.hplen] at hj
    have := hinv.hpcol j hj
    omega
  have hgets : ∀ j, j < pivot → (pcs ++ [col]).getD j 0 = pcs.getD j 0 := by
    intro j hj
    exact getD_append_lt (by rw [hinv.hplen]; exact hj)
  have hgetp : (pcs ++ [col]).getD pivot 0 = col := by
    rw [← hinv.hplen]
    exact getD_append_len
  have hmem' : ∀ c, c ∈ pcs ++ [col] ↔ c ∈ pcs ∨ c = col := by
    intro c
    simp
  constructor
  · refine ⟨?_, ?_, ?_, by omega, by omega, ?_, ?_, ?_, ?_, ?_, ?_⟩
    · rw [elimOthers_length, hlenA1]
    · intro r hr
      rcases mem_elimOthers hr with h1 | ⟨r0, hr0, rfl⟩
      · exact hshapeA1 r h1
      · rw [List.length_zipWith, hshapeA1 r0 hr0, hprshape]
        simp
    · rw [List.length_append, hinv.hplen]
      rfl
    · intro j hj
      by_cases hjp : j = pivot
      · subst hjp
        rw [hgetp]
        omega
      · rw [hgets j (by omega)]
        have := hinv.hpcol j (by omega)
        omega
    · intro j l hjl hl
      by_cases hlp : l = pivot
      · subst hlp
        rw [hgetp, hgets j (by omega)]
        exact hinv.hpcol j (by omega)
      · rw [hgets j (by omega), hgets l (by omega)]
        exact hinv.hsorted j l hjl (by omega)
    · -- hpiv1
      intro j hj
      by_cases hjp : j = pivot
      · rw [hjp, hgetp, hA2 pivot hpiv col, if_pos rfl]
        exact hE1col
      · have hj' : j < pivot := by omega
        rw [hgets j hj']
        rw [hA2 j (by omega) _, if_neg hjp]
        have h1 : entry (swapRows aug pivot pr) j (pcs.getD j 0) = true := by
          rw [hE3 j hjp (by omega)]
          exact hinv.hpiv1 j hj'
        have h0 : entry (swapRows aug pivot pr) pivot (pcs.getD j 0) = false := by
          rw [hE1]
          exact hinv.hpiv0 j hj' pr hpr2 (by omega)
        by_cases hcl : entry (swapRows aug pivot pr) j col = true
        · rw [if_pos hcl, h1, h0]
          rfl
        · rw [if_neg hcl]
          exact h1
    · -- hpiv0
      intro j hj i hi hij
      by_cases hjp : j = pivot
      · rw [hjp] at hij
        rw [hjp, hgetp, hA2 i hi col, if_neg hij]
        by_cases hcl : entry (swapRows aug pivot pr) i col = true
        · rw [if_pos hcl, hcl, hE1col]
          rfl
        · rw [if_neg hcl]
          simpa using hcl
      · have hj' : j < pivot := by omega
        rw [hgets j hj']
        have hallA1 : ∀ i', i' < rows → i' ≠ j →
            entry (swapRows aug pivot pr) i' (pcs.getD j 0) = false :=
          hzero_swap _ j hj' (hinv.hpiv0 j hj')
        rw [hA2 i hi _]
        by_cases hip : i = pivot
        · rw [if_pos hip]
          subst hip
          exact hallA1 i hi (by omega)
        · rw [if_neg hip]
          have h2 := hallA1 i hi hij
          by_cases hcl : entry (swapRows aug pivot pr) i col = true
          · rw [if_pos hcl, h2, hallA1 pivot hpiv (by omega)]
            rfl
          · rw [if_neg hcl]
            exact h2
    · -- hlead
      intro j hj c hc hcnot
      rw [hmem'] at hcnot
      push_neg at hcnot
      obtain ⟨hcnot1, hcnot2⟩ := hcnot
      by_cases hjp : j = pivot
      · rw [hjp, hgetp] at hc
        rw [hjp, hA2 pivot hpiv c, if_pos rfl, hE1]
        exact hinv.hfree0 c hc hcnot1 pr hpr1 hpr2
      · have hj' : j < pivot := by omega
        rw [hgets j hj'] at hc
        rw [hA2 j (by omega) c, if_neg hjp]
        have hcc : c < col := lt_trans hc (hinv.hpcol j hj')
        have h1 : entry (swapRows aug pivot pr) j c = false := by
          rw [hE3 j hjp (by omega)]
          exact hinv.hlead j hj' c hc hcnot1
        have h0 : entry (swapRows aug pivot pr) pivot c = false := by
          rw [hE1]
          exact hinv.hfree0 c hcc hcnot1 pr hpr1 hpr2
        by_cases hcl : entry (swapRows aug pivot pr) j col = true
        · rw [if_pos hcl, h1, h0]
          rfl
        · rw [if_neg hcl]
          exact h1
    · -- hfree0
      intro c hc hcnot i h1 h2
      rw [hmem'] at hcnot
      push_neg at hcnot
      obtain ⟨hcnot1, hcnot2⟩ := hcnot
      have hcc : c < col := by omega
      have hallA1 : ∀ i', pivot ≤ i' → i' < rows →
          entry (swapRows aug pivot pr) i' c = false :=
        hzero_swap_tail c (hinv.hfree0 c hcc hcnot1)
      rw [hA2 i (by omega) c, if_neg (by omega)]
      by_cases hcl : entry (swapRows aug pivot pr) i col = true
      · rw [if_pos hcl, hallA1 i (by omega) h2, hallA1 pivot le_rfl hpiv]
        rfl
      · rw [if_neg hcl]
        exact hallA1 i (by omega) h2
  · intro x
    have hprmemA1 : (swapRows aug pivot pr).getD pivot [] ∈ swapRows aug pivot pr :=
      getD_mem_of_lt (by rw [hlenA1]; exact hpiv)
    have hprmemE : (swapRows aug pivot pr).getD pivot [] ∈
        elimOthers ((swapRows aug pivot pr).getD pivot []) col pivot 0
          (swapRows aug pivot pr) := by
      have hg := elimOthers_getD ((swapRows aug pivot pr).getD pivot []) col pivot
        (swapRows aug pivot pr) 0 pivot (by rw [hlenA1]; exact hpiv)
      simp only [Nat.zero_add, if_true] at hg
      have hmemE := getD_mem_of_lt
        (l := elimOthers ((swapRows aug pivot pr).getD pivot []) col pivot 0
          (swapRows aug pivot pr)) (i := pivot) (d := ([] : List Bool))
        (by rw [elimOthers_length, hlenA1]; exact hpiv)
      rw [hg] at hmemE
      exact hmemE
    exact (satAug_elimOthers hshapeA1 hprmemE hprmemA1 hprshape).trans
      (satAug_swapRows hpivlen hprlen)

/-- The full elimination run: the invariant holds at the end, the loop
stops with either all columns processed or all rows used as pivots, and the
solution set is unchanged. -/
lemma gaussAux_spec (rows cols : ℕ) :
    ∀ (k col pivot : ℕ) (aug : List (List Bool)) (pcs : List ℕ),
      col + k = cols → GInv rows cols col pivot aug pcs →
      ∃ aug' pivot' pcs' colE,
        gaussAux rows k col pivot aug pcs = (aug', pivot', pcs') ∧
        GInv rows cols colE pivot' aug' pcs' ∧
        (colE = cols ∨ pivot' = rows) ∧
        ∀ x, SatAug cols aug' x ↔ SatAug cols aug x := by
  intro k
  induction k with
  | zero =>
      intro col pivot aug pcs hck hinv
      exact ⟨aug, pivot, pcs, cols, rfl, by rwa [show col = cols by omega] at hinv,
        Or.inl rfl, fun x => Iff.rfl⟩
  | succ k' ih =>
      intro col pivot aug pcs hck hinv
      rw [gaussAux]
      by_cases hpiv : pivot < rows
      · rw [if_pos hpiv]
        cases hff : findFrom aug col pivot (rows - pivot) with
        | none =>
            have hnone := findFrom_none hff
            have hinv' : GInv rows cols (col + 1) pivot aug pcs :=
              { hinv with
                hcolle := by omega
                hpcol := fun j hj => lt_trans (hinv.hpcol j hj) (by omega)
                hfree0 := by
                  intro c hc hcnot i h1 h2
                  by_cases hcc : c = col
                  · subst hcc
                    exact hnone i h1 (by omega)
                  · exact hinv.hfree0 c (by omega) hcnot i h1 h2 }
            exact ih (col + 1) pivot aug pcs (by omega) hinv'
        | some pr =>
            obtain ⟨hpr1, hpr2, hpre⟩ := findFrom_some hff
            have hpr2' : pr < rows := by omega
            obtain ⟨hinv', hsat⟩ :=
              gauss_step hinv (by omega) hpr1 hpr2' hpre hpiv
            obtain ⟨aug', pivot', pcs', colE, hrun, hinvE, hstopE, hsatE⟩ :=
              ih (col + 1) (pivot + 1) _ (pcs ++ [col]) (by omega) hinv'
            exact ⟨aug', pivot', pcs', colE, hrun, hinvE, hstopE,
              fun x => (hsatE x).trans (hsat x)⟩
      · rw [if_neg hpiv]
        exact ⟨aug, pivot, pcs, col, rfl, hinv,
          Or.inr (le_antisymm hinv.hprle (by omega)), fun x => Iff.rfl⟩

/-! ### Back substitution and the enumerated candidates -/

lemma xor_solve : ∀ a r d : Bool, a = Bool.xor r (Bool.xor d a) → d = r := by decide

lemma xor_absorb : ∀ r a : Bool, Bool.xor r (Bool.xor r a) = a := by decide

lemma getD_default {l : List Bool} {i : ℕ} (h : l.length ≤ i) :
    l.getD i false = false := by
  rw [List.getD_eq_getElem?_getD, List.getElem?_eq_none h]
  rfl

/-- What the back-substitution loop computes: positions outside the pivot
columns are untouched, and each pivot column holds the forced value, read
off against the final list itself. -/
lemma backSubAux_spec (A : List (List Bool)) (pcs : List ℕ) (cols p : ℕ)
    (hsorted : ∀ j l, j < l → l < p → pcs.getD j 0 < pcs.getD l 0)
    (hpc : ∀ j, j < p → pcs.getD j 0 < cols) :
    ∀ (k : ℕ), k ≤ p → ∀ (sol : List Bool), sol.length = cols →
      ∃ sol', backSubAux A pcs cols k sol = sol' ∧ sol'.length = cols ∧
        (∀ c, (∀ j, j < k → c ≠ pcs.getD j 0) →
          sol'.getD c false = sol.getD c false) ∧
        (∀ j, j < k → sol'.getD (pcs.getD j 0) false =
          dotFrom (A.getD j []) sol' (pcs.getD j 0 + 1) cols
            ((A.getD j []).getD cols false)) := by
  intro k
  induction k with
  | zero =>
      intro _ sol hsol
      exact ⟨sol, rfl, hsol, fun c _ => rfl, fun j hj => absurd hj (by omega)⟩
  | succ k ih =>
      intro hk sol hsol
      rw [backSubAux]
      obtain ⟨sol', hrun, hlen', hpres, hvals⟩ :=
        ih (by omega)
          (sol.set (pcs.getD k 0)
            (dotFrom (A.getD k []) sol (pcs.getD k 0 + 1) cols
              ((A.getD k []).getD cols false)))
          (by rw [List.length_set]; exact hsol)
      have hckj : ∀ j, j < k → pcs.getD j 0 ≠ pcs.getD k 0 := by
        intro j hj
        have := hsorted j k hj (by omega)
        omega
      have hagree : ∀ c, pcs.getD k 0 + 1 ≤ c → c < cols →
          sol.getD c false = sol'.getD c false := by
        intro c h1 h2
        rw [hpres c (fun j hj => by
          have := hsorted j k hj (by omega)
          omega)]
        rw [getD_set_ne (by omega)]
      refine ⟨sol', hrun, hlen', ?_, ?_⟩
      · intro c hc
        rw [hpres c (fun j hj => hc j (by omega))]
        rw [getD_set_ne (fun hE => hc k (by omega) hE.symm)]
      · intro j hj
        by_cases hjk : j = k
        · subst hjk
          rw [hpres (pcs.getD j 0) (fun l hl => (hckj l hl).symm)]
          rw [getD_set_self (by rw [hsol]; exact hpc j (by omega))]
          exact dotFrom_congr _ _ _ _ _ _ hagree
        · exact hvals j (by omega)

lemma foldl_set_length (pos : ℕ → ℕ) (val : ℕ → Bool) :
    ∀ (l : List ℕ) (s : List Bool),
      (l.foldl (fun s i => s.set (pos i) (val i)) s).length = s.length := by
  intro l
  induction l with
  | nil => intro s; rfl
  | cons a l ih =>
      intro s
      simp only [List.foldl_cons]
      rw [ih, List.length_set]

lemma foldl_range_set_getD_other (pos : ℕ → ℕ) (val : ℕ → Bool) :
    ∀ (n : ℕ) (s : List Bool) (c : ℕ), (∀ i, i < n → c ≠ pos i) →
      ((List.range n).foldl (fun s i => s.set (pos i) (val i)) s).getD c false =
        s.getD c false := by
  intro n
  induction n with
  | zero => intro s c _; rfl
  | succ m ih =>
      intro s c hc
      rw [List.range_succ, List.foldl_append]
      simp only [List.foldl_cons, List.foldl_nil]
      rw [getD_set_ne (fun hE => hc m (by omega) hE.symm)]
      exact ih s c (fun i hi => hc i (by omega))

lemma foldl_range_set_getD (pos : ℕ → ℕ) (val : ℕ → Bool) :
    ∀ (n : ℕ), (∀ i j, i < n → j < n → pos i = pos j → i = j) →
      ∀ (s : List Bool) (i : ℕ), i < n → pos i < s.length →
      ((List.range n).foldl (fun s i => s.set (pos i) (val i)) s).getD (pos i)
        false = val i := by
  intro n
  induction n with
  | zero => intro _ s i hi _; omega
  | succ m ih =>
      intro hinj s i hi hlt
      rw [List.range_succ, List.foldl_append]
      simp only [List.foldl_cons, List.foldl_nil]
      by_cases him : i = m
      · subst him
        rw [getD_set_self (by rw [foldl_set_length]; exact hlt)]
      · rw [getD_set_ne (fun hE => him (hinj i m (by omega) (by omega) hE.symm))]
        exact ih (fun a b ha hb hE => hinj a b (by omega) (by omega) hE) s i
          (by omega) hlt

/-- Mask encoding a list of bits, least significant bit first. -/
def maskOf (bs : List Bool) : ℕ := bs.foldr (fun b acc => Nat.bit b acc) 0

lemma maskOf_testBit :
    ∀ (bs : List Bool) (i : ℕ), i < bs.length →
      (maskOf bs).testBit i = bs.getD i false := by
  intro bs
  induction bs with
  | nil => intro i hi; simp at hi
  | cons b bs ih =>
      intro i hi
      cases i with
      | zero => simpa [maskOf] using Nat.testBit_bit_zero b (maskOf bs)
      | succ i' =>
          have hstep : maskOf (b :: bs) = Nat.bit b (maskOf bs) := rfl
          rw [hstep, Nat.testBit_bit_succ]
          simpa using ih i' (by simpa using hi)

lemma maskOf_lt : ∀ bs : List Bool, maskOf bs < 2 ^ bs.length := by
  intro bs
  induction bs with
  | nil => simp [maskOf]
  | cons b bs ih =>
      have hstep : maskOf (b :: bs) = Nat.bit b (maskOf bs) := rfl
      rw [hstep, Nat.bit_val, List.length_cons, pow_succ]
      have hb : (b.toNat : ℕ) ≤ 1 := by cases b <;> simp
      omega

lemma foldl_min_le_mem :
    ∀ (l : List ℕ) (b : ℕ) (a : ℕ), a ∈ l → l.foldl min b ≤ a := by
  intro l
  induction l with
  | nil => intro b a h; simp at h
  | cons c l ih =>
      intro b a h
      simp only [List.foldl_cons]
      rcases List.mem_cons.mp h with rfl | h2
      · calc l.foldl min (min b a) ≤ min b a := by
              clear ih h
              induction l generalizing b a with
              | nil => exact le_rfl
              | cons d l ihd =>
                  simp only [List.foldl_cons]
                  exact le_trans (ihd (min b a) d) (by omega)
          _ ≤ a := by omega
      · exact ih (min b c) a h2

lemma foldl_min_le_init : ∀ (l : List ℕ) (b : ℕ), l.foldl min b ≤ b := by
  intro l
  induction l with
  | nil => intro b; exact le_rfl
  | cons c l ih =>
      intro b
      simp only [List.foldl_cons]
      exact le_trans (ih (min b c)) (by omega)

lemma foldl_min_mem_or :
    ∀ (l : List ℕ) (b : ℕ), l.foldl min b = b ∨ l.foldl min b ∈ l := by
  intro l
  induction l with
  | nil => intro b; exact Or.inl rfl
  | cons c l ih =>
      intro b
      simp only [List.foldl_cons]
      rcases ih (min b c) with h | h
      · rcases le_total b c with hbc | hbc
        · rw [h, min_eq_left hbc]
          exact Or.inl rfl
        · rw [h, min_eq_right hbc]
          exact Or.inr (List.mem_cons_self c l)
      · exact Or.inr (List.mem_cons_of_mem c h)

/-! ### The eliminated system, solved -/

/-- After the elimination has stopped, every processed row index at or past
the pivot count has an all-zero coefficient part. -/
lemma tail_zero {rows cols colE p : ℕ} {A : List (List Bool)} {pcs : List ℕ}
    (hinv : GInv rows cols colE p A pcs) (hstop : colE = cols ∨ p = rows) :
    ∀ i, p ≤ i → i < rows → ∀ c, c < cols → entry A i c = false := by
  intro i h1 h2 c hc
  rcases hstop with hC | hP
  · by_cases hcp : c ∈ pcs
    · obtain ⟨j, hj, hje⟩ := mem_pcs_iff.mp hcp
      rw [hinv.hplen] at hj
      rw [← hje]
      exact hinv.hpiv0 j hj i h2 (by omega)
    · exact hinv.hfree0 c (by omega) hcp i h1 h2
  · omega

/-- The dot product of the `j`-th eliminated row up to just past its pivot
column is exactly the pivot variable. -/
lemma pivot_row_dot {rows cols colE p : ℕ} {A : List (List Bool)} {pcs : List ℕ}
    (hinv : GInv rows cols colE p A pcs) (j : ℕ) (hj : j < p) (x : List Bool) :
    dotB (A.getD j []) x (pcs.getD j 0 + 1) = x.getD (pcs.getD j 0) false := by
  rw [dotB]
  have h0 : dotB (A.getD j []) x (pcs.getD j 0) = false := by
    apply dotB_zero
    intro c hc
    have hrc : (A.getD j []).getD c false = entry A j c := rfl
    rw [hrc]
    by_cases hcp : c ∈ pcs
    · obtain ⟨l, hl, hle⟩ := mem_pcs_iff.mp hcp
      rw [hinv.hplen] at hl
      have hlj : l ≠ j := by
        intro hE
        subst hE
        omega
      have hprle := hinv.hprle
      rw [← hle, hinv.hpiv0 l hl j (by omega)
        (fun hE => hlj hE.symm)]
      simp
    · rw [hinv.hlead j hj c hc hcp]
      simp
  rw [h0]
  have h1 : (A.getD j []).getD (pcs.getD j 0) false = entry A j (pcs.getD j 0) := rfl
  rw [h1, hinv.hpiv1 j hj]
  simp

/-- A vector satisfies the `j`-th eliminated equation iff its pivot entry
equals the back-substituted value. -/
lemma satRow_pivot_iff {rows cols colE p : ℕ} {A : List (List Bool)}
    {pcs : List ℕ} (hinv : GInv rows cols colE p A pcs) (j : ℕ) (hj : j < p)
    (x : List Bool) :
    SatRow cols x (A.getD j []) ↔
      x.getD (pcs.getD j 0) false =
        dotFrom (A.getD j []) x (pcs.getD j 0 + 1) cols
          ((A.getD j []).getD cols false) := by
  have hclt : pcs.getD j 0 < cols := lt_of_lt_of_le (hinv.hpcol j hj) hinv.hcolle
  rw [dotFrom_split _ _ _ _ _ (by omega), pivot_row_dot hinv j hj x]
  constructor
  · intro h
    have h' : dotB (A.getD j []) x cols = (A.getD j []).getD cols false := h
    rw [h', xor_absorb]
  · intro h
    exact xor_solve _ _ _ h

/-- Any vector whose pivot entries carry the back-substituted values
satisfies the whole eliminated system, provided the consistency check
passed. -/
lemma built_satAug {rows cols colE p : ℕ} {A : List (List Bool)} {pcs : List ℕ}
    (hinv : GInv rows cols colE p A pcs) (hstop : colE = cols ∨ p = rows)
    (hcons : ∀ i, p ≤ i → i < rows → entry A i cols = false)
    (sol' : List Bool)
    (hvals : ∀ j, j < p → sol'.getD (pcs.getD j 0) false =
      dotFrom (A.getD j []) sol' (pcs.getD j 0 + 1) cols
        ((A.getD j []).getD cols false)) :
    SatAug cols A sol' := by
  intro r hr
  obtain ⟨i, hi, hre⟩ := List.mem_iff_getElem.mp hr
  have hi' : i < rows := by rw [← hinv.hlen]; exact hi
  have hrD : r = A.getD i [] := by
    rw [List.getD_eq_getElem?_getD, List.getElem?_eq_getElem hi]
    exact hre.symm
  subst hrD
  by_cases hip : i < p
  · exact (satRow_pivot_iff hinv i hip sol').mpr (hvals i hip)
  · show dotB (A.getD i []) sol' cols = (A.getD i []).getD cols false
    rw [dotB_zero _ _ cols (fun c hc => by
      rw [show (A.getD i []).getD c false = entry A i c from rfl,
        tail_zero hinv hstop i (by omega) hi' c hc]
      simp)]
    rw [show (A.getD i []).getD cols false = entry A i cols from rfl,
      hcons i (by omega) hi']

/-- Two satisfying vectors of the eliminated system that agree on the free
columns agree everywhere (downward induction over the columns). -/
lemma sat_unique {rows cols colE p : ℕ} {A : List (List Bool)} {pcs : List ℕ}
    (hinv : GInv rows cols colE p A pcs)
    (sol' y : List Bool)
    (hvals : ∀ j, j < p → sol'.getD (pcs.getD j 0) false =
      dotFrom (A.getD j []) sol' (pcs.getD j 0 + 1) cols
        ((A.getD j []).getD cols false))
    (hy : SatAug cols A y)
    (hfree : ∀ c, c < cols → ¬ c ∈ pcs → sol'.getD c false = y.getD c false)
    (hslen : sol'.length = cols) (hylen : y.length = cols) :
    ∀ c, sol'.getD c false = y.getD c false := by
  have main : ∀ d c, cols ≤ c + d → sol'.getD c false = y.getD c false := by
    intro d
    induction d with
    | zero =>
        intro c hc
        rw [getD_default (by omega), getD_default (by omega)]
    | succ d ih =>
        intro c hc
        by_cases hclt : c < cols
        · by_cases hcp : c ∈ pcs
          · obtain ⟨j, hj, hje⟩ := mem_pcs_iff.mp hcp
            rw [hinv.hplen] at hj
            have hprle := hinv.hprle
            have hrow : A.getD j [] ∈ A :=
              getD_mem_of_lt (by rw [hinv.hlen]; omega)
            have hyj := (satRow_pivot_iff hinv j hj y).mp (hy _ hrow)
            rw [← hje, hvals j hj, hyj]
            apply dotFrom_congr
            intro c' h1 h2
            exact ih c' (by omega)
          · exact hfree c hclt hcp
        · rw [getD_default (by omega), getD_default (by omega)]
  intro c
  by_cases hclt : c < cols
  · exact main cols c (by omega)
  · rw [getD_default (by omega), getD_default (by omega)]

lemma nodup_getD_inj {l : List ℕ} (hnd : l.Nodup) {i j : ℕ}
    (hi : i < l.length) (hj : j < l.length) (h : l.getD i 0 = l.getD j 0) :
    i = j := by
  rw [List.getD_eq_getElem?_getD, List.getElem?_eq_getElem hi,
    List.getD_eq_getElem?_getD, List.getElem?_eq_getElem hj] at h
  simp only [Option.getD_some] at h
  have hget : l.get ⟨i, hi⟩ = l.get ⟨j, hj⟩ := by simpa using h
  have := (List.Nodup.get_inj_iff hnd).mp hget
  exact congrArg Fin.val this

lemma setFree_length (fv : List ℕ) (mask : ℕ) (sol : List Bool) :
    (setFree fv mask sol).length = sol.length :=
  foldl_set_length _ _ _ _

lemma setFree_getD_mem (fv : List ℕ) (hnd : fv.Nodup) (mask : ℕ)
    (sol : List Bool) (i : ℕ) (hi : i < fv.length)
    (hlt : fv.getD i 0 < sol.length) :
    (setFree fv mask sol).getD (fv.getD i 0) false = mask.testBit i :=
  foldl_range_set_getD _ _ _
    (fun a b ha hb hE => nodup_getD_inj hnd ha hb hE) sol i hi hlt

lemma setFree_getD_other (fv : List ℕ) (mask : ℕ) (sol : List Bool) (c : ℕ)
    (hc : ¬ c ∈ fv) :
    (setFree fv mask sol).getD c false = sol.getD c false :=
  foldl_range_set_getD_other _ _ _ sol c
    (fun i hi hE => hc (by rw [hE]; exact getD_mem_of_lt hi))

lemma getD_map_lt (f : ℕ → Bool) (l : List ℕ) (i : ℕ) (hi : i < l.length) :
    (l.map f).getD i false = f (l.getD i 0) := by
  rw [List.getD_eq_getElem?_getD, List.getElem?_map,
    List.getD_eq_getElem?_getD, List.getElem?_eq_getElem hi]
  simp

lemma freeVars_mem {pcs : List ℕ} {cols c : ℕ} :
    c ∈ (List.range cols).filter (fun c => decide (¬ c ∈ pcs)) ↔
      c < cols ∧ ¬ c ∈ pcs := by
  rw [List.mem_filter, List.mem_range]
  simp

lemma ext_getD {l1 l2 : List Bool} (h1 : l1.length = l2.length)
    (h : ∀ c, l1.getD c false = l2.getD c false) : l1 = l2 := by
  apply List.ext_getElem h1
  intro i hi1 hi2
  have hi := h i
  rw [List.getD_eq_getElem?_getD, List.getElem?_eq_getElem hi1,
    List.getD_eq_getElem?_getD, List.getElem?_eq_getElem hi2] at hi
  simpa using hi

/-- The candidate built for `mask`: its length, its pivot equations and its
free entries. -/
lemma buildSolution_spec {rows cols colE p : ℕ} {A : List (List Bool)}
    {pcs : List ℕ} (hinv : GInv rows cols colE p A pcs) (mask : ℕ) :
    ∃ sol',
      buildSolution A pcs cols p
        ((List.range cols).filter fun c => decide (¬ c ∈ pcs)) mask = sol' ∧
      sol'.length = cols ∧
      (∀ j, j < p → sol'.getD (pcs.getD j 0) false =
        dotFrom (A.getD j []) sol' (pcs.getD j 0 + 1) cols
          ((A.getD j []).getD cols false)) ∧
      (∀ i, i < ((List.range cols).filter fun c => decide (¬ c ∈ pcs)).length →
        sol'.getD (((List.range cols).filter fun c =>
          decide (¬ c ∈ pcs)).getD i 0) false = mask.testBit i) := by
  have hpc : ∀ j, j < p → pcs.getD j 0 < cols :=
    fun j hj => lt_of_lt_of_le (hinv.hpcol j hj) hinv.hcolle
  have hs0len : (setFree ((List.range cols).filter fun c => decide (¬ c ∈ pcs))
      mask (List.replicate cols false)).length = cols := by
    rw [setFree_length, List.length_replicate]
  obtain ⟨sol', hrun, hlen', hpres, hvals⟩ :=
    backSubAux_spec A pcs cols p hinv.hsorted hpc p le_rfl _ hs0len
  refine ⟨sol', hrun, hlen', hvals, ?_⟩
  intro i hi
  have hmem : ((List.range cols).filter fun c => decide (¬ c ∈ pcs)).getD i 0 ∈
      (List.range cols).filter fun c => decide (¬ c ∈ pcs) :=
    getD_mem_of_lt hi
  obtain ⟨hlt, hnp⟩ := freeVars_mem.mp hmem
  rw [hpres _ (fun j hj hE =>
    hnp (mem_pcs_iff.mpr ⟨j, by rw [hinv.hplen]; omega, hE.symm⟩))]
  exact setFree_getD_mem _ ((List.nodup_range cols).filter _) mask _ i hi
    (by rw [List.length_replicate]; exact hlt)

/-! ### The initial augmented matrix and the spec equations -/

lemma getD_append_lt_bool {l : List Bool} {a : Bool} {j : ℕ} (h : j < l.length) :
    (l ++ [a]).getD j false = l.getD j false := by
  rw [List.getD_eq_getElem?_getD, List.getD_eq_getElem?_getD,
    List.getElem?_append, if_pos h]

lemma getD_append_len_bool {l : List Bool} {a : Bool} :
    (l ++ [a]).getD l.length false = a := by
  rw [List.getD_eq_getElem?_getD, List.getElem?_append_right le_rfl]
  simp

lemma getD_map_range (f : ℕ → List Bool) (n i : ℕ) (hi : i < n) :
    ((List.range n).map f).getD i [] = f i := by
  rw [List.getD_eq_getElem?_getD, List.getElem?_map, List.getElem?_range hi]
  simp

lemma getD_map_range_bool (f : ℕ → Bool) (n c : ℕ) (hc : c < n) :
    ((List.range n).map f).getD c false = f c := by
  rw [List.getD_eq_getElem?_getD, List.getElem?_map, List.getElem?_range hc]
  simp

lemma foldr_xor_init (f : ℕ → Bool) :
    ∀ (l : List ℕ) (b : Bool),
      l.foldr (fun j acc => Bool.xor (f j) acc) b =
        Bool.xor (l.foldr (fun j acc => Bool.xor (f j) acc) false) b := by
  intro l
  induction l with
  | nil => intro b; simp
  | cons a l ih =>
      intro b
      simp only [List.foldr_cons]
      rw [ih b]
      cases f a <;> cases l.foldr (fun j acc => Bool.xor (f j) acc) false <;>
        cases b <;> rfl

lemma foldr_xor_eq_dotB (f : ℕ → Bool) (r x : List Bool) :
    ∀ n, (∀ c, c < n → f c = ((r.getD c false) && (x.getD c false))) →
      (List.range n).foldr (fun j acc => Bool.xor (f j) acc) false =
        dotB r x n := by
  intro n
  induction n with
  | zero => intro _; rfl
  | succ m ih =>
      intro h
      rw [List.range_succ, List.foldr_append]
      simp only [List.foldr_cons, List.foldr_nil]
      rw [foldr_xor_init, ih (fun c hc => h c (by omega)), dotB, h m (by omega)]
      cases dotB r x m <;> cases (r.getD m false) && (x.getD m false) <;> rfl

/-- The `i`-th initial augmented row, as an equation on `x`, is the `i`-th
spec-side equation. -/
lemma initRow_sat_iff (matrix : List (List Bool)) (target : List Bool)
    (x : List Bool) (i : ℕ) :
    SatRow matrix.length x
      (((List.range matrix.length).map fun j =>
        (matrix.getD j []).getD i false) ++ [target.getD i false]) ↔
      (List.range matrix.length).foldr
        (fun j acc => Bool.xor ((x.getD j false) &&
          ((matrix.getD j []).getD i false)) acc) false =
        target.getD i false := by
  have hmaplen : ((List.range matrix.length).map fun j =>
      (matrix.getD j []).getD i false).length = matrix.length := by
    rw [List.length_map, List.length_range]
  have hrhs := getD_append_len_bool
    (l := (List.range matrix.length).map fun j => (matrix.getD j []).getD i false)
    (a := target.getD i false)
  rw [hmaplen] at hrhs
  have hfold : (List.range matrix.length).foldr
      (fun j acc => Bool.xor ((x.getD j false) &&
        ((matrix.getD j []).getD i false)) acc) false =
      dotB (((List.range matrix.length).map fun j =>
        (matrix.getD j []).getD i false) ++ [target.getD i false]) x
        matrix.length := by
    apply foldr_xor_eq_dotB
    intro c hc
    rw [getD_append_lt_bool (by rw [hmaplen]; exact hc),
      getD_map_range_bool _ _ _ hc, Bool.and_comm]
  constructor
  · intro h
    have h' : dotB (((List.range matrix.length).map fun j =>
        (matrix.getD j []).getD i false) ++ [target.getD i false]) x
        matrix.length =
        ((((List.range matrix.length).map fun j =>
          (matrix.getD j []).getD i false) ++ [target.getD i false])).getD
            matrix.length false := h
    rw [hfold, h', hrhs]
  · intro h
    show dotB _ _ _ = _
    rw [hrhs, ← hfold]
    exact h

/-- The spec-side equations say exactly that `x` satisfies the initial
augmented matrix built by `solveGF2`. -/
lemma solvesGF2_iff_satAug (matrix : List (List Bool)) (target : List Bool)
    (x : List Bool) :
    SolvesGF2 matrix target x ↔
      x.length = matrix.length ∧
      SatAug matrix.length
        ((List.range target.length).map fun i =>
          (((List.range matrix.length).map fun j =>
            (matrix.getD j []).getD i false) ++ [target.getD i false])) x := by
  rw [SolvesGF2]
  refine and_congr_right fun _ => ?_
  constructor
  · intro h r hr
    obtain ⟨i, hi, hre⟩ := List.mem_map.mp hr
    rw [List.mem_range] at hi
    rw [← hre]
    exact (initRow_sat_iff matrix target x i).mpr (h i hi)
  · intro h i hi
    exact (initRow_sat_iff matrix target x i).mp
      (h _ (List.mem_map.mpr ⟨i, List.mem_range.mpr hi, rfl⟩))

/-- The initial augmented matrix satisfies the elimination invariant with
no pivots processed. -/
lemma GInv_init (matrix : List (List Bool)) (target : List Bool) :
    GInv target.length matrix.length 0 0
      ((List.range target.length).map fun i =>
        (((List.range matrix.length).map fun j =>
          (matrix.getD j []).getD i false) ++ [target.getD i false])) [] where
  hlen := by rw [List.length_map, List.length_range]
  hshape := by
    intro r hr
    obtain ⟨i, hi, hre⟩ := List.mem_map.mp hr
    rw [← hre, List.length_append, List.length_map, List.length_range]
    rfl
  hplen := rfl
  hprle := Nat.zero_le _
  hcolle := Nat.zero_le _
  hpcol := fun j hj => absurd hj (by omega)
  hsorted := fun j l _ hl => absurd hl (by omega)
  hpiv1 := fun j hj => absurd hj (by omega)
  hpiv0 := fun j hj => absurd hj (by omega)
  hlead := fun j hj => absurd hj (by omega)
  hfree0 := fun c hc => absurd hc (by omega)

/-- C1 (corrected): for every machine whose button list is nonempty,
`solveGF2` returns -1 exactly when no 0/1 press vector `x` XOR-combines the
button patterns into the target, and otherwise returns the minimum number
of ones over all such solution vectors.  The original claim, quantified
over every parsed machine, fails only for machines with zero buttons: there
`solveGF2` returns -1 unconditionally even though an all-zero target is
solved by the empty press vector (see the counterexample). -/
theorem claim_C1_solveGF2_minimum (matrix : List (List Bool))
    (target : List Bool) (hm : matrix ≠ []) :
    ((solveGF2 matrix target = -1) ↔ ¬ ∃ x, SolvesGF2 matrix target x) ∧
    ((∃ x, SolvesGF2 matrix target x) →
      ∃ xmin, SolvesGF2 matrix target xmin ∧
        solveGF2 matrix target = (onesCount xmin : ℤ) ∧
        ∀ y, SolvesGF2 matrix target y → onesCount xmin ≤ onesCount y) := by
  have hc0 : ¬ (matrix.length = 0) := fun h => hm (List.length_eq_zero.mp h)
  obtain ⟨A, p, pcs, colE, hrun, hinvE, hstopE, hsatE⟩ :=
    gaussAux_spec target.length matrix.length matrix.length 0 0
      ((List.range target.length).map fun i =>
        (((List.range matrix.length).map fun j =>
          (matrix.getD j []).getD i false) ++ [target.getD i false])) []
      (by omega) (GInv_init matrix target)
  have hprle := hinvE.hprle
  have hval : solveGF2 matrix target =
      if (List.range' p (target.length - p)).any
          (fun w => entry A w matrix.length) then (-1 : ℤ)
      else
        ((((List.range (2 ^ ((List.range matrix.length).filter fun c =>
              decide (¬ c ∈ pcs)).length)).map fun mask =>
            onesCount (buildSolution A pcs matrix.length p
              ((List.range matrix.length).filter fun c =>
                decide (¬ c ∈ pcs)) mask)).foldl
          min (matrix.length + 1) : ℕ) : ℤ) := by
    simp only [solveGF2, if_neg hc0, hrun]
  by_cases hchk : (List.range' p (target.length - p)).any
      (fun w => entry A w matrix.length) = true
  · rw [if_pos hchk] at hval
    have hnosol : ¬ ∃ x, SolvesGF2 matrix target x := by
      rintro ⟨x, hx⟩
      obtain ⟨hxlen, hxsat⟩ := (solvesGF2_iff_satAug matrix target x).mp hx
      have hxA : SatAug matrix.length A x := (hsatE x).mpr hxsat
      obtain ⟨w, hwmem, hwE⟩ := List.any_eq_true.mp hchk
      obtain ⟨hw1, hw2⟩ := List.mem_range'_1.mp hwmem
      have hwE' : entry A w matrix.length = true := hwE
      have hwrow : w < target.length := by omega
      have hrowmem : A.getD w [] ∈ A :=
        getD_mem_of_lt (by rw [hinvE.hlen]; omega)
      have hsatw : dotB (A.getD w []) x matrix.length =
          (A.getD w []).getD matrix.length false := hxA _ hrowmem
      rw [dotB_zero _ _ _ (fun c hc => by
        rw [show (A.getD w []).getD c false = entry A w c from rfl,
          tail_zero hinvE hstopE w hw1 hwrow c hc]
        simp)] at hsatw
      rw [show (A.getD w []).getD matrix.length false =
        entry A w matrix.length from rfl, hwE'] at hsatw
      exact Bool.false_ne_true hsatw
    exact ⟨⟨fun _ => hnosol, fun _ => hval⟩, fun hex => absurd hex hnosol⟩
  · rw [if_neg hchk] at hval
    have hcons : ∀ i, p ≤ i → i < target.length →
        entry A i matrix.length = false := by
      intro i h1 h2
      by_contra hE
      apply hchk
      apply List.any_eq_true.mpr
      refine ⟨i, List.mem_range'_1.mpr ⟨h1, by omega⟩, ?_⟩
      show entry A i matrix.length = true
      revert hE
      cases entry A i matrix.length <;> simp
    have hbuild : ∀ mask, ∃ sol',
        buildSolution A pcs matrix.length p ((List.range matrix.length).filter
          fun c => decide (¬ c ∈ pcs)) mask = sol' ∧
        SolvesGF2 matrix target sol' ∧
        sol'.length = matrix.length ∧
        (∀ j, j < p → sol'.getD (pcs.getD j 0) false =
          dotFrom (A.getD j []) sol' (pcs.getD j 0 + 1) matrix.length
            ((A.getD j []).getD matrix.length false)) ∧
        (∀ i, i < ((List.range matrix.length).filter fun c =>
            decide (¬ c ∈ pcs)).length →
          sol'.getD (((List.range matrix.length).filter fun c =>
            decide (¬ c ∈ pcs)).getD i 0) false = mask.testBit i) := by
      intro mask
      obtain ⟨sol', hrun', hlen', hvals, hfreeb⟩ := buildSolution_spec hinvE mask
      exact ⟨sol', hrun', (solvesGF2_iff_satAug matrix target sol').mpr
        ⟨hlen', (hsatE sol').mp (built_satAug hinvE hstopE hcons sol' hvals)⟩,
        hlen', hvals, hfreeb⟩
    set fv : List ℕ := (List.range matrix.length).filter
      fun c => decide (¬ c ∈ pcs) with hfvdef
    set counts : List ℕ := (List.range (2 ^ fv.length)).map fun mask =>
      onesCount (buildSolution A pcs matrix.length p fv mask) with hcountsdef
    set result : ℕ := counts.foldl min (matrix.length + 1) with hresultdef
    have hones_le : ∀ mask,
        onesCount (buildSolution A pcs matrix.length p fv mask) ≤
          matrix.length := by
      intro mask
      obtain ⟨sol', hrun', _, hlen', _, _⟩ := hbuild mask
      rw [hrun']
      show sol'.countP id ≤ matrix.length
      rw [List.countP_eq_length_filter, ← hlen']
      exact List.length_filter_le _ _
    have hzero_mem : onesCount (buildSolution A pcs matrix.length p fv 0) ∈
        counts := by
      rw [hcountsdef]
      exact List.mem_map.mpr ⟨0, List.mem_range.mpr
        (pow_pos (by omega : (0:ℕ) < 2) _), rfl⟩
    have hres_le : result ≤ matrix.length := by
      have h := foldl_min_le_mem counts (matrix.length + 1) _ hzero_mem
      rw [← hresultdef] at h
      exact le_trans h (hones_le 0)
    have hres_mem : result ∈ counts := by
      rcases foldl_min_mem_or counts (matrix.length + 1) with h | h
      · rw [← hresultdef] at h
        omega
      · rw [← hresultdef] at h
        exact h
    rw [hcountsdef] at hres_mem
    obtain ⟨mask₀, hmask₀, hfE⟩ := List.mem_map.mp hres_mem
    obtain ⟨xmin, hrunm, hsolm, hlenm, hvalsm, hfreem⟩ := hbuild mask₀
    rw [hrunm] at hfE
    have hmin : ∀ y, SolvesGF2 matrix target y →
        onesCount xmin ≤ onesCount y := by
      intro y hy
      obtain ⟨hylen, hysat₀⟩ := (solvesGF2_iff_satAug matrix target y).mp hy
      have hyA : SatAug matrix.length A y := (hsatE y).mpr hysat₀
      have hmy_lt : maskOf (fv.map fun c => y.getD c false) < 2 ^ fv.length := by
        have h := maskOf_lt (fv.map fun c => y.getD c false)
        rwa [List.length_map] at h
      obtain ⟨soly, hruny, hsoly, hleny, hvalsy, hfreey⟩ :=
        hbuild (maskOf (fv.map fun c => y.getD c false))
      have hagree : ∀ c, c < matrix.length → ¬ c ∈ pcs →
          soly.getD c false = y.getD c false := by
        intro c hclt hcp
        have hcfv := freeVars_mem.mpr ⟨hclt, hcp⟩
        rw [← hfvdef] at hcfv
        obtain ⟨i, hi, hie⟩ := mem_pcs_iff.mp hcfv
        rw [← hie, hfreey i hi,
          maskOf_testBit _ i (by rw [List.length_map]; exact hi),
          getD_map_lt _ _ i hi]
      have hally := sat_unique hinvE soly y hvalsy hyA hagree hleny hylen
      have hyeq : soly = y := ext_getD (by rw [hleny, hylen]) hally
      have hmemy : onesCount (buildSolution A pcs matrix.length p fv
          (maskOf (fv.map fun c => y.getD c false))) ∈ counts := by
        rw [hcountsdef]
        exact List.mem_map.mpr ⟨_, List.mem_range.mpr hmy_lt, rfl⟩
      have hley := foldl_min_le_mem counts (matrix.length + 1) _ hmemy
      rw [← hresultdef] at hley
      rw [hruny, hyeq] at hley
      omega
    have hne : solveGF2 matrix target ≠ -1 := by
      rw [hval]
      intro hE
      omega
    exact ⟨⟨fun hE => absurd hE hne, fun hns => absurd ⟨xmin, hsolm⟩ hns⟩,
      fun _ => ⟨xmin, hsolm, by rw [hval, ← hfE], hmin⟩⟩

theorem claim_C1_solveGF2_minimum_witness :
    ([[true]] : List (List Bool)) ≠ [] ∧
    (((solveGF2 [[true]] [true] = -1) ↔ ¬ ∃ x, SolvesGF2 [[true]] [true] x) ∧
      ((∃ x, SolvesGF2 [[true]] [true] x) →
        ∃ xmin, SolvesGF2 [[true]] [true] xmin ∧
          solveGF2 [[true]] [true] = (onesCount xmin : ℤ) ∧
          ∀ y, SolvesGF2 [[true]] [true] y → onesCount xmin ≤ onesCount y)) :=
  ⟨by decide, claim_C1_solveGF2_minimum [[true]] [true] (by decide)⟩

/-- The unamended C1 fails on a machine with no buttons: `solveGF2` returns
-1 although the empty press vector solves the system (the parser produces
such machines from a line like `[.]`, whose target is all zeros). -/
theorem claim_C1_counterexample :
    solveGF2 [] [false] = -1 ∧ SolvesGF2 [] [false] [] := by
  refine ⟨rfl, rfl, ?_⟩
  intro i hi
  have hi' : i = 0 := by simpa using hi
  subst hi'
  rfl

end Day10Y2025

end AoC
